import Mathlib

/-! # OM file format core: chunk encoder and variable descriptors

A shallow embedding of `om_encoder.c` and `om_variable.c`.

Conventions of the embedding

* C integers are natural numbers; every arithmetic operation that the C code performs in a
  fixed width is followed by an explicit reduction (`wrap32` for `unsigned int`, `wrap64` for
  `uint64_t` and `size_t`, LP64 data model).  Pointer arithmetic (`p + k`, `p[i]`) is plain
  addition of byte offsets.
* A byte region is a function from byte offsets (relative to the pointer the C function
  receives) to bytes.  Multi-byte fields are little-endian.
* C arrays passed by pointer (`dimensions`, `chunks`, `children`, `name`, ...) are functions
  from the index to the element.
* `for` loops with an ascending counter are `forUp`, loops with a descending counter are
  structural recursions on the number of iterations still to run.
-/

namespace OmFile

/-! ## Machine arithmetic -/

/-- Reduction of a value to `unsigned int` / `uint32_t`. -/
def wrap32 (x : Nat) : Nat := x % 4294967296

/-- Reduction of a value to `uint64_t` / `size_t`. -/
def wrap64 (x : Nat) : Nat := x % 18446744073709551616

/-- Subtraction of two `uint64_t` values (both below `2^64`), wrapping around on underflow. -/
def sub64 (a b : Nat) : Nat := (a + 18446744073709551616 - b) % 18446744073709551616

/-- Runs `body 0`, `body 1`, ..., `body (n-1)` in this order: `for (i = 0; i < n; i++) body`. -/
def forUp {σ : Type} (n : Nat) (body : Nat → σ → σ) (s : σ) : σ :=
  match n with
  | 0 => s
  | k + 1 => body k (forUp k body s)

/-! ## Byte regions -/

/-- One byte. -/
abbrev Byte := Fin 256

/-- The low byte of a number: the conversion `(uint8_t)n`. -/
def Byte.ofNat (n : Nat) : Byte := ⟨n % 256, Nat.mod_lt n (by decide)⟩

/-- Byte region: the byte stored at each offset from the base pointer. -/
abbrev Mem := Nat → Byte

/-- Stores one byte at offset `a`. -/
def store_u8 (m : Mem) (a : Nat) (b : Byte) : Mem :=
  fun x => if x = a then b else m x

/-- Stores the `w` low-order bytes of `v` at offsets `a, a+1, ...`, least significant first. -/
def store_le (m : Mem) (a : Nat) (w : Nat) (v : Nat) : Mem :=
  match w with
  | 0 => m
  | k + 1 => store_le (store_u8 m a (Byte.ofNat v)) (a + 1) k (v / 256)

/-- Loads the `w`-byte little-endian number at offset `a`. -/
def load_le (m : Mem) (a : Nat) (w : Nat) : Nat :=
  match w with
  | 0 => 0
  | k + 1 => (m a).val + 256 * load_le m (a + 1) k

/-- Copies `n` bytes: `for (i = 0; i < n; i++) dst[i] = src[i]`. -/
def copy_bytes (m : Mem) (dst : Nat) (src : Nat → Byte) (n : Nat) : Mem :=
  forUp n (fun i acc => store_u8 acc (dst + i) (src i)) m

/-! ## Enumerations and record layouts of `om_common.h` / `om_variable.h`

The header files are not part of the sources at hand; the enumerator values and the field
layouts below are the ones the format description fixes. -/

/-- Modelled from the spec: `OmDataType_t`, enumerator `DATA_TYPE_NONE = 0`. -/
abbrev DATA_TYPE_NONE : Nat := 0
/-- Modelled from the spec: `OmDataType_t`, enumerator `DATA_TYPE_INT8 = 1`. -/
abbrev DATA_TYPE_INT8 : Nat := 1
/-- Modelled from the spec: `OmDataType_t`, enumerator `DATA_TYPE_UINT8 = 2`. -/
abbrev DATA_TYPE_UINT8 : Nat := 2
/-- Modelled from the spec: `OmDataType_t`, enumerator `DATA_TYPE_INT16 = 3`. -/
abbrev DATA_TYPE_INT16 : Nat := 3
/-- Modelled from the spec: `OmDataType_t`, enumerator `DATA_TYPE_UINT16 = 4`. -/
abbrev DATA_TYPE_UINT16 : Nat := 4
/-- Modelled from the spec: `OmDataType_t`, enumerator `DATA_TYPE_INT32 = 5`. -/
abbrev DATA_TYPE_INT32 : Nat := 5
/-- Modelled from the spec: `OmDataType_t`, enumerator `DATA_TYPE_UINT32 = 6`. -/
abbrev DATA_TYPE_UINT32 : Nat := 6
/-- Modelled from the spec: `OmDataType_t`, enumerator `DATA_TYPE_INT64 = 7`. -/
abbrev DATA_TYPE_INT64 : Nat := 7
/-- Modelled from the spec: `OmDataType_t`, enumerator `DATA_TYPE_UINT64 = 8`. -/
abbrev DATA_TYPE_UINT64 : Nat := 8
/-- Modelled from the spec: `OmDataType_t`, enumerator `DATA_TYPE_FLOAT = 9`. -/
abbrev DATA_TYPE_FLOAT : Nat := 9
/-- Modelled from the spec: `OmDataType_t`, enumerator `DATA_TYPE_DOUBLE = 10`. -/
abbrev DATA_TYPE_DOUBLE : Nat := 10
/-- Modelled from the spec: `OmDataType_t`, enumerator `DATA_TYPE_STRING = 11`. -/
abbrev DATA_TYPE_STRING : Nat := 11
/-- Modelled from the spec: `OmDataType_t`, enumerator `DATA_TYPE_INT8_ARRAY = 12`, the first
of the contiguous array kinds. -/
abbrev DATA_TYPE_INT8_ARRAY : Nat := 12
/-- Modelled from the spec: `OmDataType_t`, enumerator `DATA_TYPE_DOUBLE_ARRAY = 21`, the last
of the contiguous numeric array kinds. -/
abbrev DATA_TYPE_DOUBLE_ARRAY : Nat := 21
/-- Modelled from the spec: `OmDataType_t`, enumerator `DATA_TYPE_STRING_ARRAY = 22`. -/
abbrev DATA_TYPE_STRING_ARRAY : Nat := 22

/-- Modelled from the spec: `SIZE_VARIABLEV3` is defined in `om_variable.c` as 8; it is also
`sizeof(OmVariableV3_t)`, the header `data_type:u8, compression_type:u8, length_of_name:u16,
number_of_children:u32`. -/
abbrev SIZE_VARIABLEV3 : Nat := 8

/-- Modelled from the spec: `sizeof(OmVariableArrayV3_t)`, the header `data_type:u8,
compression_type:u8, length_of_name:u16, number_of_children:u32, scale_factor:f32,
add_offset:f32, dimension_count:u64, lut_size:u64, lut_offset:u64` (no padding). -/
abbrev SIZEOF_ARRAYV3 : Nat := 40

/-- The three memory layouts, `OmMemoryLayout_t`. -/
inductive OmMemoryLayout_t where
  | OM_MEMORY_LAYOUT_LEGACY
  | OM_MEMORY_LAYOUT_ARRAY
  | OM_MEMORY_LAYOUT_SCALAR
  deriving DecidableEq

/-- The error codes the descriptor reader returns, `OmError_t`. -/
inductive OmError_t where
  | ERROR_OK
  | ERROR_INVALID_DATA_TYPE
  deriving DecidableEq

/-- An `(offset, size)` pair, `OmOffsetSize_t`: two `uint64_t`, `offset` first. -/
structure OmOffsetSize_t where
  offset : Nat
  size : Nat
  deriving DecidableEq

/-- A borrowed string view, `OmString_t`: `value` is the byte offset of the first character,
`none` for the `NULL` pointer. -/
structure OmString_t where
  size : Nat
  value : Option Nat
  deriving DecidableEq

/-- A borrowed view of `uint64_t` values, `OmDimensions_t`: `values` is the byte offset of the
first value, `none` for the `NULL` pointer. -/
structure OmDimensions_t where
  count : Nat
  values : Option Nat
  deriving DecidableEq

/-! ### Field accessors of the headers -/

/-- The field `((OmVariableV3_t*)variable)->data_type`. -/
def meta_data_type (var : Mem) : Nat := load_le var 0 1
/-- The field `((OmVariableV3_t*)variable)->compression_type`. -/
def meta_compression_type (var : Mem) : Nat := load_le var 1 1
/-- The field `((OmVariableV3_t*)variable)->length_of_name`. -/
def meta_length_of_name (var : Mem) : Nat := load_le var 2 2
/-- The field `((OmVariableV3_t*)variable)->number_of_children`. -/
def meta_number_of_children (var : Mem) : Nat := load_le var 4 4
/-- The field `((OmVariableArrayV3_t*)variable)->dimension_count`. -/
def meta_dimension_count (var : Mem) : Nat := load_le var 16 8
/-- The field `((OmHeaderV3_t*)variable)->magic_number1`. -/
def meta_magic_number1 (var : Mem) : Nat := load_le var 0 1
/-- The field `((OmHeaderV3_t*)variable)->magic_number2`. -/
def meta_magic_number2 (var : Mem) : Nat := load_le var 1 1
/-- The field `((OmHeaderV3_t*)variable)->version`. -/
def meta_version (var : Mem) : Nat := load_le var 2 1

/-- The field `((OmHeaderV1_t*)variable)->version`, byte 2 of the legacy header
`magic1:u8, magic2:u8, version:u8, compression_type:u8, scale_factor:f32, dim0:u64, dim1:u64,
chunk0:u64, chunk1:u64`. -/
def legacy_version (var : Mem) : Nat := load_le var 2 1
/-- The field `((OmHeaderV1_t*)variable)->compression_type`, byte 3 of the legacy header. -/
def legacy_compression_type (var : Mem) : Nat := load_le var 3 1

/-- Modelled from the spec: `OmDataType_t`, enumerator `DATA_TYPE_FLOAT_ARRAY`; the array kinds
are contiguous from `INT8_ARRAY = 12` to `DOUBLE_ARRAY = 21` in the order of the scalar kinds,
which puts `FLOAT_ARRAY` at 20. -/
abbrev DATA_TYPE_FLOAT_ARRAY : Nat := 20

/-- Modelled from the spec: the field `dim0` of the legacy header `OmHeaderV1_t`, a `uint64_t`
at byte offset 8. -/
def legacy_dim0 (var : Mem) : Nat := load_le var 8 8
/-- Modelled from the spec: the field `dim1` of the legacy header, a `uint64_t` at byte
offset 16. -/
def legacy_dim1 (var : Mem) : Nat := load_le var 16 8
/-- Modelled from the spec: the field `chunk0` of the legacy header, a `uint64_t` at byte
offset 24. -/
def legacy_chunk0 (var : Mem) : Nat := load_le var 24 8
/-- Modelled from the spec: the field `chunk1` of the legacy header, a `uint64_t` at byte
offset 32. -/
def legacy_chunk1 (var : Mem) : Nat := load_le var 32 8

/-! ## `om_variable.c`: the reader -/

/-- Width in bytes of the value of a scalar of type `data_type`, as the `switch` statements of
`om_variable_get_scalar`, `om_variable_write_scalar` and `om_variable_get_name` select it;
`none` is their `default` branch. -/
def scalar_width (data_type : Nat) : Option Nat :=
  if data_type = DATA_TYPE_INT8 ∨ data_type = DATA_TYPE_UINT8 then some 1
  else if data_type = DATA_TYPE_INT16 ∨ data_type = DATA_TYPE_UINT16 then some 2
  else if data_type = DATA_TYPE_INT32 ∨ data_type = DATA_TYPE_UINT32
      ∨ data_type = DATA_TYPE_FLOAT then some 4
  else if data_type = DATA_TYPE_INT64 ∨ data_type = DATA_TYPE_UINT64
      ∨ data_type = DATA_TYPE_DOUBLE then some 8
  else none

/-- The function `_om_variable_memory_layout`: `'O'` is 79 and `'M'` is 77. -/
def _om_variable_memory_layout (var : Mem) : OmMemoryLayout_t :=
  let isLegacy : Bool :=
    decide (meta_magic_number1 var = 79) && decide (meta_magic_number2 var = 77)
      && (decide (meta_version var = 1) || decide (meta_version var = 2))
  if isLegacy then
    OmMemoryLayout_t.OM_MEMORY_LAYOUT_LEGACY
  else
    let isArray : Bool :=
      decide (DATA_TYPE_INT8_ARRAY ≤ meta_data_type var)
        && decide (meta_data_type var ≤ DATA_TYPE_DOUBLE_ARRAY)
    if isArray then OmMemoryLayout_t.OM_MEMORY_LAYOUT_ARRAY
    else OmMemoryLayout_t.OM_MEMORY_LAYOUT_SCALAR

/-- The function `om_variable_get_name`.  The products `16 * meta->number_of_children` are computed in
`unsigned int`, `16 * meta->dimension_count` in `uint64_t`. -/
def om_variable_get_name (var : Mem) : OmString_t :=
  match _om_variable_memory_layout var with
  | OmMemoryLayout_t.OM_MEMORY_LAYOUT_LEGACY => ⟨0, none⟩
  | OmMemoryLayout_t.OM_MEMORY_LAYOUT_ARRAY =>
    ⟨meta_length_of_name var,
      some (SIZEOF_ARRAYV3 + wrap32 (16 * meta_number_of_children var)
        + wrap64 (16 * meta_dimension_count var))⟩
  | OmMemoryLayout_t.OM_MEMORY_LAYOUT_SCALAR =>
    let base := SIZE_VARIABLEV3 + wrap32 (16 * meta_number_of_children var)
    match scalar_width (meta_data_type var) with
    | some w => ⟨meta_length_of_name var, some (base + w)⟩
    | none => ⟨0, none⟩

/-- The function `om_variable_get_type`. -/
def om_variable_get_type (var : Mem) : Nat :=
  match _om_variable_memory_layout var with
  | OmMemoryLayout_t.OM_MEMORY_LAYOUT_LEGACY => DATA_TYPE_FLOAT_ARRAY
  | OmMemoryLayout_t.OM_MEMORY_LAYOUT_ARRAY => meta_data_type var
  | OmMemoryLayout_t.OM_MEMORY_LAYOUT_SCALAR => meta_data_type var

/-- The function `om_variable_get_compression`.  The value of the enumerator
`COMPRESSION_PFOR_16BIT_DELTA2D` is declared in a header that is not at hand and is a
parameter. -/
def om_variable_get_compression (COMPRESSION_PFOR_16BIT_DELTA2D : Nat) (var : Mem) : Nat :=
  match _om_variable_memory_layout var with
  | OmMemoryLayout_t.OM_MEMORY_LAYOUT_LEGACY =>
    if legacy_version var = 1 then COMPRESSION_PFOR_16BIT_DELTA2D
    else legacy_compression_type var
  | OmMemoryLayout_t.OM_MEMORY_LAYOUT_ARRAY => meta_compression_type var
  | OmMemoryLayout_t.OM_MEMORY_LAYOUT_SCALAR => meta_compression_type var

/-- The function `om_variable_get_dimensions`; `&meta->dim0` is at offset 8 of the legacy header. -/
def om_variable_get_dimensions (var : Mem) : OmDimensions_t :=
  match _om_variable_memory_layout var with
  | OmMemoryLayout_t.OM_MEMORY_LAYOUT_LEGACY => ⟨2, some 8⟩
  | OmMemoryLayout_t.OM_MEMORY_LAYOUT_ARRAY =>
    ⟨meta_dimension_count var,
      some (SIZEOF_ARRAYV3 + wrap32 (16 * meta_number_of_children var))⟩
  | OmMemoryLayout_t.OM_MEMORY_LAYOUT_SCALAR => ⟨0, none⟩

/-- The function `om_variable_get_chunks`; `&meta->chunk0` is at offset 24 of the legacy header. -/
def om_variable_get_chunks (var : Mem) : OmDimensions_t :=
  match _om_variable_memory_layout var with
  | OmMemoryLayout_t.OM_MEMORY_LAYOUT_LEGACY => ⟨2, some 24⟩
  | OmMemoryLayout_t.OM_MEMORY_LAYOUT_ARRAY =>
    ⟨meta_dimension_count var,
      some (SIZEOF_ARRAYV3 + wrap32 (16 * meta_number_of_children var)
        + wrap64 (8 * meta_dimension_count var))⟩
  | OmMemoryLayout_t.OM_MEMORY_LAYOUT_SCALAR => ⟨0, none⟩

/-- The `i`-th `uint64_t` of a view returned by `om_variable_get_dimensions` or
`om_variable_get_chunks`: `view.values[i]`. -/
def OmDimensions_t.get (var : Mem) (view : OmDimensions_t) (i : Nat) : Option Nat :=
  match view.values with
  | none => none
  | some p => some (load_le var (p + 8 * i) 8)

/-- The `i`-th character of a view returned by `om_variable_get_name`: `view.value[i]`. -/
def OmString_t.get (var : Mem) (view : OmString_t) (i : Nat) : Option Byte :=
  match view.value with
  | none => none
  | some p => some (var (p + i))

/-- The function `om_variable_get_number_of_children`. -/
def om_variable_get_number_of_children (var : Mem) : Nat :=
  match _om_variable_memory_layout var with
  | OmMemoryLayout_t.OM_MEMORY_LAYOUT_LEGACY => 0
  | OmMemoryLayout_t.OM_MEMORY_LAYOUT_ARRAY => meta_number_of_children var
  | OmMemoryLayout_t.OM_MEMORY_LAYOUT_SCALAR => meta_number_of_children var

/-- The conversion of an `int` to `unsigned int`, as the comparison
`nChild < meta->number_of_children` performs it. -/
def int_to_u32 (x : Int) : Nat := (x % 4294967296).toNat

/-- Reads the `OmOffsetSize_t` stored at byte offset `a`. -/
def load_offset_size (var : Mem) (a : Nat) : OmOffsetSize_t :=
  ⟨load_le var a 8, load_le var (a + 8) 8⟩

/-- The function `om_variable_get_child`.  `nChild` is a C `int`; the element `chilrden[nChild]` lies at
byte offset `sizeof_variable + 16 * nChild`, and the result is `none` when that offset is
negative, a read in front of the descriptor. -/
def om_variable_get_child (var : Mem) (nChild : Int) : Option OmOffsetSize_t :=
  match _om_variable_memory_layout var with
  | OmMemoryLayout_t.OM_MEMORY_LAYOUT_LEGACY => some ⟨0, 0⟩
  | layout =>
    let sizeof_variable : Nat :=
      if layout = OmMemoryLayout_t.OM_MEMORY_LAYOUT_ARRAY then SIZEOF_ARRAYV3
      else SIZE_VARIABLEV3
    if int_to_u32 nChild < meta_number_of_children var then
      let a : Int := (sizeof_variable : Int) + 16 * nChild
      if 0 ≤ a then some (load_offset_size var a.toNat) else none
    else
      some ⟨0, 0⟩

/-- The function `om_variable_get_scalar`: returns the error code and the contents of the caller's buffer
`value` after the call. -/
def om_variable_get_scalar (var : Mem) (value : Mem) : OmError_t × Mem :=
  if _om_variable_memory_layout var ≠ OmMemoryLayout_t.OM_MEMORY_LAYOUT_SCALAR then
    (OmError_t.ERROR_INVALID_DATA_TYPE, value)
  else
    let src := SIZE_VARIABLEV3 + wrap32 (16 * meta_number_of_children var)
    match scalar_width (meta_data_type var) with
    | some w => (OmError_t.ERROR_OK, copy_bytes value 0 (fun i => var (src + i)) w)
    | none => (OmError_t.ERROR_INVALID_DATA_TYPE, value)

/-! ## `om_variable.c`: the writer -/

/-- The function `om_variable_write_scalar_size`: `base` is computed in `unsigned int`, the final addition
in `size_t`. -/
def om_variable_write_scalar_size (length_of_name number_of_children data_type : Nat) : Nat :=
  let base := wrap32 (SIZE_VARIABLEV3 + length_of_name + wrap32 (number_of_children * 16))
  if data_type = DATA_TYPE_NONE then base
  else if data_type = DATA_TYPE_INT8 ∨ data_type = DATA_TYPE_UINT8 then wrap64 (base + 1)
  else if data_type = DATA_TYPE_INT16 ∨ data_type = DATA_TYPE_UINT16 then wrap64 (base + 2)
  else if data_type = DATA_TYPE_INT32 ∨ data_type = DATA_TYPE_UINT32
      ∨ data_type = DATA_TYPE_FLOAT then wrap64 (base + 4)
  else if data_type = DATA_TYPE_INT64 ∨ data_type = DATA_TYPE_UINT64
      ∨ data_type = DATA_TYPE_DOUBLE then wrap64 (base + 8)
  else 0

/-- The function `_om_variable_write_children`: `childrenDest[i] = children[i]` for `i < number_of_children`;
entry `i` occupies the 16 bytes from `dst + 16 * i`. -/
def _om_variable_write_children (m : Mem) (dst : Nat) (number_of_children : Nat)
    (children : Nat → OmOffsetSize_t) : Mem :=
  forUp number_of_children
    (fun i acc =>
      store_le (store_le acc (dst + 16 * i) 8 (children i).offset)
        (dst + 16 * i + 8) 8 (children i).size) m

/-- The function `om_variable_write_scalar`: returns the destination region after the call and the
`(offset, size)` result.  `value` is the caller's value buffer, of which the `switch` copies 1,
2, 4 or 8 bytes.  The enumerator `COMPRESSION_NONE` is declared in a header that is not at hand
and is a parameter. -/
def om_variable_write_scalar (COMPRESSION_NONE : Nat) (dst : Mem) (offset : Nat)
    (length_of_name number_of_children : Nat) (children : Nat → OmOffsetSize_t)
    (name : Nat → Byte) (data_type : Nat) (value : Nat → Byte) : Mem × OmOffsetSize_t :=
  let m0 := store_le dst 0 1 data_type
  let m1 := store_le m0 1 1 COMPRESSION_NONE
  let m2 := store_le m1 2 2 length_of_name
  let m3 := store_le m2 4 4 number_of_children
  let m4 := _om_variable_write_children m3 SIZE_VARIABLEV3 number_of_children children
  let destValue := SIZE_VARIABLEV3 + wrap32 (16 * number_of_children)
  let valueSize : Nat := (scalar_width data_type).getD 0
  let m5 := copy_bytes m4 destValue value valueSize
  let destName := destValue + valueSize
  let m6 := copy_bytes m5 destName name length_of_name
  (m6, ⟨offset,
    wrap32 (SIZE_VARIABLEV3 + wrap32 (16 * number_of_children) + valueSize + length_of_name)⟩)

/-- The function `om_variable_write_numeric_array_size`: `number_of_children * 16` is computed in
`unsigned int`, everything else in `size_t`. -/
def om_variable_write_numeric_array_size (length_of_name number_of_children
    dimension_count : Nat) : Nat :=
  wrap64 (wrap64 (wrap64 (SIZEOF_ARRAYV3 + length_of_name) + wrap32 (number_of_children * 16))
    + wrap64 (dimension_count * 16))

/-- The function `om_variable_write_numeric_array`: returns the destination region after the call and the
`(offset, size)` result.  `scale_factor` and `add_offset` are the 32-bit patterns of the two
floats. -/
def om_variable_write_numeric_array (dst : Mem) (offset : Nat)
    (length_of_name number_of_children : Nat) (children : Nat → OmOffsetSize_t)
    (name : Nat → Byte) (data_type compression_type : Nat) (scale_factor add_offset : Nat)
    (dimension_count : Nat) (dimensions chunks : Nat → Nat) (lut_size lut_offset : Nat) :
    Mem × OmOffsetSize_t :=
  let m0 := store_le dst 0 1 data_type
  let m1 := store_le m0 1 1 compression_type
  let m2 := store_le m1 2 2 length_of_name
  let m3 := store_le m2 4 4 number_of_children
  let m4 := store_le m3 8 4 scale_factor
  let m5 := store_le m4 12 4 add_offset
  let m6 := store_le m5 16 8 dimension_count
  let m7 := store_le m6 24 8 lut_size
  let m8 := store_le m7 32 8 lut_offset
  let m9 := _om_variable_write_children m8 SIZEOF_ARRAYV3 number_of_children children
  let baseDimensions := SIZEOF_ARRAYV3 + wrap32 (16 * number_of_children)
  let baseChunks := SIZEOF_ARRAYV3 + wrap32 (16 * number_of_children)
    + wrap64 (8 * dimension_count)
  let m10 := forUp dimension_count
    (fun i acc =>
      store_le (store_le acc (baseDimensions + 8 * i) 8 (dimensions i))
        (baseChunks + 8 * i) 8 (chunks i)) m9
  let baseName := SIZEOF_ARRAYV3 + wrap32 (16 * number_of_children)
    + wrap64 (16 * dimension_count)
  let m11 := copy_bytes m10 baseName name length_of_name
  (m11, ⟨offset,
    wrap64 (wrap64 (wrap64 (SIZEOF_ARRAYV3 + length_of_name) + wrap32 (number_of_children * 16))
      + wrap64 (dimension_count * 16))⟩)

/-! ## `om_encoder.c` -/

/-- Modelled from the spec: the helper `divide_rounded_up` of `om_common.h`, which is not at
hand; the format description uses it as the quotient rounded up, `⌈a / b⌉`. -/
def divide_rounded_up (a b : Nat) : Nat := (a + b - 1) / b

/-- The three codecs an encoder can be configured with. -/
inductive om_compression_t where
  | COMPRESSION_P4NZDEC256
  | COMPRESSION_FPXDEC32
  | COMPRESSION_P4NZDEC256_LOGARITHMIC
  deriving DecidableEq

/-- The value of a `float` that `roundf` has returned: an integer (every finite result of
`roundf` is one), an infinity, or a NaN. -/
inductive Rounded where
  | nan
  | neg_inf
  | pos_inf
  | int (z : Int)
  deriving DecidableEq

/-- The C library function `fminf` on such values: the smaller argument, and the other
argument when one of them is a NaN. -/
def fminf (a b : Rounded) : Rounded :=
  match a, b with
  | Rounded.nan, y => y
  | x, Rounded.nan => x
  | Rounded.neg_inf, _ => Rounded.neg_inf
  | _, Rounded.neg_inf => Rounded.neg_inf
  | Rounded.pos_inf, y => y
  | x, Rounded.pos_inf => x
  | Rounded.int x, Rounded.int y => Rounded.int (min x y)

/-- The C library function `fmaxf` on such values: the greater argument, and the other
argument when one of them is a NaN. -/
def fmaxf (a b : Rounded) : Rounded :=
  match a, b with
  | Rounded.nan, y => y
  | x, Rounded.nan => x
  | Rounded.pos_inf, _ => Rounded.pos_inf
  | _, Rounded.pos_inf => Rounded.pos_inf
  | Rounded.neg_inf, y => y
  | x, Rounded.neg_inf => x
  | Rounded.int x, Rounded.int y => Rounded.int (max x y)

/-- The conversion `(int16_t)x` of a `float` that holds an integer.  The copy loops convert
only values that `fmaxf(INT16_MIN, fminf(INT16_MAX, .))` has produced, which are integers in
the range of `int16_t`; for an infinity or a NaN, which the conversion does not define, the
value stands as 0. -/
def to_int16 (x : Rounded) : Int :=
  match x with
  | Rounded.int z => z
  | _ => 0

/-- The single-precision operations the copy loops use, over an abstract type `F` of `float`
values: `isnan`, multiplication, `log10f(1 + val)`, and `roundf`, whose result is given by its
value. -/
structure FloatOps (F : Type) where
  isnan : F → Bool
  mul : F → F → F
  log10f_one_plus : F → F
  roundf : F → Rounded

/-- The encoder record `om_encoder_t`; `dimensions` and `chunks` are the borrowed arrays. -/
structure om_encoder_t (F : Type) where
  scalefactor : F
  compression : om_compression_t
  dimensions : Nat → Nat
  chunks : Nat → Nat
  dimension_count : Nat
  lut_chunk_element_count : Nat

/-- The function `om_encoder_number_of_chunks`. -/
def om_encoder_number_of_chunks {F : Type} (encoder : om_encoder_t F) : Nat :=
  forUp encoder.dimension_count
    (fun i n => wrap64 (n * divide_rounded_up (encoder.dimensions i) (encoder.chunks i))) 1

/-- The function `om_encoder_number_of_chunks_in_array`. -/
def om_encoder_number_of_chunks_in_array {F : Type} (encoder : om_encoder_t F)
    (array_count : Nat → Nat) : Nat :=
  forUp encoder.dimension_count
    (fun i n => wrap64 (n * divide_rounded_up (array_count i) (encoder.chunks i))) 1

/-- The macro `P4NENC256_BOUND(n)`, `(n + 255) / 256 + (n + 32) * sizeof(uint32_t)`, in
`uint64_t` arithmetic. -/
def P4NENC256_BOUND (n : Nat) : Nat :=
  wrap64 (wrap64 (n + 255) / 256 + wrap64 (wrap64 (n + 32) * 4))

/-- The function `om_encoder_chunk_buffer_size`. -/
def om_encoder_chunk_buffer_size {F : Type} (encoder : om_encoder_t F) : Nat :=
  P4NENC256_BOUND (forUp encoder.dimension_count (fun i n => wrap64 (n * encoder.chunks i)) 1)

/-- The function `om_encoder_minimum_chunk_write_buffer`. -/
def om_encoder_minimum_chunk_write_buffer {F : Type} (encoder : om_encoder_t F) : Nat :=
  P4NENC256_BOUND (om_encoder_number_of_chunks encoder)

/-- The function `om_encoder_output_buffer_capacity`; `lutBufferSize = nChunks * 8` is a
`uint64_t` product.  Modelled from the spec: the macro `max` of `om_common.h`, which is not at
hand, is the greater of its two arguments. -/
def om_encoder_output_buffer_capacity {F : Type} (encoder : om_encoder_t F) : Nat :=
  let bufferSize := om_encoder_chunk_buffer_size encoder
  let nChunks := om_encoder_number_of_chunks encoder
  let lutBufferSize := wrap64 (nChunks * 8)
  max 4096 (max lutBufferSize bufferSize)

/-- The constant `INT_MAX` of the 32-bit `int`. -/
abbrev INT_MAX : Nat := 2147483647

/-- The entries `&lookUpTable[rangeStart] .. ` of length `rangeEnd - rangeStart` that the
`i`-th pass of the loops of `om_encoder_size_of_compressed_lut` and `om_encoder_compress_lut`
hands to `p4ndenc64`, with `rangeStart = i * lut_chunk_element_count` and
`rangeEnd = min(rangeStart + lut_chunk_element_count, lookUpTableCount)` in `uint64_t`
arithmetic.  Modelled from the spec: the macro `min` of `om_common.h` is the smaller of its two
arguments. -/
def lut_range {F : Type} (encoder : om_encoder_t F) (lookUpTable : Nat → Nat)
    (lookUpTableCount i : Nat) : List Nat :=
  let rangeStart := wrap64 (i * encoder.lut_chunk_element_count)
  let rangeEnd := min (wrap64 (rangeStart + encoder.lut_chunk_element_count)) lookUpTableCount
  (List.range (sub64 rangeEnd rangeStart)).map (fun j => lookUpTable (rangeStart + j))

/-- One pass of the loop of `om_encoder_size_of_compressed_lut`, for a group whose compressed
output has `len` bytes: `p4ndenc64` writes the output into the local array
`unsigned char buffer[MAX_LUT_ELEMENTS + 32]`, and `maxLength` is raised to `len` where `len`
is greater.  An output longer than the array overruns it, and the state is then `none`. -/
def lut_size_step (MAX_LUT_ELEMENTS len : Nat) (state : Option Nat) : Option Nat :=
  match state with
  | none => none
  | some maxLength =>
    if MAX_LUT_ELEMENTS + 32 < len then none
    else if len > maxLength then some len else some maxLength

/-- The function `om_encoder_size_of_compressed_lut`.  The codec `p4ndenc64` is external and a
parameter: it maps the entries it is given to the bytes it writes, and the length it reports is
the number of those bytes.  The constant `MAX_LUT_ELEMENTS` is declared in a header that is
not at hand and is a parameter.  The result is `none` where the behaviour of the code is not
defined: where a group overruns the local array `buffer`, and where the loop counter, an
`int` compared with the `uint64_t` `nLutChunks`, would have to pass `INT_MAX`, its increment
overflowing. -/
def om_encoder_size_of_compressed_lut {F : Type} (MAX_LUT_ELEMENTS : Nat)
    (p4ndenc64 : List Nat → List Byte) (encoder : om_encoder_t F) (lookUpTable : Nat → Nat)
    (lookUpTableCount : Nat) : Option Nat :=
  let nLutChunks := divide_rounded_up lookUpTableCount encoder.lut_chunk_element_count
  if INT_MAX < nLutChunks then none
  else
    match forUp nLutChunks
      (fun i state =>
        lut_size_step MAX_LUT_ELEMENTS
          (p4ndenc64 (lut_range encoder lookUpTable lookUpTableCount i)).length state)
      (some 0) with
    | none => none
    | some maxLength => some (wrap64 (maxLength * nLutChunks))

/-- The function `om_encoder_compress_lut`: returns the contents of `out` after the call.  The
division `size_of_compressed_lut / nLutChunks` has no value for an empty table, and the result
is then `none`. -/
def om_encoder_compress_lut {F : Type} (p4ndenc64 : List Nat → List Byte)
    (encoder : om_encoder_t F) (lookUpTable : Nat → Nat) (lookUpTableCount : Nat) (out : Mem)
    (size_of_compressed_lut : Nat) : Option Mem :=
  let nLutChunks := divide_rounded_up lookUpTableCount encoder.lut_chunk_element_count
  if nLutChunks = 0 then none
  else
    let lutChunkLength := size_of_compressed_lut / nLutChunks
    some (forUp nLutChunks
      (fun i out =>
        let bytes := p4ndenc64 (lut_range encoder lookUpTable lookUpTableCount i)
        copy_bytes out (wrap64 (i * lutChunkLength)) (fun j => bytes.getD j 0) bytes.length)
      out)

/-- One element of the staging buffer `chunkBuffer`, seen through the pointer type the codec
branch casts it to: an `int16_t` or a `float`. -/
inductive Staged (F : Type) where
  | int16 (v : Int)
  | float32 (v : F)

/-- The constant `INT16_MAX`. -/
abbrev INT16_MAX : Int := 32767

/-- The constant `INT16_MIN`. -/
abbrev INT16_MIN : Int := -32768

/-- The body of the copy loop of `om_encoder_writeSingleChunk` for one source element: the
value stored into the staging buffer under each of the three codecs. -/
def stage_element {F : Type} (ops : FloatOps F) (encoder : om_encoder_t F) (val : F) :
    Staged F :=
  match encoder.compression with
  | om_compression_t.COMPRESSION_P4NZDEC256 =>
    if ops.isnan val then Staged.int16 INT16_MAX
    else
      let scaled := ops.mul val encoder.scalefactor
      Staged.int16 (to_int16 (fmaxf (Rounded.int INT16_MIN)
        (fminf (Rounded.int INT16_MAX) (ops.roundf scaled))))
  | om_compression_t.COMPRESSION_FPXDEC32 => Staged.float32 val
  | om_compression_t.COMPRESSION_P4NZDEC256_LOGARITHMIC =>
    if ops.isnan val then Staged.int16 INT16_MAX
    else
      let scaled := ops.mul (ops.log10f_one_plus val) encoder.scalefactor
      Staged.int16 (to_int16 (fmaxf (Rounded.int INT16_MIN)
        (fminf (Rounded.int INT16_MAX) (ops.roundf scaled))))

/-- How a run of `om_encoder_writeSingleChunk` ends: at the compression step with a value, on
a failed `assert`, or not within the given number of iterations of `while (true)`. -/
inductive ChunkResult (α : Type) where
  | ok (a : α)
  | assertion_failed
  | out_of_fuel

/-- The local variables the first `for` loop of `om_encoder_writeSingleChunk` updates. -/
structure UnpackState where
  rollingMultiply : Nat
  rollingMultiplyChunkLength : Nat
  rollingMultiplyTargetCube : Nat
  readCoordinate : Nat
  linearReadCount : Nat
  linearRead : Bool
  lengthLast : Nat
  deriving DecidableEq

/-- The two `if` statements that maintain `linearReadCount` and `linearRead`; they appear
with the same text in both `for` loops of `om_encoder_writeSingleChunk`.  `last` is
`i == encoder->dimension_count - 1`, `full` is
`arrayCount[i] == length0 && arrayDimensions[i] == length0`, and the pair is
`(linearReadCount, linearRead)`. -/
def linear_run_update (last full : Bool) (length0 : Nat) (run : Nat × Bool) : Nat × Bool :=
  let run1 : Nat × Bool := if last = true ∧ full = false then (length0, false) else run
  if run1.2 = true ∧ full = true then (wrap64 (run1.1 * length0), true) else (run1.1, false)

/-- The body of the first `for` loop for axis `i`; `none` is a failed `assert`. -/
def unpack_step {F : Type} (encoder : om_encoder_t F)
    (arrayDimensions arrayOffset arrayCount : Nat → Nat)
    (chunkIndex chunkIndexOffsetInThisArray : Nat) (i : Nat) (s : UnpackState) :
    Option UnpackState :=
  let nChunksInThisDimension := divide_rounded_up (encoder.dimensions i) (encoder.chunks i)
  let c0 := (chunkIndex / s.rollingMultiply) % nChunksInThisDimension
  let c0Offset := (chunkIndexOffsetInThisArray / s.rollingMultiply) % nChunksInThisDimension
  let length0 := sub64 (min (wrap64 (wrap64 (c0 + 1) * encoder.chunks i)) (encoder.dimensions i))
    (wrap64 (c0 * encoder.chunks i))
  let lengthLast := if i + 1 = encoder.dimension_count then length0 else s.lengthLast
  let readCoordinate := wrap64 (s.readCoordinate
    + wrap64 (s.rollingMultiplyTargetCube
        * wrap64 (wrap64 (c0Offset * encoder.chunks i) + arrayOffset i)))
  if length0 ≤ arrayCount i ∧ length0 ≤ arrayDimensions i then
    let run := linear_run_update (decide (i + 1 = encoder.dimension_count))
      (decide (arrayCount i = length0) && decide (arrayDimensions i = length0)) length0
      (s.linearReadCount, s.linearRead)
    some
      { rollingMultiply := wrap64 (s.rollingMultiply * nChunksInThisDimension)
        rollingMultiplyChunkLength := wrap64 (s.rollingMultiplyChunkLength * length0)
        rollingMultiplyTargetCube := wrap64 (s.rollingMultiplyTargetCube * arrayDimensions i)
        readCoordinate := readCoordinate
        linearReadCount := run.1
        linearRead := run.2
        lengthLast := lengthLast }
  else none

/-- The first `for` loop, `for (i = k - 1; i >= 0; i--)`, from state `s`. -/
def unpack_loop {F : Type} (encoder : om_encoder_t F)
    (arrayDimensions arrayOffset arrayCount : Nat → Nat)
    (chunkIndex chunkIndexOffsetInThisArray : Nat) (k : Nat) (s : UnpackState) :
    Option UnpackState :=
  match k with
  | 0 => some s
  | i + 1 =>
    match unpack_step encoder arrayDimensions arrayOffset arrayCount chunkIndex
        chunkIndexOffsetInThisArray i s with
    | none => none
    | some s1 =>
      unpack_loop encoder arrayDimensions arrayOffset arrayCount chunkIndex
        chunkIndexOffsetInThisArray i s1

/-- The copy loop `for (i = 0; i < n; i++)` of one run, with its two assertions; `none` is a
failed `assert`. -/
def copy_run {F : Type} (ops : FloatOps F) (encoder : om_encoder_t F) (array : Nat → F)
    (arrayTotalCount lengthInChunk readCoordinate writeCoordinate : Nat) (n : Nat)
    (chunkBuffer : Nat → Staged F) : Option (Nat → Staged F) :=
  match n with
  | 0 => some chunkBuffer
  | i + 1 =>
    match copy_run ops encoder array arrayTotalCount lengthInChunk readCoordinate
        writeCoordinate i chunkBuffer with
    | none => none
    | some buf =>
      if wrap64 (readCoordinate + i) < arrayTotalCount
          ∧ wrap64 (writeCoordinate + i) < lengthInChunk then
        some (fun x =>
          if x = wrap64 (writeCoordinate + i) then
            stage_element ops encoder (array (wrap64 (readCoordinate + i)))
          else buf x)
      else none

/-- The local variables the second `for` loop (the re-derivation of the next run) updates. -/
structure RunState where
  readCoordinate : Nat
  rollingMultiplyTargetCube : Nat
  linearReadCount : Nat
  linearRead : Bool
  deriving DecidableEq

/-- How the second `for` loop ends: by `break`, by the `return` at axis 0, or by running out
of axes (which happens only without any axis). -/
inductive RunExit where
  | brk (s : RunState)
  | ret
  | fallthrough (s : RunState)
  deriving DecidableEq

/-- The second `for` loop, `for (i = k - 1; i >= 0; i--)`, from state `s`. -/
def next_run {F : Type} (encoder : om_encoder_t F)
    (arrayDimensions arrayOffset arrayCount : Nat → Nat) (k : Nat) (s : RunState) : RunExit :=
  match k with
  | 0 => RunExit.fallthrough s
  | i + 1 =>
    let qPos := sub64 ((s.readCoordinate / s.rollingMultiplyTargetCube) % arrayDimensions i)
      (arrayOffset i) / encoder.chunks i
    let length0 := sub64 (min (wrap64 (wrap64 (qPos + 1) * encoder.chunks i)) (arrayCount i))
      (wrap64 (qPos * encoder.chunks i))
    let readCoordinate := wrap64 (s.readCoordinate + s.rollingMultiplyTargetCube)
    let run := linear_run_update (decide (i + 1 = encoder.dimension_count))
      (decide (arrayCount i = length0) && decide (arrayDimensions i = length0)) length0
      (s.linearReadCount, s.linearRead)
    let q0 := sub64 ((readCoordinate / s.rollingMultiplyTargetCube) % arrayDimensions i)
      (arrayOffset i) % encoder.chunks i
    if q0 ≠ 0 ∧ q0 ≠ length0 then
      RunExit.brk
        { readCoordinate := readCoordinate
          rollingMultiplyTargetCube := s.rollingMultiplyTargetCube
          linearReadCount := run.1
          linearRead := run.2 }
    else if i = 0 then RunExit.ret
    else
      next_run encoder arrayDimensions arrayOffset arrayCount i
        { readCoordinate := sub64 readCoordinate (wrap64 (length0 * s.rollingMultiplyTargetCube))
          rollingMultiplyTargetCube := wrap64 (s.rollingMultiplyTargetCube * arrayDimensions i)
          linearReadCount := run.1
          linearRead := run.2 }

/-- What `om_encoder_writeSingleChunk` holds when it reaches the compression step. -/
structure StagedChunk (F : Type) where
  chunkBuffer : Nat → Staged F
  writeCoordinate : Nat
  lengthInChunk : Nat
  lengthLast : Nat

/-- The `while (true)` loop, run for at most `fuel` iterations. -/
def run_loop {F : Type} (ops : FloatOps F) (encoder : om_encoder_t F) (array : Nat → F)
    (arrayDimensions arrayOffset arrayCount : Nat → Nat)
    (arrayTotalCount lengthInChunk lengthLast : Nat) (fuel : Nat)
    (readCoordinate writeCoordinate linearReadCount : Nat) (chunkBuffer : Nat → Staged F) :
    ChunkResult (StagedChunk F) :=
  match fuel with
  | 0 => ChunkResult.out_of_fuel
  | fuel1 + 1 =>
    match copy_run ops encoder array arrayTotalCount lengthInChunk readCoordinate
        writeCoordinate linearReadCount chunkBuffer with
    | none => ChunkResult.assertion_failed
    | some buf =>
      let readCoordinate1 := wrap64 (readCoordinate + sub64 linearReadCount 1)
      let writeCoordinate1 := wrap64 (wrap64 (writeCoordinate + sub64 linearReadCount 1) + 1)
      match next_run encoder arrayDimensions arrayOffset arrayCount encoder.dimension_count
          { readCoordinate := readCoordinate1
            rollingMultiplyTargetCube := 1
            linearReadCount := 1
            linearRead := true } with
      | RunExit.ret =>
        ChunkResult.ok
          { chunkBuffer := buf
            writeCoordinate := writeCoordinate1
            lengthInChunk := lengthInChunk
            lengthLast := lengthLast }
      | RunExit.brk s =>
        run_loop ops encoder array arrayDimensions arrayOffset arrayCount arrayTotalCount
          lengthInChunk lengthLast fuel1 s.readCoordinate writeCoordinate1 s.linearReadCount buf
      | RunExit.fallthrough s =>
        run_loop ops encoder array arrayDimensions arrayOffset arrayCount arrayTotalCount
          lengthInChunk lengthLast fuel1 s.readCoordinate writeCoordinate1 s.linearReadCount buf

/-- The function `om_encoder_writeSingleChunk` up to the compression step: the state in which the
`switch` that calls the codec is entered. -/
def om_encoder_stageChunk {F : Type} (ops : FloatOps F) (encoder : om_encoder_t F)
    (array : Nat → F) (arrayDimensions arrayOffset arrayCount : Nat → Nat)
    (chunkIndex chunkIndexOffsetInThisArray : Nat) (chunkBuffer : Nat → Staged F)
    (fuel : Nat) : ChunkResult (StagedChunk F) :=
  let arrayTotalCount :=
    forUp encoder.dimension_count (fun i n => wrap64 (n * arrayDimensions i)) 1
  match unpack_loop encoder arrayDimensions arrayOffset arrayCount chunkIndex
      chunkIndexOffsetInThisArray encoder.dimension_count
      { rollingMultiply := 1
        rollingMultiplyChunkLength := 1
        rollingMultiplyTargetCube := 1
        readCoordinate := 0
        linearReadCount := 1
        linearRead := true
        lengthLast := 0 } with
  | none => ChunkResult.assertion_failed
  | some s =>
    run_loop ops encoder array arrayDimensions arrayOffset arrayCount arrayTotalCount
      s.rollingMultiplyChunkLength s.lengthLast fuel s.readCoordinate 0 s.linearReadCount
      chunkBuffer

/-- The value of `readCoordinate` with which `om_encoder_writeSingleChunk` enters its `while`
loop, the source index of the first element read; `none` when one of the two assertions of
the first `for` loop fails. -/
def om_encoder_read_start {F : Type} (encoder : om_encoder_t F)
    (arrayDimensions arrayOffset arrayCount : Nat → Nat)
    (chunkIndex chunkIndexOffsetInThisArray : Nat) : Option Nat :=
  (unpack_loop encoder arrayDimensions arrayOffset arrayCount chunkIndex
      chunkIndexOffsetInThisArray encoder.dimension_count
      { rollingMultiply := 1
        rollingMultiplyChunkLength := 1
        rollingMultiplyTargetCube := 1
        readCoordinate := 0
        linearReadCount := 1
        linearRead := true
        lengthLast := 0 }).map (fun s => s.readCoordinate)

/-- One pass of the `while (true)` loop of `om_encoder_writeSingleChunk`, as it is left:
`copied` is `linearReadCount`, the number of elements the copy loop of the pass moved,
`writeCoordinate` is the write position after the pass, and `returned` tells whether the
pass ended at the `return` of axis 0 (the compression step) rather than at a `break`. -/
structure RunPass where
  copied : Nat
  writeCoordinate : Nat
  returned : Bool
  deriving DecidableEq

/-- The passes of the `while (true)` loop, in order, for at most `fuel` iterations: the loop
`run_loop` with a record of every pass it completes.  The record ends with the pass that
returns, or where an assertion fails, or where the iterations allowed are used up. -/
def run_loop_passes {F : Type} (ops : FloatOps F) (encoder : om_encoder_t F) (array : Nat → F)
    (arrayDimensions arrayOffset arrayCount : Nat → Nat)
    (arrayTotalCount lengthInChunk : Nat) (fuel : Nat)
    (readCoordinate writeCoordinate linearReadCount : Nat) (chunkBuffer : Nat → Staged F) :
    List RunPass :=
  match fuel with
  | 0 => []
  | fuel1 + 1 =>
    match copy_run ops encoder array arrayTotalCount lengthInChunk readCoordinate
        writeCoordinate linearReadCount chunkBuffer with
    | none => []
    | some buf =>
      let readCoordinate1 := wrap64 (readCoordinate + sub64 linearReadCount 1)
      let writeCoordinate1 := wrap64 (wrap64 (writeCoordinate + sub64 linearReadCount 1) + 1)
      match next_run encoder arrayDimensions arrayOffset arrayCount encoder.dimension_count
          { readCoordinate := readCoordinate1
            rollingMultiplyTargetCube := 1
            linearReadCount := 1
            linearRead := true } with
      | RunExit.ret => [⟨linearReadCount, writeCoordinate1, true⟩]
      | RunExit.brk s =>
        ⟨linearReadCount, writeCoordinate1, false⟩ ::
          run_loop_passes ops encoder array arrayDimensions arrayOffset arrayCount
            arrayTotalCount lengthInChunk fuel1 s.readCoordinate writeCoordinate1
            s.linearReadCount buf
      | RunExit.fallthrough s =>
        ⟨linearReadCount, writeCoordinate1, false⟩ ::
          run_loop_passes ops encoder array arrayDimensions arrayOffset arrayCount
            arrayTotalCount lengthInChunk fuel1 s.readCoordinate writeCoordinate1
            s.linearReadCount buf

/-- The passes of the `while (true)` loop of a call of `om_encoder_writeSingleChunk`; empty
when an assertion of the first `for` loop fails. -/
def om_encoder_stageChunk_passes {F : Type} (ops : FloatOps F) (encoder : om_encoder_t F)
    (array : Nat → F) (arrayDimensions arrayOffset arrayCount : Nat → Nat)
    (chunkIndex chunkIndexOffsetInThisArray : Nat) (chunkBuffer : Nat → Staged F)
    (fuel : Nat) : List RunPass :=
  let arrayTotalCount :=
    forUp encoder.dimension_count (fun i n => wrap64 (n * arrayDimensions i)) 1
  match unpack_loop encoder arrayDimensions arrayOffset arrayCount chunkIndex
      chunkIndexOffsetInThisArray encoder.dimension_count
      { rollingMultiply := 1
        rollingMultiplyChunkLength := 1
        rollingMultiplyTargetCube := 1
        readCoordinate := 0
        linearReadCount := 1
        linearRead := true
        lengthLast := 0 } with
  | none => []
  | some s =>
    run_loop_passes ops encoder array arrayDimensions arrayOffset arrayCount arrayTotalCount
      s.rollingMultiplyChunkLength fuel s.readCoordinate 0 s.linearReadCount chunkBuffer

/-- The chunk coordinate `c0` along axis `i` as the first `for` loop computes it from
`chunkIndex` and the current value of `rollingMultiply`. -/
def om_encoder_c0 {F : Type} (encoder : om_encoder_t F) (chunkIndex rollingMultiply i : Nat) :
    Nat :=
  (chunkIndex / rollingMultiply) % divide_rounded_up (encoder.dimensions i) (encoder.chunks i)

/-- The extent `length0` of the chunk along axis `i` as the first `for` loop of
`om_encoder_writeSingleChunk` computes it from `chunkIndex` and the current value of
`rollingMultiply`, in `uint64_t` arithmetic. -/
def om_encoder_length0 {F : Type} (encoder : om_encoder_t F)
    (chunkIndex rollingMultiply i : Nat) : Nat :=
  let nChunksInThisDimension := divide_rounded_up (encoder.dimensions i) (encoder.chunks i)
  let c0 := (chunkIndex / rollingMultiply) % nChunksInThisDimension
  sub64 (min (wrap64 (wrap64 (c0 + 1) * encoder.chunks i)) (encoder.dimensions i))
    (wrap64 (c0 * encoder.chunks i))

/-- The variables of the first `for` loop of `om_encoder_writeSingleChunk` that give the shape
of the chunk; they depend on the encoder and on `chunkIndex` alone. -/
structure ShapeState where
  rollingMultiply : Nat
  rollingMultiplyChunkLength : Nat
  lengthLast : Nat
  deriving DecidableEq

/-- The body of the first `for` loop for axis `i`, restricted to the variables of the
shape. -/
def shape_step {F : Type} (encoder : om_encoder_t F) (chunkIndex i : Nat) (s : ShapeState) :
    ShapeState :=
  let nChunksInThisDimension := divide_rounded_up (encoder.dimensions i) (encoder.chunks i)
  let length0 := om_encoder_length0 encoder chunkIndex s.rollingMultiply i
  { rollingMultiply := wrap64 (s.rollingMultiply * nChunksInThisDimension)
    rollingMultiplyChunkLength := wrap64 (s.rollingMultiplyChunkLength * length0)
    lengthLast := if i + 1 = encoder.dimension_count then length0 else s.lengthLast }

/-- The first `for` loop, `for (i = k - 1; i >= 0; i--)`, restricted to the variables of the
shape. -/
def shape_loop {F : Type} (encoder : om_encoder_t F) (chunkIndex : Nat) (k : Nat)
    (s : ShapeState) : ShapeState :=
  match k with
  | 0 => s
  | i + 1 => shape_loop encoder chunkIndex i (shape_step encoder chunkIndex i s)

/-- The shape variables with which `om_encoder_writeSingleChunk` leaves its first `for`
loop for the chunk `chunkIndex`. -/
def om_encoder_chunk_shape {F : Type} (encoder : om_encoder_t F) (chunkIndex : Nat) :
    ShapeState :=
  shape_loop encoder chunkIndex encoder.dimension_count
    { rollingMultiply := 1
      rollingMultiplyChunkLength := 1
      lengthLast := 0 }

/-- The value of `lengthInChunk` in `om_encoder_writeSingleChunk` for the chunk
`chunkIndex`. -/
def om_encoder_lengthInChunk {F : Type} (encoder : om_encoder_t F) (chunkIndex : Nat) : Nat :=
  (om_encoder_chunk_shape encoder chunkIndex).rollingMultiplyChunkLength

/-- The codec primitives `om_encoder_writeSingleChunk` calls, as functions of the staged
elements they are given: the two in-place 2-D filters (rows, columns, elements) and the two
packers, which return the bytes written to `out`. -/
structure Codecs (F : Type) where
  delta2d_encode : Nat → Nat → List (Staged F) → List (Staged F)
  delta2d_encode_xor : Nat → Nat → List (Staged F) → List (Staged F)
  p4nzenc128v16 : List (Staged F) → Nat → List Byte
  fpxenc32 : List (Staged F) → Nat → List Byte

/-- The compression step of `om_encoder_writeSingleChunk`: the bytes written to `out`, whose
number is the return value. -/
def compress_chunk {F : Type} (codecs : Codecs F) (encoder : om_encoder_t F)
    (st : StagedChunk F) : List Byte :=
  let staged := (List.range st.lengthInChunk).map st.chunkBuffer
  match encoder.compression with
  | om_compression_t.COMPRESSION_P4NZDEC256 =>
    codecs.p4nzenc128v16
      (codecs.delta2d_encode (st.lengthInChunk / st.lengthLast) st.lengthLast staged)
      st.lengthInChunk
  | om_compression_t.COMPRESSION_P4NZDEC256_LOGARITHMIC =>
    codecs.p4nzenc128v16
      (codecs.delta2d_encode (st.lengthInChunk / st.lengthLast) st.lengthLast staged)
      st.lengthInChunk
  | om_compression_t.COMPRESSION_FPXDEC32 =>
    codecs.fpxenc32
      (codecs.delta2d_encode_xor (st.lengthInChunk / st.lengthLast) st.lengthLast staged)
      st.lengthInChunk

/-- The function `om_encoder_writeSingleChunk`: the bytes written to `out`. -/
def om_encoder_writeSingleChunk {F : Type} (ops : FloatOps F) (codecs : Codecs F)
    (encoder : om_encoder_t F) (array : Nat → F)
    (arrayDimensions arrayOffset arrayCount : Nat → Nat)
    (chunkIndex chunkIndexOffsetInThisArray : Nat) (chunkBuffer : Nat → Staged F)
    (fuel : Nat) : ChunkResult (List Byte) :=
  match om_encoder_stageChunk ops encoder array arrayDimensions arrayOffset arrayCount
      chunkIndex chunkIndexOffsetInThisArray chunkBuffer fuel with
  | ChunkResult.ok st => ChunkResult.ok (compress_chunk codecs encoder st)
  | ChunkResult.assertion_failed => ChunkResult.assertion_failed
  | ChunkResult.out_of_fuel => ChunkResult.out_of_fuel

/-! ## Quantities of the format description -/

/-- The width `valueWidth(data_type)` of the format description: one byte for the 8-bit
integers, two for the 16-bit integers, four for the 32-bit integers and `FLOAT`, eight for the
64-bit integers and `DOUBLE`, and no value bytes for any other type. -/
def valueWidth (data_type : Nat) : Nat :=
  if data_type = DATA_TYPE_INT8 ∨ data_type = DATA_TYPE_UINT8 then 1
  else if data_type = DATA_TYPE_INT16 ∨ data_type = DATA_TYPE_UINT16 then 2
  else if data_type = DATA_TYPE_INT32 ∨ data_type = DATA_TYPE_UINT32
      ∨ data_type = DATA_TYPE_FLOAT then 4
  else if data_type = DATA_TYPE_INT64 ∨ data_type = DATA_TYPE_UINT64
      ∨ data_type = DATA_TYPE_DOUBLE then 8
  else 0

/-- The product of `r j` over the axes `k <= j < D`: the row-major stride of axis `k - 1` in
an array of shape `r`. -/
def stride_of (r : Nat → Nat) (D k : Nat) : Nat := ∏ j in Finset.Ico k D, r j

/-- The row-major linear index, in an array of shape `r`, of the coordinate `g` restricted to
the axes `k <= j < D`: the sum of `g j * stride_of r D (j + 1)`. -/
def linear_index (g r : Nat → Nat) (D k : Nat) : Nat :=
  ∑ j in Finset.Ico k D, g j * stride_of r D (j + 1)

/-- The number of chunks along axis `i`, `⌈dimensions[i] / chunks[i]⌉`. -/
def chunks_along {F : Type} (encoder : om_encoder_t F) (i : Nat) : Nat :=
  divide_rounded_up (encoder.dimensions i) (encoder.chunks i)

/-- The chunk coordinate `c_i = (chunkIndex / prod_{j>i} ⌈dimensions[j] / chunks[j]⌉) mod
⌈dimensions[i] / chunks[i]⌉` of the format description. -/
def chunk_coordinate {F : Type} (encoder : om_encoder_t F) (chunkIndex i : Nat) : Nat :=
  (chunkIndex / stride_of (chunks_along encoder) encoder.dimension_count (i + 1))
    % chunks_along encoder i

/-- The first element of the chunk along axis `i`, `c_i * chunks[i]`. -/
def chunk_origin {F : Type} (encoder : om_encoder_t F) (chunkIndex i : Nat) : Nat :=
  chunk_coordinate encoder chunkIndex i * encoder.chunks i

/-- The extent `length_i = min((c_i + 1) * chunks[i], dimensions[i]) - c_i * chunks[i]` of the
chunk along axis `i`. -/
def chunk_extent {F : Type} (encoder : om_encoder_t F) (chunkIndex i : Nat) : Nat :=
  min ((chunk_coordinate encoder chunkIndex i + 1) * encoder.chunks i) (encoder.dimensions i)
    - chunk_coordinate encoder chunkIndex i * encoder.chunks i

/-- The number of elements of the chunk, `lengthInChunk = prod_i length_i`. -/
def chunk_length {F : Type} (encoder : om_encoder_t F) (chunkIndex : Nat) : Nat :=
  ∏ i in Finset.range encoder.dimension_count, chunk_extent encoder chunkIndex i

/-- The row-major index inside the chunk of the chunk-local coordinate `l`. -/
def local_index {F : Type} (encoder : om_encoder_t F) (chunkIndex : Nat) (l : Nat → Nat) :
    Nat :=
  ∑ i in Finset.range encoder.dimension_count,
    l i * ∏ j in Finset.Ico (i + 1) encoder.dimension_count, chunk_extent encoder chunkIndex j

/-- The row-major index inside the source array of shape `dimensions` of the global
coordinate `(c_i * chunks[i] + l_i)_i`. -/
def global_index {F : Type} (encoder : om_encoder_t F) (chunkIndex : Nat) (l : Nat → Nat) :
    Nat :=
  ∑ i in Finset.range encoder.dimension_count,
    (chunk_coordinate encoder chunkIndex i * encoder.chunks i + l i)
      * ∏ j in Finset.Ico (i + 1) encoder.dimension_count, encoder.dimensions j

/-- The part of a row-major linear index that the axes `j < k` contribute. -/
def prefix_index (g r : Nat → Nat) (D k : Nat) : Nat :=
  ∑ j in Finset.range k, g j * stride_of r D (j + 1)

/-- The pair `(linearReadCount, linearRead)` after the `m` innermost axes of a full-array
call have been examined. -/
def run_fold {F : Type} (encoder : om_encoder_t F) (chunkIndex : Nat) : Nat → Nat × Bool
  | 0 => (1, true)
  | m + 1 =>
    linear_run_update
      (decide (encoder.dimension_count - 1 - m + 1 = encoder.dimension_count))
      (decide (encoder.dimensions (encoder.dimension_count - 1 - m)
          = chunk_extent encoder chunkIndex (encoder.dimension_count - 1 - m))
        && decide (encoder.dimensions (encoder.dimension_count - 1 - m)
          = chunk_extent encoder chunkIndex (encoder.dimension_count - 1 - m)))
      (chunk_extent encoder chunkIndex (encoder.dimension_count - 1 - m))
      (run_fold encoder chunkIndex m)

/-- The outermost axis of the contiguous run of a full-array call after the `m` innermost
axes have been examined (`dimension_count` before any axis has been examined). -/
def run_axis {F : Type} (encoder : om_encoder_t F) (chunkIndex : Nat) : Nat → Nat
  | 0 => encoder.dimension_count
  | m + 1 =>
    if m = 0 then encoder.dimension_count - 1
    else if (run_fold encoder chunkIndex m).2 = true
        ∧ encoder.dimensions (encoder.dimension_count - 1 - m)
          = chunk_extent encoder chunkIndex (encoder.dimension_count - 1 - m) then
      encoder.dimension_count - 1 - m
    else run_axis encoder chunkIndex m

/-- The state of the first `for` loop of a full-array call once the axes `j >= k` have been
processed. -/
def unpacked {F : Type} (encoder : om_encoder_t F) (chunkIndex k : Nat) : UnpackState :=
  { rollingMultiply := stride_of (chunks_along encoder) encoder.dimension_count k
    rollingMultiplyChunkLength :=
      stride_of (chunk_extent encoder chunkIndex) encoder.dimension_count k
    rollingMultiplyTargetCube := stride_of encoder.dimensions encoder.dimension_count k
    readCoordinate :=
      linear_index (chunk_origin encoder chunkIndex) encoder.dimensions
        encoder.dimension_count k
    linearReadCount := (run_fold encoder chunkIndex (encoder.dimension_count - k)).1
    linearRead := (run_fold encoder chunkIndex (encoder.dimension_count - k)).2
    lengthLast :=
      if k < encoder.dimension_count then
        chunk_extent encoder chunkIndex (encoder.dimension_count - 1)
      else 0 }

/-- The global coordinate `c_i * chunks[i] + l_i` of the chunk-local coordinate `l`. -/
def global_coordinate {F : Type} (encoder : om_encoder_t F) (chunkIndex : Nat)
    (l : Nat → Nat) : Nat → Nat :=
  fun j => chunk_origin encoder chunkIndex j + l j

/-- The source index of the element at the chunk-local coordinate `l` after the axes
`j >= k` have been moved back to the first element of the chunk. -/
def reset_position {F : Type} (encoder : om_encoder_t F) (chunkIndex : Nat) (l : Nat → Nat)
    (k : Nat) : Nat :=
  prefix_index (global_coordinate encoder chunkIndex l) encoder.dimensions
      encoder.dimension_count k
    + linear_index (chunk_origin encoder chunkIndex) encoder.dimensions
        encoder.dimension_count k

/-- The innermost axis below `k` on which the chunk-local coordinate `l` can still advance. -/
def carry_axis {F : Type} (encoder : om_encoder_t F) (chunkIndex : Nat) (l : Nat → Nat) :
    Nat → Option Nat
  | 0 => none
  | i + 1 =>
    if l i + 1 < chunk_extent encoder chunkIndex i then some i
    else carry_axis encoder chunkIndex l i

/-- The coordinate `a` precedes `b` in row-major order, compared on the axes below `p`. -/
def precedes (p : Nat) (a b : Nat → Nat) : Prop :=
  ∃ j, j < p ∧ (∀ m, m < j → a m = b m) ∧ a j < b j

/-- The chunk-local coordinate of the last element of the run that starts at `l`: maximal on
the axes `j >= p` of the run, equal to `l` outside. -/
def run_last {F : Type} (encoder : om_encoder_t F) (chunkIndex : Nat) (p : Nat)
    (l : Nat → Nat) : Nat → Nat :=
  fun j => if p ≤ j then chunk_extent encoder chunkIndex j - 1 else l j

/-- The chunk-local coordinate `l` advanced by one on axis `j`, with the axes inside `j` back
at zero. -/
def advance (j : Nat) (l : Nat → Nat) : Nat → Nat :=
  fun m => if m < j then l m else if m = j then l j + 1 else 0

/-- The value `clamp(r, INT16_MIN, INT16_MAX)` of the format description for a rounded value
`r`: an integer is brought into the range, `+infinity` and a NaN go to `INT16_MAX`,
`-infinity` goes to `INT16_MIN`. -/
def clamp_int16 (r : Rounded) : Int :=
  match r with
  | Rounded.int z => max INT16_MIN (min INT16_MAX z)
  | Rounded.pos_inf => INT16_MAX
  | Rounded.neg_inf => INT16_MIN
  | Rounded.nan => INT16_MAX

/-- The preconditions of a full-array call: at least one axis, extents and chunk extents of at
least 1, chunk extents in the range of `uint64_t`, and a source array of 4-byte floats that
fits a 64-bit address space. -/
def FullArrayCall {F : Type} (encoder : om_encoder_t F) : Prop :=
  1 ≤ encoder.dimension_count
    ∧ (∀ i, i < encoder.dimension_count → 1 ≤ encoder.dimensions i)
    ∧ (∀ i, i < encoder.dimension_count →
        1 ≤ encoder.chunks i ∧ encoder.chunks i < 18446744073709551616)
    ∧ 4 * (∏ i in Finset.range encoder.dimension_count, encoder.dimensions i)
        < 18446744073709551616

/-- Group `i` of a look-up table of `N` entries cut into groups of `k`: the entries
`[i * k, min((i + 1) * k, N))`. -/
def lut_group (k : Nat) (lookUpTable : Nat → Nat) (N i : Nat) : List Nat :=
  (List.range (min ((i + 1) * k) N - i * k)).map (fun j => lookUpTable (i * k + j))

/-- The greatest length the codec reports over the first `n` groups, `max_i len_i`. -/
def max_group_length (p4ndenc64 : List Nat → List Byte) (k : Nat) (lookUpTable : Nat → Nat)
    (N n : Nat) : Nat :=
  (Finset.range n).sup (fun i => (p4ndenc64 (lut_group k lookUpTable N i)).length)

/-- The contract of a look-up-table call: groups of at least one entry, a group count the
`int` loop counter can reach, group bounds and a total size that fit `uint64_t`. -/
def LutCall {F : Type} (p4ndenc64 : List Nat → List Byte) (encoder : om_encoder_t F)
    (lookUpTable : Nat → Nat) (N : Nat) : Prop :=
  1 ≤ encoder.lut_chunk_element_count
    ∧ N + encoder.lut_chunk_element_count ≤ 18446744073709551616
    ∧ divide_rounded_up N encoder.lut_chunk_element_count ≤ INT_MAX
    ∧ divide_rounded_up N encoder.lut_chunk_element_count
        * max_group_length p4ndenc64 encoder.lut_chunk_element_count lookUpTable N
            (divide_rounded_up N encoder.lut_chunk_element_count)
      < 18446744073709551616

/-- The chunk offset along axis `i` obtained by unpacking the linear offset `k` with the chunk
counts of the region, `(k / prod_{j>i} ⌈arrayCount[j] / chunks[j]⌉) mod
⌈arrayCount[i] / chunks[i]⌉`. -/
def region_chunk_offset {F : Type} (encoder : om_encoder_t F) (arrayCount : Nat → Nat)
    (k i : Nat) : Nat :=
  (k / stride_of (fun j => divide_rounded_up (arrayCount j) (encoder.chunks j))
        encoder.dimension_count (i + 1))
    % divide_rounded_up (arrayCount i) (encoder.chunks i)

/-- The source index `sum_i stride_i * (o_i * chunks[i] + arrayOffset[i])` of the element at
chunk offset `o`, with `stride_i = prod_{j>i} arrayDimensions[j]`, over the axes
`k <= i < D`. -/
def start_index {F : Type} (encoder : om_encoder_t F) (arrayDimensions arrayOffset : Nat → Nat)
    (o : Nat → Nat) (k : Nat) : Nat :=
  ∑ i in Finset.Ico k encoder.dimension_count,
    stride_of arrayDimensions encoder.dimension_count (i + 1)
      * (o i * encoder.chunks i + arrayOffset i)

/-- The value `length0` takes in the pass of the first `for` loop for axis `i`: there
`rollingMultiply` is the product of the chunk counts of the axes behind `i`, reduced to 64
bits. -/
def axis_length {F : Type} (encoder : om_encoder_t F) (chunkIndex i : Nat) : Nat :=
  om_encoder_length0 encoder chunkIndex
    (stride_of (chunks_along encoder) encoder.dimension_count (i + 1) % 18446744073709551616) i

/-- The shape variables after the passes for the axes `k <= i < D`. -/
def shape_at {F : Type} (encoder : om_encoder_t F) (chunkIndex k : Nat) : ShapeState :=
  { rollingMultiply :=
      stride_of (chunks_along encoder) encoder.dimension_count k % 18446744073709551616
    rollingMultiplyChunkLength :=
      stride_of (axis_length encoder chunkIndex) encoder.dimension_count k
        % 18446744073709551616
    lengthLast :=
      if k < encoder.dimension_count then
        axis_length encoder chunkIndex (encoder.dimension_count - 1)
      else 0 }

/-- The value `c0` takes in the pass of the first `for` loop for axis `i`, the chunk
coordinate of `chunkIndex` along that axis as the code unpacks it. -/
def axis_coordinate {F : Type} (encoder : om_encoder_t F) (chunkIndex i : Nat) : Nat :=
  om_encoder_c0 encoder chunkIndex
    (stride_of (chunks_along encoder) encoder.dimension_count (i + 1) % 18446744073709551616) i

/-! ## Sample inputs -/

/-- A destination region of zero bytes. -/
def exMem : Mem := fun _ => 0

/-- The four characters of the name `temp`. -/
def exName : Nat → Byte := fun i => [116, 101, 109, 112].getD i 0

/-- The little-endian bytes of the single-precision float `3.5` (pattern `0x40600000`),
followed by zeros. -/
def exValue : Nat → Byte := fun i => [0, 0, 96, 64].getD i 0

/-- A children table with the two entries `(100, 10)` and `(200, 20)`. -/
def exChildren : Nat → OmOffsetSize_t := fun i => [⟨100, 10⟩, ⟨200, 20⟩].getD i ⟨0, 0⟩

/-- Extents `[10, 20]`. -/
def exDims : Nat → Nat := fun i => [10, 20].getD i 0

/-- Chunk extents `[5, 10]`. -/
def exChunks : Nat → Nat := fun i => [5, 10].getD i 0

/-- Whether a run ended on a failed `assert`. -/
def ChunkResult.isAssertionFailed {α : Type} (r : ChunkResult α) : Bool :=
  match r with
  | ChunkResult.assertion_failed => true
  | _ => false

/-- The labels of the first `lengthInChunk` staged `float` elements of a run that reached the
compression step under `FPXDEC32`; `none` for any other run. -/
def ChunkResult.stagedFloats (r : ChunkResult (StagedChunk Nat)) : Option (List Nat) :=
  match r with
  | ChunkResult.ok st =>
    some ((List.range st.lengthInChunk).map (fun i =>
      match st.chunkBuffer i with
      | Staged.float32 v => v
      | Staged.int16 _ => 0))
  | _ => none

/-- A `float` stand-in for the sample encoders: source elements are labelled by natural
numbers, none of them a NaN. -/
def exOps : FloatOps Nat :=
  { isnan := fun _ => false
    mul := fun a b => a * b
    log10f_one_plus := fun a => a
    roundf := fun a => Rounded.int (a : Int) }

/-- An encoder for extents `[2^32, 2^32]` with chunks `[1, 1]`. -/
def exEncoderHuge : om_encoder_t Nat :=
  { scalefactor := 1
    compression := om_compression_t.COMPRESSION_FPXDEC32
    dimensions := fun _ => 4294967296
    chunks := fun _ => 1
    dimension_count := 2
    lut_chunk_element_count := 4 }

/-- An encoder for the one-dimensional extent `[3]` with chunk `[3]`. -/
def exEncoderLine : om_encoder_t Nat :=
  { scalefactor := 1
    compression := om_compression_t.COMPRESSION_FPXDEC32
    dimensions := fun _ => 3
    chunks := fun _ => 3
    dimension_count := 1
    lut_chunk_element_count := 4 }

/-- A staging buffer filled with the `int16_t` value 0. -/
def exBuffer : Nat → Staged Nat := fun _ => Staged.int16 0

/-- An encoder for extents `[5, 5]` with chunks `[2, 2]`. -/
def exEncoder : om_encoder_t Nat :=
  { scalefactor := 1
    compression := om_compression_t.COMPRESSION_FPXDEC32
    dimensions := fun _ => 5
    chunks := fun _ => 2
    dimension_count := 2
    lut_chunk_element_count := 4 }

/-- A legacy header of version 1: magic `'O','M'`, version 1, compression byte 0,
`scale_factor = 100.0f`, `dim0 = 10`, `dim1 = 20`, `chunk0 = 5`, `chunk1 = 10`. -/
def exLegacy : Mem := fun i =>
  [79, 77, 1, 0, 0, 0, 200, 66,
   10, 0, 0, 0, 0, 0, 0, 0,
   20, 0, 0, 0, 0, 0, 0, 0,
   5, 0, 0, 0, 0, 0, 0, 0,
   10, 0, 0, 0, 0, 0, 0, 0].getD i 0

/-- The header of a numeric-array descriptor whose `number_of_children` field holds
`0xFFFFFFFF`: `data_type = FLOAT_ARRAY`, all other header bytes zero except
`dimension_count = 2`. -/
def exArrayHeader : Mem := fun i =>
  [20, 0, 0, 0, 255, 255, 255, 255,
   0, 0, 0, 0, 0, 0, 0, 0,
   2, 0, 0, 0, 0, 0, 0, 0].getD i 0

/-- The header of a scalar descriptor whose `number_of_children` field holds `0xFFFFFFFF`:
`data_type = INT8`. -/
def exScalarHeader : Mem := fun i => [1, 0, 0, 0, 255, 255, 255, 255].getD i 0

/-- An encoder with `2^61` chunks of one element each. -/
def exEncoderLong : om_encoder_t Nat :=
  { scalefactor := 1
    compression := om_compression_t.COMPRESSION_FPXDEC32
    dimensions := fun _ => 2305843009213693952
    chunks := fun _ => 1
    dimension_count := 1
    lut_chunk_element_count := 256 }

/-- The sample encoder with look-up-table groups of 300 entries. -/
def exEncoderLutWide : om_encoder_t Nat :=
  { exEncoder with lut_chunk_element_count := 300 }

/-- The sample encoder with look-up-table groups of one entry. -/
def exEncoderLutOne : om_encoder_t Nat :=
  { exEncoder with lut_chunk_element_count := 1 }

/-- A stand-in for the codec `p4ndenc64`: one byte with the number of entries, then the low
byte of every entry. -/
def exP4ndenc64 : List Nat → List Byte := fun xs =>
  Byte.ofNat xs.length :: xs.map Byte.ofNat

/-- A look-up table: entry `i` is `100 * i`. -/
def exLookUpTable : Nat → Nat := fun i => 100 * i

/-- An encoder for a `4 x 4` array in chunks of `2 x 2`. -/
def exEncoderGrid : om_encoder_t Nat :=
  { scalefactor := 1
    compression := om_compression_t.COMPRESSION_FPXDEC32
    dimensions := fun _ => 4
    chunks := fun _ => 2
    dimension_count := 2
    lut_chunk_element_count := 4 }

/-- The shape `4 x 2` of a region that holds the left half of the columns. -/
def exRegionShape : Nat → Nat := fun i => [4, 2].getD i 0

/-- An encoder for an array of 4 elements in one chunk. -/
def exEncoderQuad : om_encoder_t Nat :=
  { scalefactor := 1
    compression := om_compression_t.COMPRESSION_FPXDEC32
    dimensions := fun _ => 4
    chunks := fun _ => 4
    dimension_count := 1
    lut_chunk_element_count := 4 }

/-- A fragment of `float` on which the operations of the copy loops are exact: the values
that are integers of magnitude below `2^24`, as `some n`, and a NaN, as `none`.  The product
and `roundf`, which leaves an integer as it is, are given on the fragment; `log10f(1 + val)`
is given where its value is again in the fragment and stands as NaN elsewhere, where it is not
meant to be used. -/
def exFloatOps : FloatOps (Option Int) :=
  { isnan := fun x => x.isNone
    mul := fun a b =>
      match a, b with
      | some x, some y => some (x * y)
      | _, _ => none
    log10f_one_plus := fun a =>
      match a with
      | some 0 => some 0
      | some 9 => some 1
      | some 99 => some 2
      | _ => none
    roundf := fun a =>
      match a with
      | some x => Rounded.int x
      | none => Rounded.nan }

/-- An encoder for `P4NZDEC256` with `scalefactor = 1.0f`. -/
def exEncoderInt16 : om_encoder_t (Option Int) :=
  { scalefactor := some 1
    compression := om_compression_t.COMPRESSION_P4NZDEC256
    dimensions := fun _ => 4
    chunks := fun _ => 2
    dimension_count := 1
    lut_chunk_element_count := 4 }

/-- An encoder for an array of `2^64 - 1` elements in chunks of `2^63`. -/
def exEncoderEdge : om_encoder_t Nat :=
  { scalefactor := 1
    compression := om_compression_t.COMPRESSION_FPXDEC32
    dimensions := fun _ => 18446744073709551615
    chunks := fun _ => 9223372036854775808
    dimension_count := 1
    lut_chunk_element_count := 4 }

/-! # Properties -/

/-! ## Byte regions -/

theorem store_u8_apply (m : Mem) (a : Nat) (b : Byte) (x : Nat) :
    store_u8 m a b x = if x = a then b else m x := rfl

theorem store_le_apply (w : Nat) : ∀ (m : Mem) (a v x : Nat),
    store_le m a w v x
      = if a ≤ x ∧ x < a + w then Byte.ofNat (v / 256 ^ (x - a)) else m x := by
  induction w with
  | zero =>
    intro m a v x
    have : ¬ (a ≤ x ∧ x < a + 0) := by omega
    rw [if_neg this, store_le]
  | succ k ih =>
    intro m a v x
    rw [store_le, ih]
    by_cases h1 : a + 1 ≤ x ∧ x < a + 1 + k
    · have h2 : a ≤ x ∧ x < a + (k + 1) := by omega
      have h3 : x - a = (x - (a + 1)) + 1 := by omega
      rw [if_pos h1, if_pos h2, h3, pow_succ, Nat.div_div_eq_div_mul, Nat.mul_comm]
    · rw [if_neg h1, store_u8_apply]
      by_cases h4 : x = a
      · have h2 : a ≤ x ∧ x < a + (k + 1) := by omega
        rw [if_pos h4, if_pos h2, h4]
        simp
      · have h2 : ¬ (a ≤ x ∧ x < a + (k + 1)) := by omega
        rw [if_neg h4, if_neg h2]

theorem store_le_outside (m : Mem) (a w v x : Nat) (h : x < a ∨ a + w ≤ x) :
    store_le m a w v x = m x := by
  rw [store_le_apply]
  have : ¬ (a ≤ x ∧ x < a + w) := by omega
  rw [if_neg this]

theorem load_le_congr (w : Nat) : ∀ (m m2 : Mem) (a : Nat),
    (∀ x, a ≤ x → x < a + w → m x = m2 x) → load_le m a w = load_le m2 a w := by
  induction w with
  | zero => intro m m2 a _; rfl
  | succ k ih =>
    intro m m2 a h
    rw [load_le, load_le, h a (le_refl a) (by omega),
      ih m m2 (a + 1) (fun x hx1 hx2 => h x (by omega) (by omega))]

theorem load_le_lt (w : Nat) : ∀ (m : Mem) (a : Nat), load_le m a w < 256 ^ w := by
  induction w with
  | zero => intro m a; simp [load_le]
  | succ k ih =>
    intro m a
    have h1 := ih m (a + 1)
    have h2 := (m a).isLt
    rw [load_le, pow_succ]
    omega

theorem load_le_store_le (w : Nat) : ∀ (m : Mem) (a v : Nat),
    load_le (store_le m a w v) a w = v % 256 ^ w := by
  induction w with
  | zero => intro m a v; simp [load_le, Nat.mod_one]
  | succ k ih =>
    intro m a v
    have h0 : store_le m a (k + 1) v a = Byte.ofNat v := by
      rw [store_le_apply, if_pos (by omega)]; simp
    have h1 : load_le (store_le m a (k + 1) v) (a + 1) k
        = load_le (store_le (store_u8 m a (Byte.ofNat v)) (a + 1) k (v / 256)) (a + 1) k := by
      rw [store_le]
    rw [load_le, h0, h1, ih, pow_succ]
    show v % 256 + 256 * (v / 256 % 256 ^ k) = v % (256 ^ k * 256)
    rw [Nat.mul_comm (256 ^ k) 256, Nat.mod_mul]

theorem forUp_succ {σ : Type} (n : Nat) (body : Nat → σ → σ) (s : σ) :
    forUp (n + 1) body s = body n (forUp n body s) := rfl

theorem copy_bytes_apply (n : Nat) : ∀ (m : Mem) (dst : Nat) (src : Nat → Byte) (x : Nat),
    copy_bytes m dst src n x = if dst ≤ x ∧ x < dst + n then src (x - dst) else m x := by
  induction n with
  | zero =>
    intro m dst src x
    have : ¬ (dst ≤ x ∧ x < dst + 0) := by omega
    rw [if_neg this, copy_bytes, forUp]
  | succ k ih =>
    intro m dst src x
    have hk := ih m dst src x
    unfold copy_bytes at hk ⊢
    rw [forUp_succ, store_u8_apply, hk]
    by_cases h : x = dst + k
    · have h2 : dst ≤ x ∧ x < dst + (k + 1) := by omega
      have h3 : x - dst = k := by omega
      rw [if_pos h, if_pos h2, h3]
    · rw [if_neg h]
      by_cases h2 : dst ≤ x ∧ x < dst + k
      · rw [if_pos h2, if_pos (by omega)]
      · rw [if_neg h2, if_neg (by omega)]

theorem load_le_one (m : Mem) (a : Nat) : load_le m a 1 = (m a).val := by
  simp [load_le]

theorem write_children_outside (n : Nat) : ∀ (m : Mem) (dst : Nat)
    (children : Nat → OmOffsetSize_t) (x : Nat), x < dst ∨ dst + 16 * n ≤ x →
    _om_variable_write_children m dst n children x = m x := by
  induction n with
  | zero => intro m dst children x _; rfl
  | succ k ih =>
    intro m dst children x h
    have hk := ih m dst children x (by omega)
    unfold _om_variable_write_children at hk ⊢
    rw [forUp_succ, store_le_outside _ _ _ _ _ (by omega),
      store_le_outside _ _ _ _ _ (by omega), hk]

theorem write_children_child (n : Nat) : ∀ (m : Mem) (dst : Nat)
    (children : Nat → OmOffsetSize_t) (k : Nat), k < n →
    load_le (_om_variable_write_children m dst n children) (dst + 16 * k) 8
        = (children k).offset % 256 ^ 8
      ∧ load_le (_om_variable_write_children m dst n children) (dst + 16 * k + 8) 8
        = (children k).size % 256 ^ 8 := by
  induction n with
  | zero => intro m dst children k h; omega
  | succ j ih =>
    intro m dst children k h
    unfold _om_variable_write_children
    rw [forUp_succ]
    by_cases hk : k = j
    · subst hk
      constructor
      · rw [load_le_congr 8 _ _ _ (fun x h1 h2 => store_le_outside _ _ _ _ x (by omega)),
          load_le_store_le]
      · rw [load_le_store_le]
    · have hlt : k < j := by omega
      have h1 := ih m dst children k hlt
      unfold _om_variable_write_children at h1
      constructor
      · rw [load_le_congr 8 _ _ _ (fun x h1 h2 => store_le_outside _ _ _ _ x (by omega)),
          load_le_congr 8 _ _ _ (fun x h1 h2 => store_le_outside _ _ _ _ x (by omega))]
        exact h1.1
      · rw [load_le_congr 8 _ _ _ (fun x h1 h2 => store_le_outside _ _ _ _ x (by omega)),
          load_le_congr 8 _ _ _ (fun x h1 h2 => store_le_outside _ _ _ _ x (by omega))]
        exact h1.2

/-! ## Layout dispatch -/

/-- The layout as a case distinction on the first three bytes. -/
theorem memory_layout_eq (buf : Mem) :
    _om_variable_memory_layout buf
      = if (buf 0).val = 79 ∧ (buf 1).val = 77 ∧ ((buf 2).val = 1 ∨ (buf 2).val = 2) then
          OmMemoryLayout_t.OM_MEMORY_LAYOUT_LEGACY
        else if DATA_TYPE_INT8_ARRAY ≤ (buf 0).val ∧ (buf 0).val ≤ DATA_TYPE_DOUBLE_ARRAY then
          OmMemoryLayout_t.OM_MEMORY_LAYOUT_ARRAY
        else OmMemoryLayout_t.OM_MEMORY_LAYOUT_SCALAR := by
  unfold _om_variable_memory_layout meta_magic_number1 meta_magic_number2 meta_version
    meta_data_type
  simp only [load_le_one]
  by_cases hL : (buf 0).val = 79 ∧ (buf 1).val = 77 ∧ ((buf 2).val = 1 ∨ (buf 2).val = 2)
  · have hb : (decide ((buf 0).val = 79) && decide ((buf 1).val = 77)
        && (decide ((buf 2).val = 1) || decide ((buf 2).val = 2))) = true := by
      simpa [and_assoc] using hL
    simp only [hb, if_true, if_pos hL]
  · have hb : (decide ((buf 0).val = 79) && decide ((buf 1).val = 77)
        && (decide ((buf 2).val = 1) || decide ((buf 2).val = 2))) = false := by
      rw [Bool.eq_false_iff]
      intro hc
      apply hL
      simpa [and_assoc] using hc
    simp only [hb, if_neg hL]
    by_cases hA : DATA_TYPE_INT8_ARRAY ≤ (buf 0).val ∧ (buf 0).val ≤ DATA_TYPE_DOUBLE_ARRAY
    · have ha : (decide (DATA_TYPE_INT8_ARRAY ≤ (buf 0).val)
          && decide ((buf 0).val ≤ DATA_TYPE_DOUBLE_ARRAY)) = true := by
        simpa using hA
      simp only [ha, if_true, if_pos hA]
      rfl
    · have ha : (decide (DATA_TYPE_INT8_ARRAY ≤ (buf 0).val)
          && decide ((buf 0).val ≤ DATA_TYPE_DOUBLE_ARRAY)) = false := by
        rw [Bool.eq_false_iff]
        intro hc
        apply hA
        simpa using hc
      simp only [ha, if_neg hA]
      rfl

/-- Claim C5. Layout dispatch: `_om_variable_memory_layout` answers `LEGACY` exactly when the
first three bytes are `'O'` (79), `'M'` (77) and a version byte 1 or 2; it answers `ARRAY`
exactly when the region is not legacy and the data-type byte lies in
`INT8_ARRAY..DOUBLE_ARRAY`; it answers `SCALAR` in every other case. -/
theorem memory_layout_dispatch (buf : Mem) :
    (_om_variable_memory_layout buf = OmMemoryLayout_t.OM_MEMORY_LAYOUT_LEGACY
        ↔ ((buf 0).val = 79 ∧ (buf 1).val = 77 ∧ ((buf 2).val = 1 ∨ (buf 2).val = 2)))
    ∧ (_om_variable_memory_layout buf = OmMemoryLayout_t.OM_MEMORY_LAYOUT_ARRAY
        ↔ (¬ ((buf 0).val = 79 ∧ (buf 1).val = 77 ∧ ((buf 2).val = 1 ∨ (buf 2).val = 2))
            ∧ DATA_TYPE_INT8_ARRAY ≤ (buf 0).val ∧ (buf 0).val ≤ DATA_TYPE_DOUBLE_ARRAY))
    ∧ (_om_variable_memory_layout buf = OmMemoryLayout_t.OM_MEMORY_LAYOUT_SCALAR
        ↔ (¬ ((buf 0).val = 79 ∧ (buf 1).val = 77 ∧ ((buf 2).val = 1 ∨ (buf 2).val = 2))
            ∧ ¬ (DATA_TYPE_INT8_ARRAY ≤ (buf 0).val
                ∧ (buf 0).val ≤ DATA_TYPE_DOUBLE_ARRAY))) := by
  rw [memory_layout_eq]
  by_cases hL : (buf 0).val = 79 ∧ (buf 1).val = 77 ∧ ((buf 2).val = 1 ∨ (buf 2).val = 2)
  · simp only [if_pos hL]
    simp [hL]
  · simp only [if_neg hL]
    by_cases hA : DATA_TYPE_INT8_ARRAY ≤ (buf 0).val ∧ (buf 0).val ≤ DATA_TYPE_DOUBLE_ARRAY
    · simp only [if_pos hA]
      simp [hL, hA]
    · simp only [if_neg hA]
      simp [hL, hA]

/-! ## Scalar descriptors: what the writer leaves in memory -/

theorem load_le_store_le_other (m : Mem) (a w b w2 v : Nat) (h : a + w ≤ b ∨ b + w2 ≤ a) :
    load_le (store_le m b w2 v) a w = load_le m a w :=
  load_le_congr w _ _ a (fun x h1 h2 => store_le_outside m b w2 v x (by omega))

theorem load_le_copy_bytes_other (m : Mem) (a w dst n : Nat) (src : Nat → Byte)
    (h : a + w ≤ dst ∨ dst + n ≤ a) :
    load_le (copy_bytes m dst src n) a w = load_le m a w :=
  load_le_congr w _ _ a (fun x h1 h2 => by
    rw [copy_bytes_apply, if_neg (by omega)])

theorem load_le_write_children_other (m : Mem) (a w dst n : Nat)
    (children : Nat → OmOffsetSize_t) (h : a + w ≤ dst ∨ dst + 16 * n ≤ a) :
    load_le (_om_variable_write_children m dst n children) a w = load_le m a w :=
  load_le_congr w _ _ a (fun x h1 h2 => write_children_outside n m dst children x (by omega))

theorem scalar_width_le (data_type : Nat) : (scalar_width data_type).getD 0 ≤ 8 := by
  unfold scalar_width
  split_ifs <;> simp

/-- The four header fields of a written scalar descriptor. -/
theorem write_scalar_header (cn : Nat) (dst : Mem) (offset length_of_name number_of_children : Nat)
    (children : Nat → OmOffsetSize_t) (name : Nat → Byte) (data_type : Nat)
    (value : Nat → Byte) :
    meta_data_type
        (om_variable_write_scalar cn dst offset length_of_name number_of_children children
          name data_type value).1 = data_type % 256
    ∧ meta_compression_type
        (om_variable_write_scalar cn dst offset length_of_name number_of_children children
          name data_type value).1 = cn % 256
    ∧ meta_length_of_name
        (om_variable_write_scalar cn dst offset length_of_name number_of_children children
          name data_type value).1 = length_of_name % 65536
    ∧ meta_number_of_children
        (om_variable_write_scalar cn dst offset length_of_name number_of_children children
          name data_type value).1 = number_of_children % 4294967296 := by
  unfold om_variable_write_scalar meta_data_type meta_compression_type meta_length_of_name
    meta_number_of_children
  simp only [SIZE_VARIABLEV3]
  refine ⟨?_, ?_, ?_, ?_⟩
  · rw [load_le_copy_bytes_other _ _ _ _ _ _ (by omega),
      load_le_copy_bytes_other _ _ _ _ _ _ (by omega),
      load_le_write_children_other _ _ _ _ _ _ (by omega),
      load_le_store_le_other _ _ _ _ _ _ (by omega),
      load_le_store_le_other _ _ _ _ _ _ (by omega),
      load_le_store_le_other _ _ _ _ _ _ (by omega), load_le_store_le]
    norm_num
  · rw [load_le_copy_bytes_other _ _ _ _ _ _ (by omega),
      load_le_copy_bytes_other _ _ _ _ _ _ (by omega),
      load_le_write_children_other _ _ _ _ _ _ (by omega),
      load_le_store_le_other _ _ _ _ _ _ (by omega),
      load_le_store_le_other _ _ _ _ _ _ (by omega), load_le_store_le]
    norm_num
  · rw [load_le_copy_bytes_other _ _ _ _ _ _ (by omega),
      load_le_copy_bytes_other _ _ _ _ _ _ (by omega),
      load_le_write_children_other _ _ _ _ _ _ (by omega),
      load_le_store_le_other _ _ _ _ _ _ (by omega), load_le_store_le]
    norm_num
  · rw [load_le_copy_bytes_other _ _ _ _ _ _ (by omega),
      load_le_copy_bytes_other _ _ _ _ _ _ (by omega),
      load_le_write_children_other _ _ _ _ _ _ (by omega), load_le_store_le]
    norm_num

theorem scalar_width_numeric (data_type : Nat)
    (h : DATA_TYPE_INT8 ≤ data_type ∧ data_type ≤ DATA_TYPE_DOUBLE) :
    scalar_width data_type = some (valueWidth data_type)
      ∧ (valueWidth data_type = 1 ∨ valueWidth data_type = 2 ∨ valueWidth data_type = 4
          ∨ valueWidth data_type = 8) := by
  obtain ⟨h1, h2⟩ := h
  simp only [DATA_TYPE_INT8, DATA_TYPE_DOUBLE] at h1 h2
  interval_cases data_type <;> simp [scalar_width, valueWidth]

/-- A written scalar descriptor whose type byte is below `INT8_ARRAY` has the scalar layout. -/
theorem write_scalar_layout (cn : Nat) (dst : Mem) (offset length_of_name number_of_children : Nat)
    (children : Nat → OmOffsetSize_t) (name : Nat → Byte) (data_type : Nat)
    (value : Nat → Byte) (h : data_type < DATA_TYPE_INT8_ARRAY) :
    _om_variable_memory_layout
        (om_variable_write_scalar cn dst offset length_of_name number_of_children children
          name data_type value).1 = OmMemoryLayout_t.OM_MEMORY_LAYOUT_SCALAR := by
  have hh := (write_scalar_header cn dst offset length_of_name number_of_children children
    name data_type value).1
  rw [meta_data_type, load_le_one] at hh
  simp only [DATA_TYPE_INT8_ARRAY] at h
  rw [memory_layout_eq, if_neg (by omega), if_neg (by simp only [DATA_TYPE_INT8_ARRAY]; omega)]

/-- The value bytes of a written scalar descriptor. -/
theorem write_scalar_value (cn : Nat) (dst : Mem) (offset length_of_name number_of_children : Nat)
    (children : Nat → OmOffsetSize_t) (name : Nat → Byte) (data_type : Nat)
    (value : Nat → Byte) (i : Nat) (hi : i < (scalar_width data_type).getD 0) :
    (om_variable_write_scalar cn dst offset length_of_name number_of_children children
        name data_type value).1 (SIZE_VARIABLEV3 + wrap32 (16 * number_of_children) + i)
      = value i := by
  unfold om_variable_write_scalar
  simp only
  rw [copy_bytes_apply, if_neg (by omega), copy_bytes_apply, if_pos (by omega)]
  congr 1
  omega

/-- The name bytes of a written scalar descriptor. -/
theorem write_scalar_name (cn : Nat) (dst : Mem) (offset length_of_name number_of_children : Nat)
    (children : Nat → OmOffsetSize_t) (name : Nat → Byte) (data_type : Nat)
    (value : Nat → Byte) (i : Nat) (hi : i < length_of_name) :
    (om_variable_write_scalar cn dst offset length_of_name number_of_children children
        name data_type value).1
        (SIZE_VARIABLEV3 + wrap32 (16 * number_of_children)
          + (scalar_width data_type).getD 0 + i)
      = name i := by
  unfold om_variable_write_scalar
  simp only
  rw [copy_bytes_apply, if_pos (by omega)]
  congr 1
  omega

/-! ## Scalar value round trip -/

/-- Claim C3. Scalar value round trip: for a data type in `INT8..DOUBLE`, any name, children
table and value, the bytes `om_variable_write_scalar` produces have the `SCALAR` layout,
`om_variable_get_type` returns the data type, and `om_variable_get_scalar` returns `ERROR_OK`
and copies to the caller's buffer exactly the `valueWidth(data_type)` bytes (1, 2, 4 or 8) of
the value that was written, leaving the rest of the buffer alone. -/
theorem scalar_value_round_trip (cn : Nat) (dst : Mem) (offset length_of_name
    number_of_children : Nat) (children : Nat → OmOffsetSize_t) (name : Nat → Byte)
    (data_type : Nat) (value : Nat → Byte) (out : Mem)
    (hdt : DATA_TYPE_INT8 ≤ data_type ∧ data_type ≤ DATA_TYPE_DOUBLE)
    (hn : number_of_children < 4294967296) :
    _om_variable_memory_layout
        (om_variable_write_scalar cn dst offset length_of_name number_of_children children
          name data_type value).1 = OmMemoryLayout_t.OM_MEMORY_LAYOUT_SCALAR
    ∧ om_variable_get_type
        (om_variable_write_scalar cn dst offset length_of_name number_of_children children
          name data_type value).1 = data_type
    ∧ (om_variable_get_scalar
        (om_variable_write_scalar cn dst offset length_of_name number_of_children children
          name data_type value).1 out).1 = OmError_t.ERROR_OK
    ∧ (valueWidth data_type = 1 ∨ valueWidth data_type = 2 ∨ valueWidth data_type = 4
        ∨ valueWidth data_type = 8)
    ∧ (∀ i, i < valueWidth data_type →
        (om_variable_get_scalar
          (om_variable_write_scalar cn dst offset length_of_name number_of_children children
            name data_type value).1 out).2 i = value i)
    ∧ (∀ i, valueWidth data_type ≤ i →
        (om_variable_get_scalar
          (om_variable_write_scalar cn dst offset length_of_name number_of_children children
            name data_type value).1 out).2 i = out i) := by
  have hlay := write_scalar_layout cn dst offset length_of_name number_of_children children
    name data_type value (by simp only [DATA_TYPE_INT8_ARRAY, DATA_TYPE_DOUBLE] at hdt ⊢; omega)
  obtain ⟨hty, -, -, hnc⟩ := write_scalar_header cn dst offset length_of_name
    number_of_children children name data_type value
  obtain ⟨hw, hw4⟩ := scalar_width_numeric data_type hdt
  have hty2 : data_type % 256 = data_type := by
    simp only [DATA_TYPE_DOUBLE] at hdt; omega
  rw [hty2] at hty
  rw [Nat.mod_eq_of_lt hn] at hnc
  refine ⟨hlay, ?_, ?_, hw4, ?_, ?_⟩
  · rw [om_variable_get_type, hlay]
    exact hty
  · rw [om_variable_get_scalar, if_neg (by rw [hlay]; simp), hty, hw]
  · intro i hi
    rw [om_variable_get_scalar, if_neg (by rw [hlay]; simp), hty, hw]
    simp only [hnc]
    rw [copy_bytes_apply, if_pos (by omega)]
    simp only [Nat.sub_zero]
    exact write_scalar_value cn dst offset length_of_name number_of_children children name
      data_type value i (by rw [hw]; exact hi)
  · intro i hi
    rw [om_variable_get_scalar, if_neg (by rw [hlay]; simp), hty, hw]
    simp only
    rw [copy_bytes_apply, if_neg (by omega)]

/-! ## Array descriptors: what the writer leaves in memory -/

theorem write_dims_outside (k : Nat) : ∀ (m : Mem) (bd bc : Nat) (dims chunks : Nat → Nat)
    (x : Nat), (x < bd ∨ bd + 8 * k ≤ x) → (x < bc ∨ bc + 8 * k ≤ x) →
    forUp k (fun i acc =>
      store_le (store_le acc (bd + 8 * i) 8 (dims i)) (bc + 8 * i) 8 (chunks i)) m x = m x := by
  induction k with
  | zero => intro m bd bc dims chunks x _ _; rfl
  | succ j ih =>
    intro m bd bc dims chunks x h1 h2
    rw [forUp_succ, store_le_outside _ _ _ _ _ (by omega),
      store_le_outside _ _ _ _ _ (by omega), ih m bd bc dims chunks x (by omega) (by omega)]

theorem write_dims_entry (k : Nat) : ∀ (m : Mem) (bd bc : Nat) (dims chunks : Nat → Nat)
    (i : Nat), bd + 8 * k ≤ bc → i < k →
    load_le (forUp k (fun i acc =>
        store_le (store_le acc (bd + 8 * i) 8 (dims i)) (bc + 8 * i) 8 (chunks i)) m)
        (bd + 8 * i) 8 = dims i % 256 ^ 8
    ∧ load_le (forUp k (fun i acc =>
        store_le (store_le acc (bd + 8 * i) 8 (dims i)) (bc + 8 * i) 8 (chunks i)) m)
        (bc + 8 * i) 8 = chunks i % 256 ^ 8 := by
  induction k with
  | zero => intro m bd bc dims chunks i _ h; omega
  | succ j ih =>
    intro m bd bc dims chunks i hb hi
    rw [forUp_succ]
    by_cases hij : i = j
    · subst hij
      constructor
      · rw [load_le_store_le_other _ _ _ _ _ _ (by omega), load_le_store_le]
      · rw [load_le_store_le]
    · have h1 := ih m bd bc dims chunks i (by omega) (by omega)
      constructor
      · rw [load_le_store_le_other _ _ _ _ _ _ (by omega),
          load_le_store_le_other _ _ _ _ _ _ (by omega)]
        exact h1.1
      · rw [load_le_store_le_other _ _ _ _ _ _ (by omega),
          load_le_store_le_other _ _ _ _ _ _ (by omega)]
        exact h1.2

theorem load_le_write_dims_other (k : Nat) (m : Mem) (bd bc : Nat) (dims chunks : Nat → Nat)
    (a w : Nat) (h1 : a + w ≤ bd ∨ bd + 8 * k ≤ a) (h2 : a + w ≤ bc ∨ bc + 8 * k ≤ a) :
    load_le (forUp k (fun i acc =>
        store_le (store_le acc (bd + 8 * i) 8 (dims i)) (bc + 8 * i) 8 (chunks i)) m) a w
      = load_le m a w :=
  load_le_congr w _ _ a (fun x hx1 hx2 =>
    write_dims_outside k m bd bc dims chunks x (by omega) (by omega))

/-- The header fields of a written array descriptor that the reader consults. -/
theorem write_array_header (dst : Mem) (offset length_of_name number_of_children : Nat)
    (children : Nat → OmOffsetSize_t) (name : Nat → Byte) (data_type compression_type : Nat)
    (scale_factor add_offset dimension_count : Nat) (dimensions chunks : Nat → Nat)
    (lut_size lut_offset : Nat) :
    meta_data_type
        (om_variable_write_numeric_array dst offset length_of_name number_of_children children
          name data_type compression_type scale_factor add_offset dimension_count dimensions
          chunks lut_size lut_offset).1 = data_type % 256
    ∧ meta_compression_type
        (om_variable_write_numeric_array dst offset length_of_name number_of_children children
          name data_type compression_type scale_factor add_offset dimension_count dimensions
          chunks lut_size lut_offset).1 = compression_type % 256
    ∧ meta_length_of_name
        (om_variable_write_numeric_array dst offset length_of_name number_of_children children
          name data_type compression_type scale_factor add_offset dimension_count dimensions
          chunks lut_size lut_offset).1 = length_of_name % 65536
    ∧ meta_number_of_children
        (om_variable_write_numeric_array dst offset length_of_name number_of_children children
          name data_type compression_type scale_factor add_offset dimension_count dimensions
          chunks lut_size lut_offset).1 = number_of_children % 4294967296
    ∧ meta_dimension_count
        (om_variable_write_numeric_array dst offset length_of_name number_of_children children
          name data_type compression_type scale_factor add_offset dimension_count dimensions
          chunks lut_size lut_offset).1 = dimension_count % 18446744073709551616 := by
  unfold om_variable_write_numeric_array meta_data_type meta_compression_type
    meta_length_of_name meta_number_of_children meta_dimension_count
  simp only [SIZEOF_ARRAYV3]
  refine ⟨?_, ?_, ?_, ?_, ?_⟩
  all_goals
    rw [load_le_copy_bytes_other _ _ _ _ _ _ (by omega),
      load_le_write_dims_other _ _ _ _ _ _ _ _ (by omega) (by omega),
      load_le_write_children_other _ _ _ _ _ _ (by omega)]
  · rw [load_le_store_le_other _ _ _ _ _ _ (by omega),
      load_le_store_le_other _ _ _ _ _ _ (by omega),
      load_le_store_le_other _ _ _ _ _ _ (by omega),
      load_le_store_le_other _ _ _ _ _ _ (by omega),
      load_le_store_le_other _ _ _ _ _ _ (by omega),
      load_le_store_le_other _ _ _ _ _ _ (by omega),
      load_le_store_le_other _ _ _ _ _ _ (by omega),
      load_le_store_le_other _ _ _ _ _ _ (by omega), load_le_store_le]
    norm_num
  · rw [load_le_store_le_other _ _ _ _ _ _ (by omega),
      load_le_store_le_other _ _ _ _ _ _ (by omega),
      load_le_store_le_other _ _ _ _ _ _ (by omega),
      load_le_store_le_other _ _ _ _ _ _ (by omega),
      load_le_store_le_other _ _ _ _ _ _ (by omega),
      load_le_store_le_other _ _ _ _ _ _ (by omega),
      load_le_store_le_other _ _ _ _ _ _ (by omega), load_le_store_le]
    norm_num
  · rw [load_le_store_le_other _ _ _ _ _ _ (by omega),
      load_le_store_le_other _ _ _ _ _ _ (by omega),
      load_le_store_le_other _ _ _ _ _ _ (by omega),
      load_le_store_le_other _ _ _ _ _ _ (by omega),
      load_le_store_le_other _ _ _ _ _ _ (by omega),
      load_le_store_le_other _ _ _ _ _ _ (by omega), load_le_store_le]
    norm_num
  · rw [load_le_store_le_other _ _ _ _ _ _ (by omega),
      load_le_store_le_other _ _ _ _ _ _ (by omega),
      load_le_store_le_other _ _ _ _ _ _ (by omega),
      load_le_store_le_other _ _ _ _ _ _ (by omega),
      load_le_store_le_other _ _ _ _ _ _ (by omega), load_le_store_le]
    norm_num
  · rw [load_le_store_le_other _ _ _ _ _ _ (by omega),
      load_le_store_le_other _ _ _ _ _ _ (by omega), load_le_store_le]
    norm_num

/-- The dimension and chunk tables of a written array descriptor. -/
theorem write_array_tables (dst : Mem) (offset length_of_name number_of_children : Nat)
    (children : Nat → OmOffsetSize_t) (name : Nat → Byte) (data_type compression_type : Nat)
    (scale_factor add_offset dimension_count : Nat) (dimensions chunks : Nat → Nat)
    (lut_size lut_offset : Nat) (hD : dimension_count < 1152921504606846976)
    (i : Nat) (hi : i < dimension_count) :
    load_le
        (om_variable_write_numeric_array dst offset length_of_name number_of_children children
          name data_type compression_type scale_factor add_offset dimension_count dimensions
          chunks lut_size lut_offset).1
        (SIZEOF_ARRAYV3 + wrap32 (16 * number_of_children) + 8 * i) 8
      = dimensions i % 256 ^ 8
    ∧ load_le
        (om_variable_write_numeric_array dst offset length_of_name number_of_children children
          name data_type compression_type scale_factor add_offset dimension_count dimensions
          chunks lut_size lut_offset).1
        (SIZEOF_ARRAYV3 + wrap32 (16 * number_of_children) + 8 * dimension_count + 8 * i) 8
      = chunks i % 256 ^ 8 := by
  have h8 : wrap64 (8 * dimension_count) = 8 * dimension_count := by
    unfold wrap64; omega
  have h16 : wrap64 (16 * dimension_count) = 16 * dimension_count := by
    unfold wrap64; omega
  unfold om_variable_write_numeric_array
  simp only [SIZEOF_ARRAYV3, h8, h16]
  rw [load_le_copy_bytes_other _ _ _ _ _ _ (by omega),
    load_le_copy_bytes_other _ _ _ _ _ _ (by omega)]
  exact write_dims_entry dimension_count _ _ _ dimensions chunks i (by omega) hi

/-- The name bytes of a written array descriptor. -/
theorem write_array_name (dst : Mem) (offset length_of_name number_of_children : Nat)
    (children : Nat → OmOffsetSize_t) (name : Nat → Byte) (data_type compression_type : Nat)
    (scale_factor add_offset dimension_count : Nat) (dimensions chunks : Nat → Nat)
    (lut_size lut_offset : Nat) (i : Nat) (hi : i < length_of_name) :
    (om_variable_write_numeric_array dst offset length_of_name number_of_children children
        name data_type compression_type scale_factor add_offset dimension_count dimensions
        chunks lut_size lut_offset).1
        (SIZEOF_ARRAYV3 + wrap32 (16 * number_of_children) + wrap64 (16 * dimension_count) + i)
      = name i := by
  unfold om_variable_write_numeric_array
  simp only
  rw [copy_bytes_apply, if_pos (by omega)]
  congr 1
  omega

/-- A written array descriptor whose type is a numeric array kind has the array layout. -/
theorem write_array_layout (dst : Mem) (offset length_of_name number_of_children : Nat)
    (children : Nat → OmOffsetSize_t) (name : Nat → Byte) (data_type compression_type : Nat)
    (scale_factor add_offset dimension_count : Nat) (dimensions chunks : Nat → Nat)
    (lut_size lut_offset : Nat)
    (h : DATA_TYPE_INT8_ARRAY ≤ data_type ∧ data_type ≤ DATA_TYPE_DOUBLE_ARRAY) :
    _om_variable_memory_layout
        (om_variable_write_numeric_array dst offset length_of_name number_of_children children
          name data_type compression_type scale_factor add_offset dimension_count dimensions
          chunks lut_size lut_offset).1 = OmMemoryLayout_t.OM_MEMORY_LAYOUT_ARRAY := by
  have hh := (write_array_header dst offset length_of_name number_of_children children
    name data_type compression_type scale_factor add_offset dimension_count dimensions
    chunks lut_size lut_offset).1
  rw [meta_data_type, load_le_one] at hh
  simp only [DATA_TYPE_INT8_ARRAY, DATA_TYPE_DOUBLE_ARRAY] at h
  rw [memory_layout_eq, if_neg (by omega),
    if_pos (by simp only [DATA_TYPE_INT8_ARRAY, DATA_TYPE_DOUBLE_ARRAY]; omega)]

/-! ## Array descriptor round trip -/

/-- Claim C4. Array descriptor round trip: for a data type in `INT8_ARRAY..DOUBLE_ARRAY`, the
bytes `om_variable_write_numeric_array` produces have the `ARRAY` layout,
`om_variable_get_type` and `om_variable_get_compression` return the written data type and
compression, `om_variable_get_dimensions` and `om_variable_get_chunks` return
`dimension_count` values equal element by element to `dimensions` and `chunks`, and
`om_variable_get_name` returns `length_of_name` bytes equal to `name`.  The arguments range
over their C types (`uint16_t` name length, `uint32_t` child count, a one-byte compression
enumerator, `uint64_t` extents), and `dimension_count` is below `2^60`, as it is whenever the
two tables of `16 * dimension_count` bytes exist in a 64-bit address space. -/
theorem array_descriptor_round_trip (pfor : Nat) (dst : Mem) (offset length_of_name
    number_of_children : Nat) (children : Nat → OmOffsetSize_t) (name : Nat → Byte)
    (data_type compression_type : Nat) (scale_factor add_offset dimension_count : Nat)
    (dimensions chunks : Nat → Nat) (lut_size lut_offset : Nat)
    (hdt : DATA_TYPE_INT8_ARRAY ≤ data_type ∧ data_type ≤ DATA_TYPE_DOUBLE_ARRAY)
    (hc : compression_type < 256)
    (hlen : length_of_name < 65536)
    (hn : number_of_children < 4294967296)
    (hD : dimension_count < 1152921504606846976)
    (hdims : ∀ i, i < dimension_count → dimensions i < 18446744073709551616)
    (hchunks : ∀ i, i < dimension_count → chunks i < 18446744073709551616) :
    _om_variable_memory_layout
        (om_variable_write_numeric_array dst offset length_of_name number_of_children children
          name data_type compression_type scale_factor add_offset dimension_count dimensions
          chunks lut_size lut_offset).1 = OmMemoryLayout_t.OM_MEMORY_LAYOUT_ARRAY
    ∧ om_variable_get_type
        (om_variable_write_numeric_array dst offset length_of_name number_of_children children
          name data_type compression_type scale_factor add_offset dimension_count dimensions
          chunks lut_size lut_offset).1 = data_type
    ∧ om_variable_get_compression pfor
        (om_variable_write_numeric_array dst offset length_of_name number_of_children children
          name data_type compression_type scale_factor add_offset dimension_count dimensions
          chunks lut_size lut_offset).1 = compression_type
    ∧ (om_variable_get_dimensions
        (om_variable_write_numeric_array dst offset length_of_name number_of_children children
          name data_type compression_type scale_factor add_offset dimension_count dimensions
          chunks lut_size lut_offset).1).count = dimension_count
    ∧ (∀ i, i < dimension_count →
        OmDimensions_t.get
          (om_variable_write_numeric_array dst offset length_of_name number_of_children
            children name data_type compression_type scale_factor add_offset dimension_count
            dimensions chunks lut_size lut_offset).1
          (om_variable_get_dimensions
            (om_variable_write_numeric_array dst offset length_of_name number_of_children
              children name data_type compression_type scale_factor add_offset dimension_count
              dimensions chunks lut_size lut_offset).1) i = some (dimensions i))
    ∧ (om_variable_get_chunks
        (om_variable_write_numeric_array dst offset length_of_name number_of_children children
          name data_type compression_type scale_factor add_offset dimension_count dimensions
          chunks lut_size lut_offset).1).count = dimension_count
    ∧ (∀ i, i < dimension_count →
        OmDimensions_t.get
          (om_variable_write_numeric_array dst offset length_of_name number_of_children
            children name data_type compression_type scale_factor add_offset dimension_count
            dimensions chunks lut_size lut_offset).1
          (om_variable_get_chunks
            (om_variable_write_numeric_array dst offset length_of_name number_of_children
              children name data_type compression_type scale_factor add_offset dimension_count
              dimensions chunks lut_size lut_offset).1) i = some (chunks i))
    ∧ (om_variable_get_name
        (om_variable_write_numeric_array dst offset length_of_name number_of_children children
          name data_type compression_type scale_factor add_offset dimension_count dimensions
          chunks lut_size lut_offset).1).size = length_of_name
    ∧ (∀ i, i < length_of_name →
        OmString_t.get
          (om_variable_write_numeric_array dst offset length_of_name number_of_children
            children name data_type compression_type scale_factor add_offset dimension_count
            dimensions chunks lut_size lut_offset).1
          (om_variable_get_name
            (om_variable_write_numeric_array dst offset length_of_name number_of_children
              children name data_type compression_type scale_factor add_offset dimension_count
              dimensions chunks lut_size lut_offset).1) i = some (name i)) := by
  have hlay := write_array_layout dst offset length_of_name number_of_children children
    name data_type compression_type scale_factor add_offset dimension_count dimensions
    chunks lut_size lut_offset hdt
  obtain ⟨hty, hco, hln, hnc, hdc⟩ := write_array_header dst offset length_of_name
    number_of_children children name data_type compression_type scale_factor add_offset
    dimension_count dimensions chunks lut_size lut_offset
  have hty2 : data_type % 256 = data_type := by
    simp only [DATA_TYPE_DOUBLE_ARRAY] at hdt; omega
  rw [hty2] at hty
  rw [Nat.mod_eq_of_lt hc] at hco
  rw [Nat.mod_eq_of_lt hlen] at hln
  rw [Nat.mod_eq_of_lt hn] at hnc
  rw [Nat.mod_eq_of_lt (by omega)] at hdc
  have h8 : wrap64 (8 * dimension_count) = 8 * dimension_count := by
    unfold wrap64; omega
  refine ⟨hlay, ?_, ?_, ?_, ?_, ?_, ?_, ?_, ?_⟩
  · rw [om_variable_get_type, hlay]; exact hty
  · rw [om_variable_get_compression, hlay]; exact hco
  · rw [om_variable_get_dimensions, hlay]; exact hdc
  · intro i hi
    rw [om_variable_get_dimensions, hlay]
    simp only [OmDimensions_t.get, hnc]
    rw [(write_array_tables dst offset length_of_name number_of_children children
      name data_type compression_type scale_factor add_offset dimension_count dimensions
      chunks lut_size lut_offset hD i hi).1, Nat.mod_eq_of_lt (by have := hdims i hi; omega)]
  · rw [om_variable_get_chunks, hlay]; exact hdc
  · intro i hi
    rw [om_variable_get_chunks, hlay]
    simp only [OmDimensions_t.get, hnc, hdc, h8]
    rw [(write_array_tables dst offset length_of_name number_of_children children
      name data_type compression_type scale_factor add_offset dimension_count dimensions
      chunks lut_size lut_offset hD i hi).2, Nat.mod_eq_of_lt (by have := hchunks i hi; omega)]
  · rw [om_variable_get_name, hlay]; exact hln
  · intro i hi
    rw [om_variable_get_name, hlay]
    simp only [OmString_t.get, hnc, hdc]
    rw [write_array_name dst offset length_of_name number_of_children children
      name data_type compression_type scale_factor add_offset dimension_count dimensions
      chunks lut_size lut_offset i hi]

theorem scalar_value_round_trip_witness :
    (DATA_TYPE_INT8 ≤ DATA_TYPE_FLOAT ∧ DATA_TYPE_FLOAT ≤ DATA_TYPE_DOUBLE)
    ∧ 2 < 4294967296
    ∧ _om_variable_memory_layout
        (om_variable_write_scalar 4 exMem 7 4 2 exChildren exName DATA_TYPE_FLOAT exValue).1
        = OmMemoryLayout_t.OM_MEMORY_LAYOUT_SCALAR
    ∧ om_variable_get_type
        (om_variable_write_scalar 4 exMem 7 4 2 exChildren exName DATA_TYPE_FLOAT exValue).1
        = DATA_TYPE_FLOAT
    ∧ (om_variable_get_scalar
        (om_variable_write_scalar 4 exMem 7 4 2 exChildren exName DATA_TYPE_FLOAT exValue).1
        exMem).1 = OmError_t.ERROR_OK
    ∧ (∀ i, i < valueWidth DATA_TYPE_FLOAT →
        (om_variable_get_scalar
          (om_variable_write_scalar 4 exMem 7 4 2 exChildren exName DATA_TYPE_FLOAT exValue).1
          exMem).2 i = exValue i) :=
  have h := scalar_value_round_trip 4 exMem 7 4 2 exChildren exName DATA_TYPE_FLOAT exValue
    exMem (by decide) (by decide)
  ⟨by decide, by decide, h.1, h.2.1, h.2.2.1, h.2.2.2.2.1⟩

theorem array_descriptor_round_trip_witness :
    (DATA_TYPE_INT8_ARRAY ≤ DATA_TYPE_FLOAT_ARRAY
      ∧ DATA_TYPE_FLOAT_ARRAY ≤ DATA_TYPE_DOUBLE_ARRAY)
    ∧ om_variable_get_type
        (om_variable_write_numeric_array exMem 7 4 2 exChildren exName DATA_TYPE_FLOAT_ARRAY 1
          0 0 2 exDims exChunks 64 128).1 = DATA_TYPE_FLOAT_ARRAY
    ∧ (om_variable_get_dimensions
        (om_variable_write_numeric_array exMem 7 4 2 exChildren exName DATA_TYPE_FLOAT_ARRAY 1
          0 0 2 exDims exChunks 64 128).1).count = 2 :=
  have h := array_descriptor_round_trip 0 exMem 7 4 2 exChildren exName DATA_TYPE_FLOAT_ARRAY 1
    0 0 2 exDims exChunks 64 128 (by decide) (by decide) (by decide) (by decide) (by decide)
    (by decide) (by decide)
  ⟨by decide, h.2.1, h.2.2.2.1⟩

/-! ## Size prediction -/

/-- Claim C6, as stated, fails: for `DATA_TYPE_STRING` the size function answers 0 while the
writer reports the 12 bytes it wrote; and with `2^28 - 1` children, a 7-byte name and a
`DOUBLE` value the 32-bit sums of the two functions wrap at different points. -/
theorem scalar_size_counterexample :
    om_variable_write_scalar_size 4 0 DATA_TYPE_STRING = 0
    ∧ (om_variable_write_scalar 4 exMem 0 4 0 exChildren exName DATA_TYPE_STRING exValue).2.size
        = 12
    ∧ om_variable_write_scalar_size 7 268435455 DATA_TYPE_DOUBLE = 4294967303
    ∧ (om_variable_write_scalar 4 exMem 0 7 268435455 exChildren exName DATA_TYPE_DOUBLE
        exValue).2.size = 7 := by
  refine ⟨by decide, by decide, by decide, by decide⟩

/-- Claim C6, amended. For `DATA_TYPE_NONE` and the numeric types `INT8..DOUBLE`, and a
descriptor of less than `2^32` bytes, `om_variable_write_scalar_size` equals the `size` field
that `om_variable_write_scalar` returns, and both are
`8 + 16 * number_of_children + valueWidth(data_type) + length_of_name`; for every data type
after `DOUBLE` the size function returns 0. -/
theorem scalar_size_round_trip (cn : Nat) (dst : Mem) (offset length_of_name
    number_of_children : Nat) (children : Nat → OmOffsetSize_t) (name : Nat → Byte)
    (data_type : Nat) (value : Nat → Byte) :
    (data_type ≤ DATA_TYPE_DOUBLE →
      8 + 16 * number_of_children + valueWidth data_type + length_of_name < 4294967296 →
        om_variable_write_scalar_size length_of_name number_of_children data_type
          = (om_variable_write_scalar cn dst offset length_of_name number_of_children children
              name data_type value).2.size
        ∧ (om_variable_write_scalar cn dst offset length_of_name number_of_children children
              name data_type value).2.size
          = 8 + 16 * number_of_children + valueWidth data_type + length_of_name)
    ∧ (DATA_TYPE_DOUBLE < data_type →
        om_variable_write_scalar_size length_of_name number_of_children data_type = 0) := by
  constructor
  · intro hdt hsz
    simp only [DATA_TYPE_DOUBLE] at hdt
    unfold om_variable_write_scalar om_variable_write_scalar_size
    simp only [SIZE_VARIABLEV3]
    interval_cases data_type <;>
      simp [scalar_width, valueWidth, wrap32, wrap64] at hsz ⊢ <;> omega
  · intro hdt
    simp only [DATA_TYPE_DOUBLE] at hdt
    unfold om_variable_write_scalar_size
    simp only [DATA_TYPE_NONE, DATA_TYPE_INT8, DATA_TYPE_UINT8, DATA_TYPE_INT16,
      DATA_TYPE_UINT16, DATA_TYPE_INT32, DATA_TYPE_UINT32, DATA_TYPE_INT64, DATA_TYPE_UINT64,
      DATA_TYPE_FLOAT, DATA_TYPE_DOUBLE]
    rw [if_neg (by omega), if_neg (by omega), if_neg (by omega), if_neg (by omega),
      if_neg (by omega)]

theorem scalar_size_round_trip_witness :
    DATA_TYPE_FLOAT ≤ DATA_TYPE_DOUBLE
    ∧ 8 + 16 * 2 + valueWidth DATA_TYPE_FLOAT + 4 < 4294967296
    ∧ om_variable_write_scalar_size 4 2 DATA_TYPE_FLOAT
        = (om_variable_write_scalar 4 exMem 7 4 2 exChildren exName DATA_TYPE_FLOAT
            exValue).2.size
    ∧ (om_variable_write_scalar 4 exMem 7 4 2 exChildren exName DATA_TYPE_FLOAT
          exValue).2.size
        = 8 + 16 * 2 + valueWidth DATA_TYPE_FLOAT + 4
    ∧ DATA_TYPE_DOUBLE < DATA_TYPE_STRING
    ∧ om_variable_write_scalar_size 4 2 DATA_TYPE_STRING = 0 :=
  have h := (scalar_size_round_trip 4 exMem 7 4 2 exChildren exName DATA_TYPE_FLOAT
    exValue).1 (by decide) (by decide)
  ⟨by decide, by decide, h.1, h.2, by decide,
    (scalar_size_round_trip 4 exMem 7 4 2 exChildren exName DATA_TYPE_STRING exValue).2
      (by decide)⟩

/-- Claim C7. Array size round trip: `om_variable_write_numeric_array_size` equals the `size`
field that `om_variable_write_numeric_array` returns for the same name length, child count
and dimension count, and the returned `offset` is the offset argument. -/
theorem array_size_round_trip (dst : Mem) (offset length_of_name number_of_children : Nat)
    (children : Nat → OmOffsetSize_t) (name : Nat → Byte) (data_type compression_type : Nat)
    (scale_factor add_offset dimension_count : Nat) (dimensions chunks : Nat → Nat)
    (lut_size lut_offset : Nat) :
    om_variable_write_numeric_array_size length_of_name number_of_children dimension_count
        = (om_variable_write_numeric_array dst offset length_of_name number_of_children
            children name data_type compression_type scale_factor add_offset dimension_count
            dimensions chunks lut_size lut_offset).2.size
    ∧ (om_variable_write_numeric_array dst offset length_of_name number_of_children
          children name data_type compression_type scale_factor add_offset dimension_count
          dimensions chunks lut_size lut_offset).2.offset = offset :=
  ⟨rfl, rfl⟩

/-! ## Names and children of written descriptors -/

/-- For the numeric scalar types `INT8..DOUBLE` the name written by
`om_variable_write_scalar` is returned by `om_variable_get_name`. -/
theorem scalar_name_round_trip_numeric (cn : Nat) (dst : Mem) (offset length_of_name
    number_of_children : Nat) (children : Nat → OmOffsetSize_t) (name : Nat → Byte)
    (data_type : Nat) (value : Nat → Byte)
    (hdt : DATA_TYPE_INT8 ≤ data_type ∧ data_type ≤ DATA_TYPE_DOUBLE)
    (hlen : length_of_name < 65536) (hn : number_of_children < 4294967296) :
    (om_variable_get_name
        (om_variable_write_scalar cn dst offset length_of_name number_of_children children
          name data_type value).1).size = length_of_name
    ∧ (∀ i, i < length_of_name →
        OmString_t.get
          (om_variable_write_scalar cn dst offset length_of_name number_of_children children
            name data_type value).1
          (om_variable_get_name
            (om_variable_write_scalar cn dst offset length_of_name number_of_children
              children name data_type value).1) i = some (name i)) := by
  have hlay := write_scalar_layout cn dst offset length_of_name number_of_children children
    name data_type value (by simp only [DATA_TYPE_INT8_ARRAY, DATA_TYPE_DOUBLE] at hdt ⊢; omega)
  obtain ⟨hty, -, hln, hnc⟩ := write_scalar_header cn dst offset length_of_name
    number_of_children children name data_type value
  obtain ⟨hw, -⟩ := scalar_width_numeric data_type hdt
  have hty2 : data_type % 256 = data_type := by
    simp only [DATA_TYPE_DOUBLE] at hdt; omega
  rw [hty2] at hty
  rw [Nat.mod_eq_of_lt hn] at hnc
  rw [Nat.mod_eq_of_lt hlen] at hln
  constructor
  · rw [om_variable_get_name, hlay]
    simp only [hty, hw, hln]
  · intro i hi
    rw [om_variable_get_name, hlay]
    simp only [hty, hw, hnc, OmString_t.get]
    have h := write_scalar_name cn dst offset length_of_name number_of_children children name
      data_type value i hi
    rw [hw] at h
    exact congrArg some h

/-- Claim C8 at the failing input: a `DATA_TYPE_NONE` scalar written with the four-character
name `temp` reports 12 bytes (header and name) and stores the name right behind the header,
but `om_variable_get_name` returns the empty view, size 0 and `NULL`. -/
theorem scalar_name_none_lost :
    (om_variable_write_scalar 4 exMem 0 4 0 exChildren exName DATA_TYPE_NONE exValue).2.size
        = 12
    ∧ (om_variable_write_scalar 4 exMem 0 4 0 exChildren exName DATA_TYPE_NONE exValue).1 8
        = exName 0
    ∧ om_variable_get_name
        (om_variable_write_scalar 4 exMem 0 4 0 exChildren exName DATA_TYPE_NONE exValue).1
        = ⟨0, none⟩ := by
  refine ⟨by decide, by decide, by decide⟩

theorem int_to_u32_natCast (k : Nat) (h : k < 4294967296) : int_to_u32 (k : Int) = k := by
  unfold int_to_u32
  omega

/-- Below `2^28` children the children table of a written scalar descriptor is read back
entry by entry. -/
theorem scalar_children_round_trip (cn : Nat) (dst : Mem) (offset length_of_name
    number_of_children : Nat) (children : Nat → OmOffsetSize_t) (name : Nat → Byte)
    (data_type : Nat) (value : Nat → Byte)
    (hdt : DATA_TYPE_INT8 ≤ data_type ∧ data_type ≤ DATA_TYPE_DOUBLE)
    (hn : number_of_children < 268435456)
    (hch : ∀ k, k < number_of_children →
      (children k).offset < 18446744073709551616 ∧ (children k).size < 18446744073709551616) :
    om_variable_get_number_of_children
        (om_variable_write_scalar cn dst offset length_of_name number_of_children children
          name data_type value).1 = number_of_children
    ∧ (∀ k, k < number_of_children →
        om_variable_get_child
          (om_variable_write_scalar cn dst offset length_of_name number_of_children children
            name data_type value).1 (k : Int) = some (children k)) := by
  have hlay := write_scalar_layout cn dst offset length_of_name number_of_children children
    name data_type value (by simp only [DATA_TYPE_INT8_ARRAY, DATA_TYPE_DOUBLE] at hdt ⊢; omega)
  obtain ⟨-, -, -, hnc⟩ := write_scalar_header cn dst offset length_of_name
    number_of_children children name data_type value
  rw [Nat.mod_eq_of_lt (by omega)] at hnc
  constructor
  · rw [om_variable_get_number_of_children, hlay]; exact hnc
  · intro k hk
    have hw32 : wrap32 (16 * number_of_children) = 16 * number_of_children := by
      unfold wrap32; omega
    have hpos : (0 : Int) ≤ ((SIZE_VARIABLEV3 : Nat) : Int) + 16 * (k : Int) := by
      simp only [SIZE_VARIABLEV3]; omega
    have haddr : (((SIZE_VARIABLEV3 : Nat) : Int) + 16 * (k : Int)).toNat
        = SIZE_VARIABLEV3 + 16 * k := by
      simp only [SIZE_VARIABLEV3]; omega
    rw [om_variable_get_child, hlay]
    simp only [hnc, int_to_u32_natCast k (by omega), if_pos hk, reduceCtorEq, if_false,
      if_pos hpos, haddr, load_offset_size]
    have hc := write_children_child number_of_children
      (store_le (store_le (store_le (store_le dst 0 1 data_type) 1 1 cn) 2 2 length_of_name) 4 4
        number_of_children) SIZE_VARIABLEV3 children k hk
    have e1 : load_le (om_variable_write_scalar cn dst offset length_of_name
        number_of_children children name data_type value).1 (SIZE_VARIABLEV3 + 16 * k) 8
        = (children k).offset := by
      unfold om_variable_write_scalar
      simp only [hw32, SIZE_VARIABLEV3] at hc ⊢
      rw [load_le_copy_bytes_other _ _ _ _ _ _ (by omega),
        load_le_copy_bytes_other _ _ _ _ _ _ (by omega), hc.1,
        Nat.mod_eq_of_lt (by have := (hch k hk).1; omega)]
    have e2 : load_le (om_variable_write_scalar cn dst offset length_of_name
        number_of_children children name data_type value).1 (SIZE_VARIABLEV3 + 16 * k + 8) 8
        = (children k).size := by
      unfold om_variable_write_scalar
      simp only [hw32, SIZE_VARIABLEV3] at hc ⊢
      rw [load_le_copy_bytes_other _ _ _ _ _ _ (by omega),
        load_le_copy_bytes_other _ _ _ _ _ _ (by omega), hc.2,
        Nat.mod_eq_of_lt (by have := (hch k hk).2; omega)]
    rw [e1, e2]

/-- Below `2^28` children the children table of a written array descriptor is read back
entry by entry. -/
theorem array_children_round_trip (dst : Mem) (offset length_of_name number_of_children : Nat)
    (children : Nat → OmOffsetSize_t) (name : Nat → Byte) (data_type compression_type : Nat)
    (scale_factor add_offset dimension_count : Nat) (dimensions chunks : Nat → Nat)
    (lut_size lut_offset : Nat)
    (hdt : DATA_TYPE_INT8_ARRAY ≤ data_type ∧ data_type ≤ DATA_TYPE_DOUBLE_ARRAY)
    (hn : number_of_children < 268435456)
    (hD : dimension_count < 1152921504606846976)
    (hch : ∀ k, k < number_of_children →
      (children k).offset < 18446744073709551616 ∧ (children k).size < 18446744073709551616) :
    om_variable_get_number_of_children
        (om_variable_write_numeric_array dst offset length_of_name number_of_children children
          name data_type compression_type scale_factor add_offset dimension_count dimensions
          chunks lut_size lut_offset).1 = number_of_children
    ∧ (∀ k, k < number_of_children →
        om_variable_get_child
          (om_variable_write_numeric_array dst offset length_of_name number_of_children
            children name data_type compression_type scale_factor add_offset dimension_count
            dimensions chunks lut_size lut_offset).1 (k : Int) = some (children k)) := by
  have hlay := write_array_layout dst offset length_of_name number_of_children children
    name data_type compression_type scale_factor add_offset dimension_count dimensions
    chunks lut_size lut_offset hdt
  obtain ⟨-, -, -, hnc, -⟩ := write_array_header dst offset length_of_name
    number_of_children children name data_type compression_type scale_factor add_offset
    dimension_count dimensions chunks lut_size lut_offset
  rw [Nat.mod_eq_of_lt (by omega)] at hnc
  constructor
  · rw [om_variable_get_number_of_children, hlay]; exact hnc
  · intro k hk
    have hw32 : wrap32 (16 * number_of_children) = 16 * number_of_children := by
      unfold wrap32; omega
    have h8 : wrap64 (8 * dimension_count) = 8 * dimension_count := by
      unfold wrap64; omega
    have h16 : wrap64 (16 * dimension_count) = 16 * dimension_count := by
      unfold wrap64; omega
    have hpos : (0 : Int) ≤ ((SIZEOF_ARRAYV3 : Nat) : Int) + 16 * (k : Int) := by
      simp only [SIZEOF_ARRAYV3]; omega
    have haddr : (((SIZEOF_ARRAYV3 : Nat) : Int) + 16 * (k : Int)).toNat
        = SIZEOF_ARRAYV3 + 16 * k := by
      simp only [SIZEOF_ARRAYV3]; omega
    rw [om_variable_get_child, hlay]
    simp only [hnc, int_to_u32_natCast k (by omega), if_pos hk, if_true,
      if_pos hpos, haddr, load_offset_size]
    have hc := write_children_child number_of_children
      (store_le (store_le (store_le (store_le (store_le (store_le (store_le (store_le
        (store_le dst 0 1 data_type) 1 1 compression_type) 2 2 length_of_name) 4 4
        number_of_children) 8 4 scale_factor) 12 4 add_offset) 16 8 dimension_count) 24 8
        lut_size) 32 8 lut_offset) SIZEOF_ARRAYV3 children k hk
    have e1 : load_le (om_variable_write_numeric_array dst offset length_of_name
        number_of_children children name data_type compression_type scale_factor add_offset
        dimension_count dimensions chunks lut_size lut_offset).1 (SIZEOF_ARRAYV3 + 16 * k) 8
        = (children k).offset := by
      unfold om_variable_write_numeric_array
      simp only [hw32, h8, h16, SIZEOF_ARRAYV3] at hc ⊢
      rw [load_le_copy_bytes_other _ _ _ _ _ _ (by omega),
        load_le_write_dims_other _ _ _ _ _ _ _ _ (by omega) (by omega), hc.1,
        Nat.mod_eq_of_lt (by have := (hch k hk).1; omega)]
    have e2 : load_le (om_variable_write_numeric_array dst offset length_of_name
        number_of_children children name data_type compression_type scale_factor add_offset
        dimension_count dimensions chunks lut_size lut_offset).1
        (SIZEOF_ARRAYV3 + 16 * k + 8) 8 = (children k).size := by
      unfold om_variable_write_numeric_array
      simp only [hw32, h8, h16, SIZEOF_ARRAYV3] at hc ⊢
      rw [load_le_copy_bytes_other _ _ _ _ _ _ (by omega),
        load_le_write_dims_other _ _ _ _ _ _ _ _ (by omega) (by omega), hc.2,
        Nat.mod_eq_of_lt (by have := (hch k hk).2; omega)]
    rw [e1, e2]

theorem load_le_mod_256 (m : Mem) (a w : Nat) (h : 0 < w) :
    load_le m a w % 256 = (m a).val := by
  cases w with
  | zero => omega
  | succ k =>
    rw [load_le]
    have := (m a).isLt
    omega

/-- The function `om_variable_get_child` on a scalar descriptor, for an index inside the table. -/
theorem get_child_scalar (var : Mem) (k : Nat)
    (hlay : _om_variable_memory_layout var = OmMemoryLayout_t.OM_MEMORY_LAYOUT_SCALAR)
    (hk : k < meta_number_of_children var) (hk32 : k < 4294967296) :
    om_variable_get_child var (k : Int) = some (load_offset_size var (SIZE_VARIABLEV3 + 16 * k)) := by
  have hpos : (0 : Int) ≤ ((SIZE_VARIABLEV3 : Nat) : Int) + 16 * (k : Int) := by
    simp only [SIZE_VARIABLEV3]; omega
  have haddr : (((SIZE_VARIABLEV3 : Nat) : Int) + 16 * (k : Int)).toNat
      = SIZE_VARIABLEV3 + 16 * k := by
    simp only [SIZE_VARIABLEV3]; omega
  rw [om_variable_get_child, hlay]
  simp only [int_to_u32_natCast k hk32, if_pos hk, reduceCtorEq, if_false, if_pos hpos, haddr]

/-- The low byte of the offset that `om_variable_get_child(0)` returns for a scalar descriptor
with at least one child is the byte at offset 8. -/
theorem get_child_zero_low_byte (var : Mem)
    (hlay : _om_variable_memory_layout var = OmMemoryLayout_t.OM_MEMORY_LAYOUT_SCALAR)
    (hk : 0 < meta_number_of_children var) :
    ∃ r, om_variable_get_child var ((0 : Nat) : Int) = some r
      ∧ r.offset % 256 = (var 8).val := by
  refine ⟨_, get_child_scalar var 0 hlay hk (Nat.succ_pos _), ?_⟩
  simp only [load_offset_size, SIZE_VARIABLEV3, Nat.mul_zero, Nat.add_zero]
  rw [load_le_mod_256 _ _ _ (Nat.succ_pos _)]

/-- Claim C9 at the failing input: with `2^28` children the product
`16 * number_of_children` is 0 in `unsigned int`, so the writer places the one-byte value of an
`INT8` scalar at offset 8, on top of the first entry of the children table; the descriptor
still reports `2^28` children, and `om_variable_get_child(0)` returns an offset whose low byte
is the value byte 255 instead of the offset 100 that was passed in. -/
theorem children_overwritten_at_2_28 :
    om_variable_get_number_of_children
        (om_variable_write_scalar 4 exMem 0 0 268435456 exChildren exName DATA_TYPE_INT8
          (fun _ => 255)).1 = 268435456
    ∧ (exChildren 0).offset = 100
    ∧ ∃ r, om_variable_get_child
          (om_variable_write_scalar 4 exMem 0 0 268435456 exChildren exName DATA_TYPE_INT8
            (fun _ => 255)).1 ((0 : Nat) : Int) = some r
        ∧ r.offset % 256 = 255 := by
  have hlay := write_scalar_layout 4 exMem 0 0 268435456 exChildren exName DATA_TYPE_INT8
    (fun _ => 255) (by decide)
  obtain ⟨-, -, -, hnc⟩ := write_scalar_header 4 exMem 0 0 268435456 exChildren exName
    DATA_TYPE_INT8 (fun _ => 255)
  have hnc2 : (268435456 : Nat) % 4294967296 = 268435456 := by norm_num
  rw [hnc2] at hnc
  have hv := write_scalar_value 4 exMem 0 0 268435456 exChildren exName DATA_TYPE_INT8
    (fun _ => 255) 0 (by decide)
  have hw : SIZE_VARIABLEV3 + wrap32 (16 * 268435456) + 0 = 8 := by decide
  rw [hw] at hv
  refine ⟨?_, by decide, ?_⟩
  · rw [om_variable_get_number_of_children, hlay]; exact hnc
  · have hk : 0 < meta_number_of_children (om_variable_write_scalar 4 exMem 0 0 268435456
        exChildren exName DATA_TYPE_INT8 (fun _ => 255)).1 := by
      rw [hnc]; exact Nat.succ_pos _
    obtain ⟨r, h1, h2⟩ := get_child_zero_low_byte _ hlay hk
    exact ⟨r, h1, h2.trans (congrArg Fin.val hv)⟩

/-! ## Chunk counts -/

theorem forUp_mul_wrap64 (f : Nat → Nat) (n : Nat) :
    forUp n (fun i acc => wrap64 (acc * f i)) 1
      = (∏ i in Finset.range n, f i) % 18446744073709551616 := by
  induction n with
  | zero => rfl
  | succ k ih =>
    rw [forUp_succ, ih, Finset.prod_range_succ]
    unfold wrap64
    rw [Nat.mod_mul_mod]

/-- Claim C10, as stated, fails: for extents `[2^32, 2^32]` and chunks `[1, 1]` the product of
the per-axis chunk counts is `2^64`, and `om_encoder_number_of_chunks` returns 0. -/
theorem number_of_chunks_counterexample :
    om_encoder_number_of_chunks exEncoderHuge = 0
    ∧ (∏ i in Finset.range exEncoderHuge.dimension_count,
        divide_rounded_up (exEncoderHuge.dimensions i) (exEncoderHuge.chunks i))
        = 18446744073709551616 := by
  constructor
  · decide
  · simp [exEncoderHuge, divide_rounded_up, Finset.prod_range_succ]

/-- Claim C10, amended. With `chunks[i] >= 1`, `om_encoder_number_of_chunks` returns the
product of the per-axis chunk counts `⌈dimensions[i] / chunks[i]⌉` reduced modulo `2^64`, and
`om_encoder_number_of_chunks_in_array` returns the product of
`⌈array_count[i] / chunks[i]⌉` reduced modulo `2^64`; each is the product itself whenever the
product is below `2^64`, in particular 1 without any axis. -/
theorem number_of_chunks_eq {F : Type} (encoder : om_encoder_t F) (array_count : Nat → Nat)
    (_hchunks : ∀ i, i < encoder.dimension_count → 1 ≤ encoder.chunks i) :
    om_encoder_number_of_chunks encoder
        = (∏ i in Finset.range encoder.dimension_count,
            divide_rounded_up (encoder.dimensions i) (encoder.chunks i))
          % 18446744073709551616
    ∧ om_encoder_number_of_chunks_in_array encoder array_count
        = (∏ i in Finset.range encoder.dimension_count,
            divide_rounded_up (array_count i) (encoder.chunks i))
          % 18446744073709551616
    ∧ ((∏ i in Finset.range encoder.dimension_count,
          divide_rounded_up (encoder.dimensions i) (encoder.chunks i))
          < 18446744073709551616 →
        om_encoder_number_of_chunks encoder
          = ∏ i in Finset.range encoder.dimension_count,
              divide_rounded_up (encoder.dimensions i) (encoder.chunks i))
    ∧ ((∏ i in Finset.range encoder.dimension_count,
          divide_rounded_up (array_count i) (encoder.chunks i))
          < 18446744073709551616 →
        om_encoder_number_of_chunks_in_array encoder array_count
          = ∏ i in Finset.range encoder.dimension_count,
              divide_rounded_up (array_count i) (encoder.chunks i)) := by
  have h1 : om_encoder_number_of_chunks encoder
      = (∏ i in Finset.range encoder.dimension_count,
          divide_rounded_up (encoder.dimensions i) (encoder.chunks i))
        % 18446744073709551616 :=
    forUp_mul_wrap64 _ _
  have h2 : om_encoder_number_of_chunks_in_array encoder array_count
      = (∏ i in Finset.range encoder.dimension_count,
          divide_rounded_up (array_count i) (encoder.chunks i))
        % 18446744073709551616 :=
    forUp_mul_wrap64 _ _
  exact ⟨h1, h2, fun h => by rw [h1, Nat.mod_eq_of_lt h],
    fun h => by rw [h2, Nat.mod_eq_of_lt h]⟩

theorem number_of_chunks_eq_witness :
    (∀ i, i < exEncoder.dimension_count → 1 ≤ exEncoder.chunks i)
    ∧ om_encoder_number_of_chunks exEncoder
        = (∏ i in Finset.range exEncoder.dimension_count,
            divide_rounded_up (exEncoder.dimensions i) (exEncoder.chunks i))
          % 18446744073709551616
    ∧ om_encoder_number_of_chunks exEncoder = 9 :=
  ⟨by decide, (number_of_chunks_eq exEncoder (fun _ => 5) (by decide)).1, by decide⟩

/-! ## Partial regions -/

/-- Claim C2 at the failing input: the encoder has the extent `[3]` and the chunk `[3]`; the
source array `A` has six elements (element `x` is labelled `x`) and the region is its second
half, `arrayOffset = [3]`, `arrayCount = [3]`, which holds all of chunk 0.  After the three
elements are staged, stepping past the end of `A` yields
`q0 = ((6 mod 6) - 3) mod 2^64 mod 3 = 1`, neither 0 nor `length0`, so the loop does not stop
and the next pass fails the assertion `readCoordinate + i < arrayTotalCount`, whatever the
number of iterations allowed.  The same region supplied as its own array `B[x] = A[x + 3]`
is staged as `A[3], A[4], A[5]`. -/
theorem partial_region_tail_fails (fuel : Nat) :
    (om_encoder_stageChunk exOps exEncoderLine (fun x => x) (fun _ => 6) (fun _ => 3)
        (fun _ => 3) 0 0 exBuffer (fuel + 2)).isAssertionFailed = true
    ∧ (om_encoder_stageChunk exOps exEncoderLine (fun x => x + 3) (fun _ => 3) (fun _ => 0)
        (fun _ => 3) 0 0 exBuffer (fuel + 1)).stagedFloats = some [3, 4, 5] := by
  constructor
  · rfl
  · rfl

/-! ## Row-major index arithmetic -/

theorem stride_of_self (r : Nat → Nat) (D : Nat) : stride_of r D D = 1 := by
  simp [stride_of]

theorem stride_of_succ (r : Nat → Nat) (D k : Nat) (h : k < D) :
    stride_of r D k = r k * stride_of r D (k + 1) := by
  unfold stride_of
  exact Finset.prod_eq_prod_Ico_succ_bot h r

theorem stride_of_pos (r : Nat → Nat) (D : Nat) (hr : ∀ j, j < D → 1 ≤ r j) (k : Nat) :
    1 ≤ stride_of r D k := by
  unfold stride_of
  apply Nat.succ_le_of_lt
  apply Finset.prod_pos
  intro j hj
  rw [Finset.mem_Ico] at hj
  exact hr j hj.2

theorem stride_of_dvd (r : Nat → Nat) (D k m : Nat) (hkm : k ≤ m) (hm : m ≤ D) :
    stride_of r D m ∣ stride_of r D k := by
  unfold stride_of
  rw [← Finset.prod_Ico_consecutive r hkm hm]
  exact Dvd.intro_left _ rfl

theorem stride_of_le_of_le (r : Nat → Nat) (D : Nat) (hr : ∀ j, j < D → 1 ≤ r j)
    (k m : Nat) (hkm : k ≤ m) (hm : m ≤ D) : stride_of r D m ≤ stride_of r D k :=
  Nat.le_of_dvd (stride_of_pos r D hr k) (stride_of_dvd r D k m hkm hm)

theorem stride_of_congr (r r2 : Nat → Nat) (D k : Nat)
    (h : ∀ j, k ≤ j → j < D → r j = r2 j) : stride_of r D k = stride_of r2 D k := by
  unfold stride_of
  apply Finset.prod_congr rfl
  intro j hj
  rw [Finset.mem_Ico] at hj
  exact h j hj.1 hj.2

theorem stride_of_mono (r r2 : Nat → Nat) (D k : Nat)
    (h : ∀ j, k ≤ j → j < D → r j ≤ r2 j) : stride_of r D k ≤ stride_of r2 D k := by
  unfold stride_of
  apply Finset.prod_le_prod'
  intro j hj
  rw [Finset.mem_Ico] at hj
  exact h j hj.1 hj.2

theorem linear_index_self (g r : Nat → Nat) (D : Nat) : linear_index g r D D = 0 := by
  simp [linear_index]

theorem linear_index_succ (g r : Nat → Nat) (D k : Nat) (h : k < D) :
    linear_index g r D k = g k * stride_of r D (k + 1) + linear_index g r D (k + 1) := by
  unfold linear_index
  exact Finset.sum_eq_sum_Ico_succ_bot h _

/-- A coordinate below the shape on every axis has a linear index below the stride. -/
theorem linear_index_lt (g r : Nat → Nat) (D : Nat) (n : Nat) : ∀ k, k + n = D →
    (∀ j, k ≤ j → j < D → g j < r j) → linear_index g r D k < stride_of r D k := by
  induction n with
  | zero =>
    intro k hk _
    have : k = D := by omega
    subst this
    rw [linear_index_self, stride_of_self]
    exact Nat.one_pos
  | succ m ih =>
    intro k hk hg
    have hkD : k < D := by omega
    have h1 := ih (k + 1) (by omega) (fun j hj1 hj2 => hg j (by omega) hj2)
    have h2 := hg k (le_refl k) hkD
    rw [linear_index_succ g r D k hkD, stride_of_succ r D k hkD]
    calc g k * stride_of r D (k + 1) + linear_index g r D (k + 1)
        < g k * stride_of r D (k + 1) + stride_of r D (k + 1) := by omega
      _ = (g k + 1) * stride_of r D (k + 1) := by ring
      _ ≤ r k * stride_of r D (k + 1) := Nat.mul_le_mul_right _ h2

/-- The coordinate that is maximal on every axis is the last element. -/
theorem linear_index_max (g r : Nat → Nat) (D : Nat) (n : Nat) : ∀ k, k + n = D →
    (∀ j, k ≤ j → j < D → g j + 1 = r j) →
    linear_index g r D k + 1 = stride_of r D k := by
  induction n with
  | zero =>
    intro k hk _
    have : k = D := by omega
    subst this
    rw [linear_index_self, stride_of_self]
  | succ m ih =>
    intro k hk hg
    have hkD : k < D := by omega
    have h1 := ih (k + 1) (by omega) (fun j hj1 hj2 => hg j (by omega) hj2)
    have h2 := hg k (le_refl k) hkD
    rw [linear_index_succ g r D k hkD, stride_of_succ r D k hkD, ← h2]
    calc g k * stride_of r D (k + 1) + linear_index g r D (k + 1) + 1
        = g k * stride_of r D (k + 1) + (linear_index g r D (k + 1) + 1) := by ring
      _ = g k * stride_of r D (k + 1) + stride_of r D (k + 1) := by rw [h1]
      _ = (g k + 1) * stride_of r D (k + 1) := by ring

theorem linear_index_congr (g g2 r : Nat → Nat) (D k : Nat)
    (h : ∀ j, k ≤ j → j < D → g j = g2 j) : linear_index g r D k = linear_index g2 r D k := by
  unfold linear_index
  apply Finset.sum_congr rfl
  intro j hj
  rw [Finset.mem_Ico] at hj
  rw [h j hj.1 hj.2]

theorem linear_index_zero (g r : Nat → Nat) (D k : Nat)
    (h : ∀ j, k ≤ j → j < D → g j = 0) : linear_index g r D k = 0 := by
  unfold linear_index
  apply Finset.sum_eq_zero
  intro j hj
  rw [Finset.mem_Ico] at hj
  rw [h j hj.1 hj.2, Nat.zero_mul]
theorem prefix_index_succ (g r : Nat → Nat) (D k : Nat) :
    prefix_index g r D (k + 1) = prefix_index g r D k + g k * stride_of r D (k + 1) := by
  unfold prefix_index
  exact Finset.sum_range_succ _ k

theorem prefix_index_zero (g r : Nat → Nat) (D : Nat) : prefix_index g r D 0 = 0 := by
  simp [prefix_index]

theorem prefix_index_dvd (g r : Nat → Nat) (D k : Nat) (hk : k ≤ D) :
    stride_of r D k ∣ prefix_index g r D k := by
  unfold prefix_index
  apply Finset.dvd_sum
  intro j hj
  rw [Finset.mem_range] at hj
  exact Dvd.dvd.mul_left (stride_of_dvd r D (j + 1) k (by omega) hk) _

theorem prefix_index_congr (g g2 r : Nat → Nat) (D k : Nat)
    (h : ∀ j, j < k → g j = g2 j) : prefix_index g r D k = prefix_index g2 r D k := by
  unfold prefix_index
  apply Finset.sum_congr rfl
  intro j hj
  rw [Finset.mem_range] at hj
  rw [h j hj]

/-- A linear index splits into the contribution of the axes below `k` and the rest. -/
theorem linear_index_split (g r : Nat → Nat) (D : Nat) : ∀ k, k ≤ D →
    linear_index g r D 0 = prefix_index g r D k + linear_index g r D k := by
  intro k
  induction k with
  | zero => intro _; rw [prefix_index_zero, Nat.zero_add]
  | succ m ih =>
    intro hm
    rw [ih (by omega), prefix_index_succ, linear_index_succ g r D m (by omega)]
    ring

/-- Row-major digit extraction: with a remainder `lo` below the stride `s`, the quotient by
`s` of `T * (d * s) + g * s + lo` is `T * d + g`. -/
theorem digit_div (T d s g lo : Nat) (hlo : lo < s) :
    (T * (d * s) + g * s + lo) / s = T * d + g := by
  have hs : 0 < s := by omega
  have h : T * (d * s) + g * s + lo = lo + s * (T * d + g) := by ring
  rw [h, Nat.add_mul_div_left _ _ hs, Nat.div_eq_of_lt hlo, Nat.zero_add]

theorem digit_mod (T d g : Nat) : (T * d + g) % d = g % d := by
  rw [Nat.add_comm, Nat.add_mul_mod_self_right]

/-! ## One axis of a chunk -/

theorem divide_rounded_up_pos (d ch : Nat) (hd : 1 ≤ d) (hch : 1 ≤ ch) :
    1 ≤ divide_rounded_up d ch := by
  unfold divide_rounded_up
  rw [Nat.one_le_div_iff (by omega)]
  omega

theorem divide_rounded_up_le (d ch : Nat) (hd : 1 ≤ d) (hch : 1 ≤ ch) :
    divide_rounded_up d ch ≤ d := by
  unfold divide_rounded_up
  apply Nat.le_of_lt_succ
  rw [Nat.div_lt_iff_lt_mul (by omega)]
  have : d * 1 ≤ d * ch := Nat.mul_le_mul_left d hch
  rw [Nat.succ_mul]
  omega

/-- The facts about one axis of a chunk: its origin lies inside the array, its extent is
between 1 and the chunk extent, it ends inside the array, and it is cut short only at the end
of the array. -/
theorem axis_facts (d ch c : Nat) (hch : 1 ≤ ch) (hc : c < divide_rounded_up d ch) :
    c * ch < d
    ∧ (c + 1) * ch = c * ch + ch
    ∧ 1 ≤ min ((c + 1) * ch) d - c * ch
    ∧ min ((c + 1) * ch) d - c * ch ≤ ch
    ∧ c * ch + (min ((c + 1) * ch) d - c * ch) ≤ d
    ∧ (min ((c + 1) * ch) d - c * ch = ch ∨ c * ch + (min ((c + 1) * ch) d - c * ch) = d) := by
  unfold divide_rounded_up at hc
  have h1 : (d + ch - 1) / ch * ch ≤ d + ch - 1 := Nat.div_mul_le_self _ _
  have h2 : (c + 1) * ch ≤ (d + ch - 1) / ch * ch := Nat.mul_le_mul_right ch hc
  have h3 : (c + 1) * ch = c * ch + ch := by ring
  rw [h3] at h2 ⊢
  omega
/-! ## The chunk of a full-array call -/

theorem wrap64_of_lt (x : Nat) (h : x < 18446744073709551616) : wrap64 x = x := by
  unfold wrap64
  exact Nat.mod_eq_of_lt h

theorem sub64_of_le (a b : Nat) (hb : b ≤ a) (ha : a < 18446744073709551616) :
    sub64 a b = a - b := by
  unfold sub64
  omega

theorem total_eq {F : Type} (encoder : om_encoder_t F) :
    (∏ i in Finset.range encoder.dimension_count, encoder.dimensions i)
      = stride_of encoder.dimensions encoder.dimension_count 0 := by
  unfold stride_of
  rw [Finset.range_eq_Ico]

/-- Per-axis facts about the chunk `chunkIndex` of an encoder. -/
theorem chunk_axis {F : Type} (encoder : om_encoder_t F) (chunkIndex : Nat)
    (h : FullArrayCall encoder) (i : Nat) (hi : i < encoder.dimension_count) :
    1 ≤ chunks_along encoder i
    ∧ chunks_along encoder i ≤ encoder.dimensions i
    ∧ chunk_coordinate encoder chunkIndex i < chunks_along encoder i
    ∧ chunk_origin encoder chunkIndex i < encoder.dimensions i
    ∧ 1 ≤ chunk_extent encoder chunkIndex i
    ∧ chunk_extent encoder chunkIndex i ≤ encoder.chunks i
    ∧ chunk_origin encoder chunkIndex i + chunk_extent encoder chunkIndex i
        ≤ encoder.dimensions i
    ∧ (chunk_extent encoder chunkIndex i = encoder.chunks i
        ∨ chunk_origin encoder chunkIndex i + chunk_extent encoder chunkIndex i
          = encoder.dimensions i) := by
  obtain ⟨-, hd, hch, -⟩ := h
  have h1 := divide_rounded_up_pos _ _ (hd i hi) (hch i hi).1
  have h2 := divide_rounded_up_le _ _ (hd i hi) (hch i hi).1
  have h3 : chunk_coordinate encoder chunkIndex i < chunks_along encoder i :=
    Nat.mod_lt _ h1
  have h4 := axis_facts (encoder.dimensions i) (encoder.chunks i)
    (chunk_coordinate encoder chunkIndex i) (hch i hi).1 h3
  exact ⟨h1, h2, h3, h4.1, h4.2.2.1, h4.2.2.2.1, h4.2.2.2.2.1, h4.2.2.2.2.2⟩

theorem stride_dims_le {F : Type} (encoder : om_encoder_t F) (h : FullArrayCall encoder)
    (k : Nat) :
    stride_of encoder.dimensions encoder.dimension_count k
      ≤ stride_of encoder.dimensions encoder.dimension_count 0 := by
  by_cases hk : k ≤ encoder.dimension_count
  · exact stride_of_le_of_le _ _ h.2.1 0 k (Nat.zero_le k) hk
  · have : stride_of encoder.dimensions encoder.dimension_count k = 1 := by
      unfold stride_of
      rw [Finset.Ico_eq_empty (by omega), Finset.prod_empty]
    rw [this]
    exact stride_of_pos _ _ h.2.1 0

theorem stride_dims_lt {F : Type} (encoder : om_encoder_t F) (h : FullArrayCall encoder)
    (k : Nat) :
    4 * stride_of encoder.dimensions encoder.dimension_count k < 18446744073709551616 := by
  have h1 := stride_dims_le encoder h k
  have h2 := h.2.2.2
  rw [total_eq] at h2
  omega

theorem stride_extent_le {F : Type} (encoder : om_encoder_t F) (chunkIndex : Nat)
    (h : FullArrayCall encoder) (k : Nat) :
    stride_of (chunk_extent encoder chunkIndex) encoder.dimension_count k
      ≤ stride_of encoder.dimensions encoder.dimension_count k :=
  stride_of_mono _ _ _ _ (fun j _ hj => by
    have := chunk_axis encoder chunkIndex h j hj
    omega)

theorem stride_chunks_le {F : Type} (encoder : om_encoder_t F)
    (h : FullArrayCall encoder) (k : Nat) :
    stride_of (chunks_along encoder) encoder.dimension_count k
      ≤ stride_of encoder.dimensions encoder.dimension_count k :=
  stride_of_mono _ _ _ _ (fun j _ hj => (chunk_axis encoder 0 h j hj).2.1)

theorem extent_pos {F : Type} (encoder : om_encoder_t F) (chunkIndex : Nat)
    (h : FullArrayCall encoder) :
    ∀ j, j < encoder.dimension_count → 1 ≤ chunk_extent encoder chunkIndex j :=
  fun j hj => (chunk_axis encoder chunkIndex h j hj).2.2.2.2.1

/-- The extent `length0` as the code computes it, with its three reductions to 64 bits. -/
theorem length0_eq {F : Type} (encoder : om_encoder_t F) (chunkIndex : Nat)
    (h : FullArrayCall encoder) (i : Nat) (hi : i < encoder.dimension_count) :
    sub64 (min (wrap64 (wrap64 (chunk_coordinate encoder chunkIndex i + 1) * encoder.chunks i))
        (encoder.dimensions i)) (wrap64 (chunk_coordinate encoder chunkIndex i * encoder.chunks i))
      = chunk_extent encoder chunkIndex i := by
  obtain ⟨h1, h2, h3, h4, h5, h6, h7, h8⟩ := chunk_axis encoder chunkIndex h i hi
  have hch := h.2.2.1 i hi
  have hS := stride_dims_lt encoder h i
  have hS1 := stride_of_succ encoder.dimensions _ i hi
  have hS2 := stride_of_pos encoder.dimensions _ h.2.1 (i + 1)
  have hd : encoder.dimensions i ≤ stride_of encoder.dimensions encoder.dimension_count i := by
    rw [hS1]; exact Nat.le_mul_of_pos_right _ hS2
  unfold chunk_origin at h4 h7 h8
  unfold chunk_extent at h5 h6 h7 h8 ⊢
  have e1 : (chunk_coordinate encoder chunkIndex i + 1) * encoder.chunks i
      = chunk_coordinate encoder chunkIndex i * encoder.chunks i + encoder.chunks i := by ring
  have hbig : (chunk_coordinate encoder chunkIndex i + 1) * encoder.chunks i
      < 18446744073709551616 := by
    rcases Nat.eq_zero_or_pos (chunk_coordinate encoder chunkIndex i) with h0 | h0
    · rw [h0]; omega
    · have : encoder.chunks i ≤ chunk_coordinate encoder chunkIndex i * encoder.chunks i :=
        Nat.le_mul_of_pos_left _ h0
      omega
  rw [wrap64_of_lt (chunk_coordinate encoder chunkIndex i + 1) (by omega),
    wrap64_of_lt _ hbig, wrap64_of_lt _ (by omega), sub64_of_le _ _ (by omega) (by omega)]

theorem origin_lt {F : Type} (encoder : om_encoder_t F) (chunkIndex : Nat)
    (h : FullArrayCall encoder) (k : Nat) :
    ∀ j, k ≤ j → j < encoder.dimension_count →
      chunk_origin encoder chunkIndex j < encoder.dimensions j :=
  fun j _ hj => (chunk_axis encoder chunkIndex h j hj).2.2.2.1

theorem run_fold_succ_axis {F : Type} (encoder : om_encoder_t F) (chunkIndex : Nat)
    (i : Nat) (hi : i < encoder.dimension_count) :
    run_fold encoder chunkIndex (encoder.dimension_count - i)
      = linear_run_update (decide (i + 1 = encoder.dimension_count))
          (decide (encoder.dimensions i = chunk_extent encoder chunkIndex i)
            && decide (encoder.dimensions i = chunk_extent encoder chunkIndex i))
          (chunk_extent encoder chunkIndex i)
          (run_fold encoder chunkIndex (encoder.dimension_count - (i + 1))) := by
  have e : encoder.dimension_count - i = (encoder.dimension_count - (i + 1)) + 1 := by omega
  have e2 : encoder.dimension_count - 1 - (encoder.dimension_count - (i + 1)) = i := by omega
  rw [e, run_fold, e2]

theorem unpack_step_full {F : Type} (encoder : om_encoder_t F) (chunkIndex : Nat)
    (h : FullArrayCall encoder) (i : Nat) (hi : i < encoder.dimension_count) :
    unpack_step encoder encoder.dimensions (fun _ => 0) encoder.dimensions chunkIndex
        chunkIndex i (unpacked encoder chunkIndex (i + 1))
      = some (unpacked encoder chunkIndex i) := by
  have hlen := length0_eq encoder chunkIndex h i hi
  obtain ⟨h1, h2, h3, h4, h5, h6, h7, h8⟩ := chunk_axis encoder chunkIndex h i hi
  have hc : (chunkIndex / stride_of (chunks_along encoder) encoder.dimension_count (i + 1))
      % chunks_along encoder i = chunk_coordinate encoder chunkIndex i := rfl
  have hco : chunk_coordinate encoder chunkIndex i * encoder.chunks i
      = chunk_origin encoder chunkIndex i := rfl
  have hn : divide_rounded_up (encoder.dimensions i) (encoder.chunks i)
      = chunks_along encoder i := rfl
  have hS := stride_dims_lt encoder h i
  have hS1 := stride_of_succ encoder.dimensions _ i hi
  have hSpos := stride_of_pos encoder.dimensions _ h.2.1 (i + 1)
  have hL := stride_extent_le encoder chunkIndex h i
  have hN := stride_chunks_le encoder h i
  have hlin := linear_index_lt (chunk_origin encoder chunkIndex) encoder.dimensions
    encoder.dimension_count (encoder.dimension_count - (i + 1)) (i + 1) (by omega)
    (origin_lt encoder chunkIndex h (i + 1))
  have hd : encoder.dimensions i ≤ stride_of encoder.dimensions encoder.dimension_count i := by
    rw [hS1]; exact Nat.le_mul_of_pos_right _ hSpos
  have hmul : stride_of encoder.dimensions encoder.dimension_count (i + 1)
      * chunk_origin encoder chunkIndex i
      + stride_of encoder.dimensions encoder.dimension_count (i + 1)
      ≤ stride_of encoder.dimensions encoder.dimension_count i := by
    rw [hS1]
    calc stride_of encoder.dimensions encoder.dimension_count (i + 1)
          * chunk_origin encoder chunkIndex i
          + stride_of encoder.dimensions encoder.dimension_count (i + 1)
        = (chunk_origin encoder chunkIndex i + 1)
          * stride_of encoder.dimensions encoder.dimension_count (i + 1) := by ring
      _ ≤ encoder.dimensions i
          * stride_of encoder.dimensions encoder.dimension_count (i + 1) :=
        Nat.mul_le_mul_right _ h4
  have e1 : wrap64 (stride_of (chunks_along encoder) encoder.dimension_count (i + 1)
      * chunks_along encoder i)
      = stride_of (chunks_along encoder) encoder.dimension_count i := by
    rw [Nat.mul_comm, ← stride_of_succ (chunks_along encoder) _ i hi]
    exact wrap64_of_lt _ (by omega)
  have e2 : wrap64 (stride_of (chunk_extent encoder chunkIndex) encoder.dimension_count (i + 1)
      * chunk_extent encoder chunkIndex i)
      = stride_of (chunk_extent encoder chunkIndex) encoder.dimension_count i := by
    rw [Nat.mul_comm, ← stride_of_succ (chunk_extent encoder chunkIndex) _ i hi]
    exact wrap64_of_lt _ (by omega)
  have e3 : wrap64 (stride_of encoder.dimensions encoder.dimension_count (i + 1)
      * encoder.dimensions i)
      = stride_of encoder.dimensions encoder.dimension_count i := by
    rw [Nat.mul_comm, ← hS1]
    exact wrap64_of_lt _ (by omega)
  have e4 : wrap64 (linear_index (chunk_origin encoder chunkIndex) encoder.dimensions
        encoder.dimension_count (i + 1)
      + wrap64 (stride_of encoder.dimensions encoder.dimension_count (i + 1)
          * wrap64 (wrap64 (chunk_origin encoder chunkIndex i) + 0)))
      = linear_index (chunk_origin encoder chunkIndex) encoder.dimensions
          encoder.dimension_count i := by
    have w0 : wrap64 (chunk_origin encoder chunkIndex i)
        = chunk_origin encoder chunkIndex i := wrap64_of_lt _ (by omega)
    have w1 : wrap64 (wrap64 (chunk_origin encoder chunkIndex i) + 0)
        = chunk_origin encoder chunkIndex i := by
      rw [w0, Nat.add_zero, w0]
    have w2 : wrap64 (stride_of encoder.dimensions encoder.dimension_count (i + 1)
        * chunk_origin encoder chunkIndex i)
        = stride_of encoder.dimensions encoder.dimension_count (i + 1)
          * chunk_origin encoder chunkIndex i := wrap64_of_lt _ (by omega)
    rw [w1, w2, wrap64_of_lt _ (by omega), linear_index_succ _ _ _ i hi]
    ring
  have e5 := run_fold_succ_axis encoder chunkIndex i hi
  have e6 : (if i + 1 = encoder.dimension_count then chunk_extent encoder chunkIndex i
      else if i + 1 < encoder.dimension_count then
        chunk_extent encoder chunkIndex (encoder.dimension_count - 1) else 0)
      = (if i < encoder.dimension_count then
          chunk_extent encoder chunkIndex (encoder.dimension_count - 1) else 0) := by
    rw [if_pos hi]
    by_cases hl : i + 1 = encoder.dimension_count
    · have : encoder.dimension_count - 1 = i := by omega
      rw [if_pos hl, this]
    · rw [if_neg hl, if_pos (by omega)]
  have hle : chunk_extent encoder chunkIndex i ≤ encoder.dimensions i := by omega
  rw [hco] at hlen
  simp only [unpack_step, unpacked, hc, hlen, hco, hn]
  rw [if_pos ⟨hle, hle⟩, e1, e2, e3, e4, e6, Prod.mk.eta, ← e5]

theorem unpack_loop_full {F : Type} (encoder : om_encoder_t F) (chunkIndex : Nat)
    (h : FullArrayCall encoder) : ∀ k, k ≤ encoder.dimension_count →
    unpack_loop encoder encoder.dimensions (fun _ => 0) encoder.dimensions chunkIndex
        chunkIndex k (unpacked encoder chunkIndex k)
      = some (unpacked encoder chunkIndex 0) := by
  intro k
  induction k with
  | zero => intro _; rfl
  | succ i ih =>
    intro hk
    rw [unpack_loop, unpack_step_full encoder chunkIndex h i (by omega)]
    exact ih (by omega)

theorem unpacked_init {F : Type} (encoder : om_encoder_t F) (chunkIndex : Nat) :
    unpacked encoder chunkIndex encoder.dimension_count
      = { rollingMultiply := 1
          rollingMultiplyChunkLength := 1
          rollingMultiplyTargetCube := 1
          readCoordinate := 0
          linearReadCount := 1
          linearRead := true
          lengthLast := 0 } := by
  simp [unpacked, stride_of_self, linear_index_self, run_fold]

/-! ## The contiguous run of a full-array call -/

theorem linear_run_update_first (full : Bool) (len : Nat) (hlen : len < 18446744073709551616) :
    linear_run_update true full len (1, true) = (len, full) := by
  cases full
  · simp [linear_run_update]
  · simp [linear_run_update, wrap64_of_lt len hlen]

theorem linear_run_update_later (full : Bool) (len : Nat) (run : Nat × Bool) :
    linear_run_update false full len run
      = if run.2 = true ∧ full = true then (wrap64 (run.1 * len), true) else (run.1, false) := by
  simp [linear_run_update]

/-- What `run_fold` and `run_axis` compute: after `m >= 1` axes the run length is the product
of the extents of the axes from `run_axis` inwards, all axes inside `run_axis` span the whole
array, and the flag `linearRead` is still set only if every examined axis does. -/
theorem run_fold_spec {F : Type} (encoder : om_encoder_t F) (chunkIndex : Nat)
    (h : FullArrayCall encoder) : ∀ m, 1 ≤ m → m ≤ encoder.dimension_count →
    encoder.dimension_count - m ≤ run_axis encoder chunkIndex m
    ∧ run_axis encoder chunkIndex m < encoder.dimension_count
    ∧ (run_fold encoder chunkIndex m).1
        = stride_of (chunk_extent encoder chunkIndex) encoder.dimension_count
            (run_axis encoder chunkIndex m)
    ∧ (∀ j, run_axis encoder chunkIndex m < j → j < encoder.dimension_count →
        encoder.dimensions j = chunk_extent encoder chunkIndex j)
    ∧ ((run_fold encoder chunkIndex m).2 = true →
        run_axis encoder chunkIndex m = encoder.dimension_count - m
        ∧ encoder.dimensions (encoder.dimension_count - m)
            = chunk_extent encoder chunkIndex (encoder.dimension_count - m)) := by
  intro m
  induction m with
  | zero => intro h0; omega
  | succ n ih =>
    intro _ hn
    have hi : encoder.dimension_count - 1 - n < encoder.dimension_count := by omega
    have hS := stride_dims_lt encoder h (encoder.dimension_count - 1 - n)
    have hL := stride_extent_le encoder chunkIndex h (encoder.dimension_count - 1 - n)
    have hLs := stride_of_succ (chunk_extent encoder chunkIndex) _ _ hi
    have hLpos := stride_of_pos (chunk_extent encoder chunkIndex) _
      (extent_pos encoder chunkIndex h) (encoder.dimension_count - 1 - n + 1)
    have hlen : chunk_extent encoder chunkIndex (encoder.dimension_count - 1 - n)
        < 18446744073709551616 := by
      have : chunk_extent encoder chunkIndex (encoder.dimension_count - 1 - n)
          ≤ stride_of (chunk_extent encoder chunkIndex) encoder.dimension_count
            (encoder.dimension_count - 1 - n) := by
        rw [hLs]; exact Nat.le_mul_of_pos_right _ hLpos
      omega
    rcases Nat.eq_zero_or_pos n with hn0 | hn0
    · subst hn0
      have hlast : decide (encoder.dimension_count - 1 - 0 + 1 = encoder.dimension_count)
          = true := by
        rw [decide_eq_true_iff]; omega
      have e0 : encoder.dimension_count - 1 - 0 = encoder.dimension_count - 1 := by omega
      have e1 : encoder.dimension_count - 1 + 1 = encoder.dimension_count := by omega
      have hp : run_axis encoder chunkIndex (0 + 1) = encoder.dimension_count - 1 := by
        simp [run_axis]
      have hr : run_fold encoder chunkIndex (0 + 1)
          = (chunk_extent encoder chunkIndex (encoder.dimension_count - 1),
              decide (encoder.dimensions (encoder.dimension_count - 1)
                = chunk_extent encoder chunkIndex (encoder.dimension_count - 1))) := by
        rw [run_fold, hlast, run_fold, e0, Bool.and_self]
        rw [e0] at hlen
        exact linear_run_update_first _ _ hlen
      rw [e0, e1, stride_of_self, Nat.mul_one] at hLs
      rw [hp, hr]
      refine ⟨by omega, by omega, hLs.symm, fun j hj1 hj2 => by omega, fun hf => ?_⟩
      simp only [decide_eq_true_eq] at hf
      exact ⟨by omega, hf⟩
    · obtain ⟨ih1, ih2, ih3, ih4, ih5⟩ := ih (by omega) (by omega)
      have hlast : decide (encoder.dimension_count - 1 - n + 1 = encoder.dimension_count)
          = false := by
        rw [decide_eq_false_iff_not]; omega
      have hr : run_fold encoder chunkIndex (n + 1)
          = if (run_fold encoder chunkIndex n).2 = true
              ∧ decide (encoder.dimensions (encoder.dimension_count - 1 - n)
                = chunk_extent encoder chunkIndex (encoder.dimension_count - 1 - n)) = true
            then (wrap64 ((run_fold encoder chunkIndex n).1
              * chunk_extent encoder chunkIndex (encoder.dimension_count - 1 - n)), true)
            else ((run_fold encoder chunkIndex n).1, false) := by
        rw [run_fold, hlast, Bool.and_self, linear_run_update_later]
      have hp : run_axis encoder chunkIndex (n + 1)
          = if (run_fold encoder chunkIndex n).2 = true
              ∧ encoder.dimensions (encoder.dimension_count - 1 - n)
                = chunk_extent encoder chunkIndex (encoder.dimension_count - 1 - n)
            then encoder.dimension_count - 1 - n
            else run_axis encoder chunkIndex n := by
        rw [run_axis, if_neg (by omega)]
      have e2 : encoder.dimension_count - (n + 1) = encoder.dimension_count - 1 - n := by omega
      by_cases hc : (run_fold encoder chunkIndex n).2 = true
          ∧ encoder.dimensions (encoder.dimension_count - 1 - n)
            = chunk_extent encoder chunkIndex (encoder.dimension_count - 1 - n)
      · have hc2 : (run_fold encoder chunkIndex n).2 = true
            ∧ decide (encoder.dimensions (encoder.dimension_count - 1 - n)
              = chunk_extent encoder chunkIndex (encoder.dimension_count - 1 - n)) = true :=
          ⟨hc.1, by rw [decide_eq_true_iff]; exact hc.2⟩
        obtain ⟨hpn, hfull⟩ := ih5 hc.1
        have e3 : encoder.dimension_count - n = encoder.dimension_count - 1 - n + 1 := by omega
        rw [hp, hr, if_pos hc, if_pos hc2, e2]
        rw [hpn, e3] at ih3 ih4
        rw [e3] at hfull
        refine ⟨le_refl _, hi, ?_, ?_, fun _ => ⟨rfl, hc.2⟩⟩
        · show wrap64 _ = _
          rw [ih3, Nat.mul_comm, ← hLs]
          exact wrap64_of_lt _ (by omega)
        · intro j hj1 hj2
          rcases Nat.eq_or_lt_of_le (Nat.succ_le_of_lt hj1) with hj | hj
          · rw [← hj]; exact hfull
          · exact ih4 j hj hj2
      · have hc2 : ¬ ((run_fold encoder chunkIndex n).2 = true
            ∧ decide (encoder.dimensions (encoder.dimension_count - 1 - n)
              = chunk_extent encoder chunkIndex (encoder.dimension_count - 1 - n)) = true) := by
          rw [decide_eq_true_iff]; exact hc
        rw [hp, hr, if_neg hc, if_neg hc2]
        refine ⟨by omega, ih2, ih3, ih4, fun hf => ?_⟩
        exact absurd hf (by simp)

/-- Once `linearRead` is cleared, the run length and the run axis stay as they are. -/
theorem run_fold_stable {F : Type} (encoder : om_encoder_t F) (chunkIndex : Nat)
    (m : Nat) (hm : 1 ≤ m) (hf : (run_fold encoder chunkIndex m).2 = false) :
    ∀ n, m + n ≤ encoder.dimension_count →
      run_fold encoder chunkIndex (m + n) = run_fold encoder chunkIndex m
      ∧ run_axis encoder chunkIndex (m + n) = run_axis encoder chunkIndex m := by
  intro n
  induction n with
  | zero => intro _; exact ⟨rfl, rfl⟩
  | succ k ih =>
    intro hmk
    obtain ⟨ih1, ih2⟩ := ih (by omega)
    have hlast : decide (encoder.dimension_count - 1 - (m + k) + 1 = encoder.dimension_count)
        = false := by
      rw [decide_eq_false_iff_not]; omega
    have hf2 : (run_fold encoder chunkIndex (m + k)).2 = false := by rw [ih1]; exact hf
    have hne : ¬ (m + k = 0) := by omega
    have hc : ¬ ((run_fold encoder chunkIndex (m + k)).2 = true
        ∧ encoder.dimensions (encoder.dimension_count - 1 - (m + k))
          = chunk_extent encoder chunkIndex (encoder.dimension_count - 1 - (m + k))) := by
      rw [hf2]; simp
    have hr : run_fold encoder chunkIndex (m + k + 1)
        = ((run_fold encoder chunkIndex (m + k)).1, false) := by
      rw [run_fold, hlast, linear_run_update_later, if_neg (by rw [hf2]; simp)]
    have hp : run_axis encoder chunkIndex (m + k + 1) = run_axis encoder chunkIndex (m + k) := by
      rw [run_axis, if_neg hne, if_neg hc]
    constructor
    · rw [← Nat.add_assoc, hr, ← hf2, Prod.mk.eta, ih1]
    · rw [← Nat.add_assoc, hp, ih2]

/-- The run axis moves outwards only. -/
theorem run_axis_antitone {F : Type} (encoder : om_encoder_t F) (chunkIndex : Nat)
    (h : FullArrayCall encoder) (m : Nat) (hm : 1 ≤ m) :
    ∀ n, m + n ≤ encoder.dimension_count →
      run_axis encoder chunkIndex (m + n) ≤ run_axis encoder chunkIndex m := by
  intro n
  induction n with
  | zero => intro _; exact le_refl _
  | succ k ih =>
    intro hmk
    have ih1 := ih (by omega)
    have hs := (run_fold_spec encoder chunkIndex h (m + k) (by omega) (by omega)).1
    have hne : ¬ (m + k = 0) := by omega
    have hp : run_axis encoder chunkIndex (m + k + 1)
        = if (run_fold encoder chunkIndex (m + k)).2 = true
            ∧ encoder.dimensions (encoder.dimension_count - 1 - (m + k))
              = chunk_extent encoder chunkIndex (encoder.dimension_count - 1 - (m + k))
          then encoder.dimension_count - 1 - (m + k)
          else run_axis encoder chunkIndex (m + k) := by
      rw [run_axis, if_neg hne]
    rw [← Nat.add_assoc, hp]
    split_ifs
    · omega
    · exact ih1

/-- The run length that the second `for` loop has accumulated when it stops at an axis `j`
outside the run is the run length of the whole chunk. -/
theorem run_fold_at_break {F : Type} (encoder : om_encoder_t F) (chunkIndex : Nat)
    (h : FullArrayCall encoder) (j : Nat)
    (hj : j < run_axis encoder chunkIndex encoder.dimension_count) :
    (run_fold encoder chunkIndex (encoder.dimension_count - j)).1
      = (run_fold encoder chunkIndex encoder.dimension_count).1 := by
  have hD := h.1
  have hp := (run_fold_spec encoder chunkIndex h encoder.dimension_count hD (le_refl _)).2.1
  have e : encoder.dimension_count
      = (encoder.dimension_count - j) + j := by omega
  cases hf : (run_fold encoder chunkIndex (encoder.dimension_count - j)).2
  · have hs := (run_fold_stable encoder chunkIndex (encoder.dimension_count - j) (by omega) hf
      j (by omega)).1
    rw [← e] at hs
    rw [hs]
  · exfalso
    have h1 := ((run_fold_spec encoder chunkIndex h (encoder.dimension_count - j) (by omega)
      (by omega)).2.2.2.2 hf).1
    have h2 := run_axis_antitone encoder chunkIndex h (encoder.dimension_count - j) (by omega)
      j (by omega)
    rw [← e] at h2
    omega

/-! ## The copy loop -/

/-- A run of `n` elements that stays inside the source array and inside the chunk is copied
without a failed assertion; it fills the staging buffer from `writeCoordinate` on and leaves
the rest as it was. -/
theorem copy_run_ok {F : Type} (ops : FloatOps F) (encoder : om_encoder_t F) (array : Nat → F)
    (arrayTotalCount lengthInChunk readCoordinate writeCoordinate : Nat)
    (chunkBuffer : Nat → Staged F)
    (ht : arrayTotalCount < 18446744073709551616)
    (hl : lengthInChunk < 18446744073709551616) :
    ∀ n, readCoordinate + n ≤ arrayTotalCount → writeCoordinate + n ≤ lengthInChunk →
      ∃ buf, copy_run ops encoder array arrayTotalCount lengthInChunk readCoordinate
          writeCoordinate n chunkBuffer = some buf
        ∧ ∀ x, buf x
            = if writeCoordinate ≤ x ∧ x < writeCoordinate + n then
                stage_element ops encoder (array (readCoordinate + (x - writeCoordinate)))
              else chunkBuffer x := by
  intro n
  induction n with
  | zero =>
    intro _ _
    refine ⟨chunkBuffer, rfl, fun x => ?_⟩
    rw [if_neg (by omega)]
  | succ k ih =>
    intro hr hw
    obtain ⟨buf, hb1, hb2⟩ := ih (by omega) (by omega)
    have e1 : wrap64 (readCoordinate + k) = readCoordinate + k := wrap64_of_lt _ (by omega)
    have e2 : wrap64 (writeCoordinate + k) = writeCoordinate + k := wrap64_of_lt _ (by omega)
    rw [copy_run, hb1]
    simp only [e1, e2]
    rw [if_pos ⟨by omega, by omega⟩]
    refine ⟨_, rfl, fun x => ?_⟩
    by_cases hx : x = writeCoordinate + k
    · rw [if_pos hx, if_pos (by omega)]
      have : x - writeCoordinate = k := by omega
      rw [this]
    · rw [if_neg hx, hb2 x]
      by_cases hx2 : writeCoordinate ≤ x ∧ x < writeCoordinate + k
      · rw [if_pos hx2, if_pos (by omega)]
      · rw [if_neg hx2, if_neg (by omega)]

/-! ## The re-derivation of the next run -/

theorem prefix_index_add_stride_le (g r : Nat → Nat) (D : Nat) : ∀ k, k ≤ D →
    (∀ j, j < k → g j < r j) →
    prefix_index g r D k + stride_of r D k ≤ stride_of r D 0 := by
  intro k
  induction k with
  | zero => intro _ _; rw [prefix_index_zero, Nat.zero_add]
  | succ m ih =>
    intro hm hg
    have h1 := ih (by omega) (fun j hj => hg j (by omega))
    have h2 := hg m (by omega)
    rw [stride_of_succ r D m (by omega)] at h1
    rw [prefix_index_succ]
    calc prefix_index g r D m + g m * stride_of r D (m + 1) + stride_of r D (m + 1)
        = prefix_index g r D m + (g m + 1) * stride_of r D (m + 1) := by ring
      _ ≤ prefix_index g r D m + r m * stride_of r D (m + 1) :=
        Nat.add_le_add_left (Nat.mul_le_mul_right _ h2) _
      _ ≤ stride_of r D 0 := h1

theorem mul_add_div_of_lt (c ch x : Nat) (hx : x < ch) : (c * ch + x) / ch = c := by
  have hch : 0 < ch := by omega
  rw [Nat.add_comm, Nat.add_mul_div_right _ _ hch, Nat.div_eq_of_lt hx, Nat.zero_add]

theorem mul_add_mod_of_lt (c ch x : Nat) (hx : x < ch) : (c * ch + x) % ch = x := by
  rw [Nat.add_comm, Nat.add_mul_mod_self_right, Nat.mod_eq_of_lt hx]

theorem global_coordinate_lt {F : Type} (encoder : om_encoder_t F) (chunkIndex : Nat)
    (h : FullArrayCall encoder) (l : Nat → Nat)
    (hl : ∀ j, j < encoder.dimension_count → l j < chunk_extent encoder chunkIndex j) :
    ∀ j, j < encoder.dimension_count →
      global_coordinate encoder chunkIndex l j < encoder.dimensions j := by
  intro j hj
  have := chunk_axis encoder chunkIndex h j hj
  have := hl j hj
  unfold global_coordinate
  omega

/-- The arithmetic of one pass of the second `for` loop at axis `i`. -/
theorem next_run_axis {F : Type} (encoder : om_encoder_t F) (chunkIndex : Nat)
    (h : FullArrayCall encoder) (l : Nat → Nat)
    (hl : ∀ j, j < encoder.dimension_count → l j < chunk_extent encoder chunkIndex j)
    (i : Nat) (hi : i < encoder.dimension_count) :
    reset_position encoder chunkIndex l (i + 1)
        + stride_of encoder.dimensions encoder.dimension_count (i + 1) < 9223372036854775808
    ∧ (reset_position encoder chunkIndex l (i + 1)
        / stride_of encoder.dimensions encoder.dimension_count (i + 1)) % encoder.dimensions i
        = chunk_origin encoder chunkIndex i + l i
    ∧ ((reset_position encoder chunkIndex l (i + 1)
          + stride_of encoder.dimensions encoder.dimension_count (i + 1))
        / stride_of encoder.dimensions encoder.dimension_count (i + 1)) % encoder.dimensions i
        = (chunk_origin encoder chunkIndex i + l i + 1) % encoder.dimensions i
    ∧ reset_position encoder chunkIndex l (i + 1)
        + stride_of encoder.dimensions encoder.dimension_count (i + 1)
        = reset_position encoder chunkIndex l i
          + (l i + 1) * stride_of encoder.dimensions encoder.dimension_count (i + 1) := by
  have hg := global_coordinate_lt encoder chunkIndex h l hl
  have hS := stride_dims_lt encoder h 0
  have hS1 := stride_of_succ encoder.dimensions _ i hi
  have hSpos := stride_of_pos encoder.dimensions _ h.2.1 (i + 1)
  have hlin := linear_index_lt (chunk_origin encoder chunkIndex) encoder.dimensions
    encoder.dimension_count (encoder.dimension_count - (i + 1)) (i + 1) (by omega)
    (origin_lt encoder chunkIndex h (i + 1))
  have hpre := prefix_index_add_stride_le (global_coordinate encoder chunkIndex l)
    encoder.dimensions encoder.dimension_count (i + 1) (by omega) (fun j hj => hg j (by omega))
  obtain ⟨T, hT⟩ := prefix_index_dvd (global_coordinate encoder chunkIndex l)
    encoder.dimensions encoder.dimension_count i (by omega)
  have hgi : global_coordinate encoder chunkIndex l i
      = chunk_origin encoder chunkIndex i + l i := rfl
  have hread : reset_position encoder chunkIndex l (i + 1)
      = T * (encoder.dimensions i * stride_of encoder.dimensions encoder.dimension_count (i + 1))
        + (chunk_origin encoder chunkIndex i + l i)
          * stride_of encoder.dimensions encoder.dimension_count (i + 1)
        + linear_index (chunk_origin encoder chunkIndex) encoder.dimensions
            encoder.dimension_count (i + 1) := by
    unfold reset_position
    rw [prefix_index_succ, hT, hS1, hgi]
    ring
  have hread1 : reset_position encoder chunkIndex l (i + 1)
      + stride_of encoder.dimensions encoder.dimension_count (i + 1)
      = T * (encoder.dimensions i * stride_of encoder.dimensions encoder.dimension_count (i + 1))
        + (chunk_origin encoder chunkIndex i + l i + 1)
          * stride_of encoder.dimensions encoder.dimension_count (i + 1)
        + linear_index (chunk_origin encoder chunkIndex) encoder.dimensions
            encoder.dimension_count (i + 1) := by
    rw [hread]; ring
  refine ⟨?_, ?_, ?_, ?_⟩
  · unfold reset_position at hpre ⊢
    omega
  · rw [hread, digit_div _ _ _ _ _ hlin, digit_mod, Nat.mod_eq_of_lt (by rw [← hgi]; exact hg i hi)]
  · rw [hread1, digit_div _ _ _ _ _ hlin, digit_mod]
  · unfold reset_position
    rw [prefix_index_succ, linear_index_succ _ _ _ i hi, hgi]
    ring

/-- The second `for` loop of a full-array call, entered at axis `k - 1` with every axis
`j >= k` moved back to the first element of the chunk: it stops by `break` at the innermost
axis on which the coordinate `l` can advance, with that axis advanced by one, and reaches the
`return` at axis 0 if there is none. -/
theorem next_run_full {F : Type} (encoder : om_encoder_t F) (chunkIndex : Nat)
    (h : FullArrayCall encoder) (l : Nat → Nat)
    (hl : ∀ j, j < encoder.dimension_count → l j < chunk_extent encoder chunkIndex j) :
    ∀ k, 1 ≤ k → k ≤ encoder.dimension_count →
    next_run encoder encoder.dimensions (fun _ => 0) encoder.dimensions k
        { readCoordinate := reset_position encoder chunkIndex l k
          rollingMultiplyTargetCube := stride_of encoder.dimensions encoder.dimension_count k
          linearReadCount := (run_fold encoder chunkIndex (encoder.dimension_count - k)).1
          linearRead := (run_fold encoder chunkIndex (encoder.dimension_count - k)).2 }
      = match carry_axis encoder chunkIndex l k with
        | some j =>
          RunExit.brk
            { readCoordinate := reset_position encoder chunkIndex l (j + 1)
                + stride_of encoder.dimensions encoder.dimension_count (j + 1)
              rollingMultiplyTargetCube :=
                stride_of encoder.dimensions encoder.dimension_count (j + 1)
              linearReadCount :=
                (run_fold encoder chunkIndex (encoder.dimension_count - j)).1
              linearRead := (run_fold encoder chunkIndex (encoder.dimension_count - j)).2 }
        | none => RunExit.ret := by
  intro k
  induction k with
  | zero => intro h0; omega
  | succ i ih =>
    intro _ hk
    have hi : i < encoder.dimension_count := by omega
    obtain ⟨a1, a2, a3, a4⟩ := next_run_axis encoder chunkIndex h l hl i hi
    obtain ⟨h1, h2, h3, h4, h5, h6, h7, h8⟩ := chunk_axis encoder chunkIndex h i hi
    have hli := hl i hi
    have hch := h.2.2.1 i hi
    have hS := stride_dims_lt encoder h i
    have hS1 := stride_of_succ encoder.dimensions _ i hi
    have hSpos := stride_of_pos encoder.dimensions _ h.2.1 (i + 1)
    have hd : encoder.dimensions i ≤ stride_of encoder.dimensions encoder.dimension_count i := by
      rw [hS1]; exact Nat.le_mul_of_pos_right _ hSpos
    have hco : chunk_origin encoder chunkIndex i
        = chunk_coordinate encoder chunkIndex i * encoder.chunks i := rfl
    -- the chunk position of the current element along axis `i`
    have hq : sub64 ((reset_position encoder chunkIndex l (i + 1)
          / stride_of encoder.dimensions encoder.dimension_count (i + 1))
          % encoder.dimensions i) 0 / encoder.chunks i
        = chunk_coordinate encoder chunkIndex i := by
      rw [a2, sub64_of_le _ _ (Nat.zero_le _) (by omega), Nat.sub_zero, hco,
        mul_add_div_of_lt _ _ _ (by omega)]
    have hlen := length0_eq encoder chunkIndex h i hi
    have hr1 : wrap64 (reset_position encoder chunkIndex l (i + 1)
          + stride_of encoder.dimensions encoder.dimension_count (i + 1))
        = reset_position encoder chunkIndex l (i + 1)
          + stride_of encoder.dimensions encoder.dimension_count (i + 1) :=
      wrap64_of_lt _ (by omega)
    have hrun := run_fold_succ_axis encoder chunkIndex i hi
    have hmodlt : (chunk_origin encoder chunkIndex i + l i + 1) % encoder.dimensions i
        < encoder.dimensions i := Nat.mod_lt _ (by omega)
    have hq0 : sub64 (((reset_position encoder chunkIndex l (i + 1)
          + stride_of encoder.dimensions encoder.dimension_count (i + 1))
          / stride_of encoder.dimensions encoder.dimension_count (i + 1))
          % encoder.dimensions i) 0 % encoder.chunks i
        = if l i + 1 < chunk_extent encoder chunkIndex i then l i + 1 else 0 := by
      rw [a3, sub64_of_le _ _ (Nat.zero_le _) (by omega), Nat.sub_zero]
      by_cases hc : l i + 1 < chunk_extent encoder chunkIndex i
      · rw [if_pos hc, Nat.mod_eq_of_lt (show chunk_origin encoder chunkIndex i + l i + 1
            < encoder.dimensions i by omega), hco, Nat.add_assoc,
          mul_add_mod_of_lt _ _ _ (show l i + 1 < encoder.chunks i by omega)]
      · rw [if_neg hc]
        rcases h8 with h8 | h8
        · by_cases hend : chunk_origin encoder chunkIndex i + l i + 1 = encoder.dimensions i
          · rw [hend, Nat.mod_self, Nat.zero_mod]
          · rw [Nat.mod_eq_of_lt (show chunk_origin encoder chunkIndex i + l i + 1
              < encoder.dimensions i by omega)]
            have e : chunk_origin encoder chunkIndex i + l i + 1
                = (chunk_coordinate encoder chunkIndex i + 1) * encoder.chunks i := by
              rw [hco, Nat.add_mul, Nat.one_mul]; omega
            rw [e, Nat.mul_mod_left]
        · have hend : chunk_origin encoder chunkIndex i + l i + 1 = encoder.dimensions i := by
            omega
          rw [hend, Nat.mod_self, Nat.zero_mod]
    rw [next_run]
    simp only [hq, hlen, hr1, hq0, ← hrun, Prod.mk.eta]
    by_cases hc : l i + 1 < chunk_extent encoder chunkIndex i
    · have hcarry : carry_axis encoder chunkIndex l (i + 1) = some i := by
        rw [carry_axis, if_pos hc]
      rw [hcarry]
      simp only [if_pos hc]
      rw [if_pos ⟨by omega, by omega⟩]
    · have hcarry : carry_axis encoder chunkIndex l (i + 1)
          = carry_axis encoder chunkIndex l i := by
        rw [carry_axis, if_neg hc]
      rw [hcarry]
      simp only [if_neg hc]
      rw [if_neg (by simp)]
      by_cases hi0 : i = 0
      · subst hi0
        rw [if_pos rfl]
        rfl
      · rw [if_neg hi0]
        have hsub : sub64 (reset_position encoder chunkIndex l (i + 1)
              + stride_of encoder.dimensions encoder.dimension_count (i + 1))
              (wrap64 (chunk_extent encoder chunkIndex i
                * stride_of encoder.dimensions encoder.dimension_count (i + 1)))
            = reset_position encoder chunkIndex l i := by
          have hle : chunk_extent encoder chunkIndex i
              * stride_of encoder.dimensions encoder.dimension_count (i + 1)
              ≤ stride_of encoder.dimensions encoder.dimension_count i := by
            rw [hS1]; exact Nat.mul_le_mul_right _ (by omega)
          have hlast : l i + 1 = chunk_extent encoder chunkIndex i := by omega
          rw [wrap64_of_lt _ (by omega), a4, hlast,
            sub64_of_le _ _ (Nat.le_add_left _ _) (by rw [← hlast, ← a4]; omega),
            Nat.add_sub_cancel]
        have hst : wrap64 (stride_of encoder.dimensions encoder.dimension_count (i + 1)
              * encoder.dimensions i)
            = stride_of encoder.dimensions encoder.dimension_count i := by
          rw [Nat.mul_comm, ← hS1]
          exact wrap64_of_lt _ (by omega)
        rw [hsub, hst]
        exact ih (by omega) (by omega)

/-! ## Coordinates in row-major order -/

theorem carry_axis_some {F : Type} (encoder : om_encoder_t F) (chunkIndex : Nat)
    (l : Nat → Nat) : ∀ k j, carry_axis encoder chunkIndex l k = some j →
    j < k ∧ l j + 1 < chunk_extent encoder chunkIndex j
      ∧ ∀ m, j < m → m < k → ¬ (l m + 1 < chunk_extent encoder chunkIndex m) := by
  intro k
  induction k with
  | zero => intro j hj; simp [carry_axis] at hj
  | succ i ih =>
    intro j hj
    rw [carry_axis] at hj
    by_cases hc : l i + 1 < chunk_extent encoder chunkIndex i
    · rw [if_pos hc] at hj
      have : i = j := Option.some.inj hj
      subst this
      exact ⟨by omega, hc, fun m h1 h2 => by omega⟩
    · rw [if_neg hc] at hj
      obtain ⟨h1, h2, h3⟩ := ih j hj
      refine ⟨by omega, h2, fun m hm1 hm2 => ?_⟩
      rcases Nat.eq_or_lt_of_le (Nat.le_of_lt_succ hm2) with hm | hm
      · rw [hm]; exact hc
      · exact h3 m hm1 hm

theorem carry_axis_none {F : Type} (encoder : om_encoder_t F) (chunkIndex : Nat)
    (l : Nat → Nat) : ∀ k, carry_axis encoder chunkIndex l k = none →
    ∀ m, m < k → ¬ (l m + 1 < chunk_extent encoder chunkIndex m) := by
  intro k
  induction k with
  | zero => intro _ m hm; omega
  | succ i ih =>
    intro hk m hm
    rw [carry_axis] at hk
    by_cases hc : l i + 1 < chunk_extent encoder chunkIndex i
    · rw [if_pos hc] at hk
      exact absurd hk (by simp)
    · rw [if_neg hc] at hk
      rcases Nat.eq_or_lt_of_le (Nat.le_of_lt_succ hm) with hm2 | hm2
      · rw [hm2]; exact hc
      · exact ih hk m hm2

theorem linear_index_add (a b r : Nat → Nat) (D k : Nat) :
    linear_index (fun j => a j + b j) r D k = linear_index a r D k + linear_index b r D k := by
  unfold linear_index
  rw [← Finset.sum_add_distrib]
  apply Finset.sum_congr rfl
  intro j _
  ring

theorem linear_index_stride_congr (g r r2 : Nat → Nat) (D k : Nat)
    (h : ∀ j, k < j → j < D → r j = r2 j) : linear_index g r D k = linear_index g r2 D k := by
  unfold linear_index
  apply Finset.sum_congr rfl
  intro j hj
  rw [Finset.mem_Ico] at hj
  rw [stride_of_congr r r2 D (j + 1) (fun m hm1 hm2 => h m (by omega) hm2)]

/-- A coordinate that precedes another one has the smaller linear index. -/
theorem linear_index_lt_of_precedes (a b r : Nat → Nat) (D p : Nat) (hp : p ≤ D)
    (ha : ∀ j, j < D → a j < r j) (hab : precedes p a b) :
    linear_index a r D 0 < linear_index b r D 0 := by
  obtain ⟨j, hj, hpre, hlt⟩ := hab
  have hjD : j < D := by omega
  have h1 := linear_index_lt a r D (D - (j + 1)) (j + 1) (by omega) (fun m _ hm => ha m hm)
  have h2 : prefix_index a r D j = prefix_index b r D j :=
    prefix_index_congr a b r D j hpre
  have h3 : (a j + 1) * stride_of r D (j + 1) ≤ b j * stride_of r D (j + 1) :=
    Nat.mul_le_mul_right _ hlt
  rw [linear_index_split a r D j (by omega), linear_index_split b r D j (by omega),
    linear_index_succ a r D j hjD, linear_index_succ b r D j hjD, h2]
  have h4 : (a j + 1) * stride_of r D (j + 1)
      = a j * stride_of r D (j + 1) + stride_of r D (j + 1) := by ring
  omega

/-- A coordinate that agrees with `l` up to an axis from which `l` is maximal below `p`
either precedes `l` or agrees with it on all axes below `p`. -/
theorem precedes_or_agrees (l c r : Nat → Nat) (p : Nat) : ∀ n j, j + n = p →
    (∀ m, m < j → c m = l m) → (∀ m, j ≤ m → m < p → l m + 1 = r m) →
    (∀ m, m < p → c m < r m) →
    precedes p c l ∨ ∀ m, m < p → c m = l m := by
  intro n
  induction n with
  | zero =>
    intro j hj hagree _ _
    right
    intro m hm
    exact hagree m (by omega)
  | succ k ih =>
    intro j hj hagree hmax hc
    have h1 := hmax j (le_refl j) (by omega)
    have h2 := hc j (by omega)
    by_cases hlt : c j < l j
    · left
      exact ⟨j, by omega, hagree, hlt⟩
    · have heq : c j = l j := by omega
      apply ih (j + 1) (by omega)
      · intro m hm
        rcases Nat.eq_or_lt_of_le (Nat.le_of_lt_succ hm) with hm2 | hm2
        · rw [hm2]; exact heq
        · exact hagree m hm2
      · intro m hm1 hm2
        exact hmax m (by omega) hm2
      · exact hc

/-! ## The geometry of a run -/

/-- The source index splits into the index of the first element of the chunk and the index
of the chunk-local coordinate taken with the strides of the source array. -/
theorem source_index_eq {F : Type} (encoder : om_encoder_t F) (chunkIndex : Nat)
    (c : Nat → Nat) (k : Nat) :
    linear_index (global_coordinate encoder chunkIndex c) encoder.dimensions
        encoder.dimension_count k
      = linear_index (chunk_origin encoder chunkIndex) encoder.dimensions
          encoder.dimension_count k
        + linear_index c encoder.dimensions encoder.dimension_count k :=
  linear_index_add _ _ _ _ _

/-- A coordinate `c` that agrees with `l` outside a run starting at `l` lies in the run:
its chunk index and its source index are those of `l` plus the same offset below the run
length. -/
theorem run_member {F : Type} (encoder : om_encoder_t F) (chunkIndex : Nat) (p : Nat)
    (hp : p ≤ encoder.dimension_count)
    (hfull : ∀ j, p < j → j < encoder.dimension_count →
      encoder.dimensions j = chunk_extent encoder chunkIndex j)
    (l c : Nat → Nat)
    (hzero : ∀ j, p ≤ j → j < encoder.dimension_count → l j = 0)
    (hc : ∀ j, j < encoder.dimension_count → c j < chunk_extent encoder chunkIndex j)
    (hagree : ∀ m, m < p → c m = l m) :
    linear_index c (chunk_extent encoder chunkIndex) encoder.dimension_count 0
        = linear_index l (chunk_extent encoder chunkIndex) encoder.dimension_count 0
          + linear_index c (chunk_extent encoder chunkIndex) encoder.dimension_count p
    ∧ linear_index (global_coordinate encoder chunkIndex c) encoder.dimensions
          encoder.dimension_count 0
        = linear_index (global_coordinate encoder chunkIndex l) encoder.dimensions
            encoder.dimension_count 0
          + linear_index c (chunk_extent encoder chunkIndex) encoder.dimension_count p
    ∧ linear_index c (chunk_extent encoder chunkIndex) encoder.dimension_count p
        < stride_of (chunk_extent encoder chunkIndex) encoder.dimension_count p := by
  have hz1 := linear_index_zero l (chunk_extent encoder chunkIndex) encoder.dimension_count p
    hzero
  have hz2 := linear_index_zero l encoder.dimensions encoder.dimension_count p hzero
  have hs := linear_index_stride_congr c encoder.dimensions (chunk_extent encoder chunkIndex)
    encoder.dimension_count p hfull
  refine ⟨?_, ?_, ?_⟩
  · rw [linear_index_split c _ _ p hp, linear_index_split l _ _ p hp, hz1,
      prefix_index_congr c l _ _ p hagree, Nat.add_zero]
  · rw [source_index_eq, source_index_eq, linear_index_split c _ _ p hp,
      linear_index_split l encoder.dimensions _ p hp, hz2,
      prefix_index_congr c l _ _ p hagree, hs, Nat.add_zero, Nat.add_assoc]
  · exact linear_index_lt _ _ _ (encoder.dimension_count - p) p (by omega)
      (fun j _ hj => hc j hj)

theorem run_last_valid {F : Type} (encoder : om_encoder_t F) (chunkIndex : Nat)
    (h : FullArrayCall encoder) (p : Nat) (l : Nat → Nat)
    (hl : ∀ j, j < encoder.dimension_count → l j < chunk_extent encoder chunkIndex j) :
    ∀ j, j < encoder.dimension_count →
      run_last encoder chunkIndex p l j < chunk_extent encoder chunkIndex j := by
  intro j hj
  have h1 := extent_pos encoder chunkIndex h j hj
  have h2 := hl j hj
  unfold run_last
  split_ifs <;> omega

/-- The last element of a run: its chunk index and its source index are those of the first
element plus the run length minus one. -/
theorem run_last_index {F : Type} (encoder : om_encoder_t F) (chunkIndex : Nat)
    (h : FullArrayCall encoder) (p : Nat) (hp : p ≤ encoder.dimension_count)
    (hfull : ∀ j, p < j → j < encoder.dimension_count →
      encoder.dimensions j = chunk_extent encoder chunkIndex j)
    (l : Nat → Nat)
    (hl : ∀ j, j < encoder.dimension_count → l j < chunk_extent encoder chunkIndex j)
    (hzero : ∀ j, p ≤ j → j < encoder.dimension_count → l j = 0) :
    linear_index (run_last encoder chunkIndex p l) (chunk_extent encoder chunkIndex)
          encoder.dimension_count 0 + 1
        = linear_index l (chunk_extent encoder chunkIndex) encoder.dimension_count 0
          + stride_of (chunk_extent encoder chunkIndex) encoder.dimension_count p
    ∧ linear_index (global_coordinate encoder chunkIndex (run_last encoder chunkIndex p l))
          encoder.dimensions encoder.dimension_count 0 + 1
        = linear_index (global_coordinate encoder chunkIndex l) encoder.dimensions
            encoder.dimension_count 0
          + stride_of (chunk_extent encoder chunkIndex) encoder.dimension_count p := by
  have hv := run_last_valid encoder chunkIndex h p l hl
  have hagree : ∀ m, m < p → run_last encoder chunkIndex p l m = l m := by
    intro m hm
    unfold run_last
    rw [if_neg (by omega)]
  obtain ⟨m1, m2, -⟩ := run_member encoder chunkIndex p hp hfull l
    (run_last encoder chunkIndex p l) hzero hv hagree
  have hmax := linear_index_max (run_last encoder chunkIndex p l)
    (chunk_extent encoder chunkIndex) encoder.dimension_count (encoder.dimension_count - p) p
    (by omega) (fun j hj1 hj2 => by
      have := extent_pos encoder chunkIndex h j hj2
      unfold run_last
      rw [if_pos hj1]
      omega)
  constructor
  · rw [m1, Nat.add_assoc, hmax]
  · rw [m2, Nat.add_assoc, hmax]

theorem reset_position_all {F : Type} (encoder : om_encoder_t F) (chunkIndex : Nat)
    (l : Nat → Nat) :
    reset_position encoder chunkIndex l encoder.dimension_count
      = linear_index (global_coordinate encoder chunkIndex l) encoder.dimensions
          encoder.dimension_count 0 := by
  unfold reset_position
  rw [linear_index_split (global_coordinate encoder chunkIndex l) _ _ encoder.dimension_count
    (le_refl _), linear_index_self, linear_index_self]

/-- The coordinate after a `break` at axis `j`: one step on axis `j` from the last element of
the run, which is the next chunk index and the source index the loop has computed. -/
theorem advance_index {F : Type} (encoder : om_encoder_t F) (chunkIndex : Nat)
    (l : Nat → Nat) (j : Nat) (hj : j < encoder.dimension_count)
    (hmax : ∀ m, j < m → m < encoder.dimension_count →
      l m + 1 = chunk_extent encoder chunkIndex m) :
    linear_index (advance j l) (chunk_extent encoder chunkIndex) encoder.dimension_count 0
        = linear_index l (chunk_extent encoder chunkIndex) encoder.dimension_count 0 + 1
    ∧ linear_index (global_coordinate encoder chunkIndex (advance j l)) encoder.dimensions
          encoder.dimension_count 0
        = reset_position encoder chunkIndex l (j + 1)
          + stride_of encoder.dimensions encoder.dimension_count (j + 1) := by
  have hpre : ∀ (r : Nat → Nat), prefix_index (advance j l) r encoder.dimension_count j
      = prefix_index l r encoder.dimension_count j :=
    fun r => prefix_index_congr _ _ _ _ _ (fun m hm => by unfold advance; rw [if_pos hm])
  have hz : ∀ (r : Nat → Nat), linear_index (advance j l) r encoder.dimension_count (j + 1)
      = 0 :=
    fun r => linear_index_zero _ _ _ _ (fun m hm _ => by
      unfold advance; rw [if_neg (by omega), if_neg (by omega)])
  have hj1 : advance j l j = l j + 1 := by
    unfold advance; rw [if_neg (by omega), if_pos rfl]
  have hm := linear_index_max l (chunk_extent encoder chunkIndex) encoder.dimension_count
    (encoder.dimension_count - (j + 1)) (j + 1) (by omega) (fun m hm1 hm2 => hmax m (by omega) hm2)
  constructor
  · rw [linear_index_split (advance j l) _ _ j (by omega),
      linear_index_split l _ _ j (by omega), linear_index_succ _ _ _ j hj,
      linear_index_succ l _ _ j hj, hpre, hz, hj1, ← hm]
    ring
  · rw [source_index_eq, linear_index_split (advance j l) _ _ j (by omega),
      linear_index_succ _ _ _ j hj, hpre, hz, hj1]
    unfold reset_position
    rw [prefix_index_succ, linear_index_split (chunk_origin encoder chunkIndex) _ _ (j + 1)
      (by omega), prefix_index_succ]
    have e : prefix_index (global_coordinate encoder chunkIndex l) encoder.dimensions
        encoder.dimension_count j
        = prefix_index (chunk_origin encoder chunkIndex) encoder.dimensions
            encoder.dimension_count j
          + prefix_index l encoder.dimensions encoder.dimension_count j := by
      unfold prefix_index global_coordinate
      rw [← Finset.sum_add_distrib]
      apply Finset.sum_congr rfl
      intro m _
      ring
    rw [e]
    unfold global_coordinate
    ring

/-! ## The `while` loop of a full-array call -/

theorem advance_valid {F : Type} (encoder : om_encoder_t F) (chunkIndex : Nat)
    (h : FullArrayCall encoder) (l : Nat → Nat) (j : Nat)
    (hl : ∀ m, m < encoder.dimension_count → l m < chunk_extent encoder chunkIndex m)
    (hj : l j + 1 < chunk_extent encoder chunkIndex j) :
    ∀ m, m < encoder.dimension_count →
      advance j l m < chunk_extent encoder chunkIndex m := by
  intro m hm
  have h1 := extent_pos encoder chunkIndex h m hm
  have h2 := hl m hm
  unfold advance
  split_ifs with c1 c2
  · exact h2
  · rw [c2]; exact hj
  · omega

/-- The coordinates that precede the first element of the next run either precede the first
element of this run or belong to this run. -/
theorem precedes_advance {F : Type} (encoder : om_encoder_t F) (chunkIndex : Nat) (p : Nat)
    (l c : Nat → Nat) (j : Nat) (hj : j < p)
    (hmax : ∀ m, j < m → m < p → l m + 1 = chunk_extent encoder chunkIndex m)
    (hc : ∀ m, m < p → c m < chunk_extent encoder chunkIndex m)
    (hpre : precedes p c (advance j (run_last encoder chunkIndex p l))) :
    precedes p c l ∨ ∀ m, m < p → c m = l m := by
  obtain ⟨j2, hj2, hagree, hlt⟩ := hpre
  have hval : ∀ m, m < j → advance j (run_last encoder chunkIndex p l) m = l m := by
    intro m hm
    unfold advance run_last
    rw [if_pos hm, if_neg (by omega)]
  have hvalj : advance j (run_last encoder chunkIndex p l) j = l j + 1 := by
    unfold advance run_last
    rw [if_neg (by omega), if_pos rfl, if_neg (by omega)]
  rcases Nat.lt_trichotomy j2 j with hlt2 | heq | hgt
  · left
    refine ⟨j2, hj2, fun m hm => ?_, ?_⟩
    · rw [hagree m hm, hval m (by omega)]
    · rw [← hval j2 hlt2]; exact hlt
  · subst heq
    rw [hvalj] at hlt
    have hag : ∀ m, m < j2 → c m = l m := fun m hm => by rw [hagree m hm, hval m hm]
    by_cases hl2 : c j2 < l j2
    · left; exact ⟨j2, hj2, hag, hl2⟩
    · have heq : c j2 = l j2 := by omega
      apply precedes_or_agrees l c (chunk_extent encoder chunkIndex) p (p - (j2 + 1)) (j2 + 1)
        (by omega)
      · intro m hm
        rcases Nat.eq_or_lt_of_le (Nat.le_of_lt_succ hm) with hm2 | hm2
        · rw [hm2]; exact heq
        · exact hag m hm2
      · intro m hm1 hm2
        exact hmax m (by omega) hm2
      · exact hc
  · exfalso
    have : advance j (run_last encoder chunkIndex p l) j2 = 0 := by
      unfold advance
      rw [if_neg (by omega), if_neg (by omega)]
    omega

/-- The `while` loop of a full-array call, entered at the first element `l` of a run with all
chunk elements that precede `l` staged: with enough iterations allowed it reaches the
compression step, with every chunk element staged and nothing written behind the chunk. -/
theorem run_loop_full {F : Type} (ops : FloatOps F) (encoder : om_encoder_t F)
    (chunkIndex : Nat) (array : Nat → F) (buf0 : Nat → Staged F)
    (h : FullArrayCall encoder) (lengthLast : Nat) :
    ∀ (fuel : Nat) (l : Nat → Nat) (buf : Nat → Staged F),
    (∀ j, j < encoder.dimension_count → l j < chunk_extent encoder chunkIndex j) →
    (∀ j, run_axis encoder chunkIndex encoder.dimension_count ≤ j →
      j < encoder.dimension_count → l j = 0) →
    (∀ c, (∀ j, j < encoder.dimension_count → c j < chunk_extent encoder chunkIndex j) →
      precedes (run_axis encoder chunkIndex encoder.dimension_count) c l →
      buf (linear_index c (chunk_extent encoder chunkIndex) encoder.dimension_count 0)
        = stage_element ops encoder
            (array (linear_index (global_coordinate encoder chunkIndex c) encoder.dimensions
              encoder.dimension_count 0))) →
    (∀ w, stride_of (chunk_extent encoder chunkIndex) encoder.dimension_count 0 ≤ w →
      buf w = buf0 w) →
    stride_of (chunk_extent encoder chunkIndex) encoder.dimension_count 0
      ≤ linear_index l (chunk_extent encoder chunkIndex) encoder.dimension_count 0 + fuel →
    ∃ st, run_loop ops encoder array encoder.dimensions (fun _ => 0) encoder.dimensions
          (stride_of encoder.dimensions encoder.dimension_count 0)
          (stride_of (chunk_extent encoder chunkIndex) encoder.dimension_count 0)
          lengthLast fuel
          (linear_index (global_coordinate encoder chunkIndex l) encoder.dimensions
            encoder.dimension_count 0)
          (linear_index l (chunk_extent encoder chunkIndex) encoder.dimension_count 0)
          (run_fold encoder chunkIndex encoder.dimension_count).1 buf
        = ChunkResult.ok st
      ∧ st.writeCoordinate
          = stride_of (chunk_extent encoder chunkIndex) encoder.dimension_count 0
      ∧ st.lengthInChunk
          = stride_of (chunk_extent encoder chunkIndex) encoder.dimension_count 0
      ∧ st.lengthLast = lengthLast
      ∧ (∀ c, (∀ j, j < encoder.dimension_count →
            c j < chunk_extent encoder chunkIndex j) →
          st.chunkBuffer
              (linear_index c (chunk_extent encoder chunkIndex) encoder.dimension_count 0)
            = stage_element ops encoder
                (array (linear_index (global_coordinate encoder chunkIndex c)
                  encoder.dimensions encoder.dimension_count 0)))
      ∧ (∀ w, stride_of (chunk_extent encoder chunkIndex) encoder.dimension_count 0 ≤ w →
          st.chunkBuffer w = buf0 w) := by
  have hD := h.1
  obtain ⟨-, hpD, hR, hfull, -⟩ :=
    run_fold_spec encoder chunkIndex h encoder.dimension_count hD (le_refl _)
  have hS0 := stride_dims_lt encoder h 0
  have hL0 := stride_extent_le encoder chunkIndex h 0
  have hRpos := stride_of_pos (chunk_extent encoder chunkIndex) encoder.dimension_count
    (extent_pos encoder chunkIndex h) (run_axis encoder chunkIndex encoder.dimension_count)
  intro fuel
  induction fuel with
  | zero =>
    intro l buf hl _ _ _ hfuel
    have := linear_index_lt l (chunk_extent encoder chunkIndex) encoder.dimension_count
      encoder.dimension_count 0 (by omega) (fun j _ hj => hl j hj)
    omega
  | succ f ih =>
    intro l buf hl hzero hfilled hbeyond hfuel
    -- the last element of the run
    have hlastv := run_last_valid encoder chunkIndex h
      (run_axis encoder chunkIndex encoder.dimension_count) l hl
    obtain ⟨hlast1, hlast2⟩ := run_last_index encoder chunkIndex h
      (run_axis encoder chunkIndex encoder.dimension_count) (by omega) hfull l hl hzero
    have hlastlt := linear_index_lt
      (run_last encoder chunkIndex (run_axis encoder chunkIndex encoder.dimension_count) l)
      (chunk_extent encoder chunkIndex) encoder.dimension_count
      encoder.dimension_count 0 (by omega) (fun j _ hj => hlastv j hj)
    have hlastlt2 := linear_index_lt
      (global_coordinate encoder chunkIndex
        (run_last encoder chunkIndex (run_axis encoder chunkIndex encoder.dimension_count) l))
      encoder.dimensions encoder.dimension_count
      encoder.dimension_count 0 (by omega)
      (fun j _ hj => global_coordinate_lt encoder chunkIndex h _ hlastv j hj)
    -- the copy loop
    obtain ⟨buf1, hcopy, hbuf1⟩ := copy_run_ok ops encoder array
      (stride_of encoder.dimensions encoder.dimension_count 0)
      (stride_of (chunk_extent encoder chunkIndex) encoder.dimension_count 0)
      (linear_index (global_coordinate encoder chunkIndex l) encoder.dimensions
        encoder.dimension_count 0)
      (linear_index l (chunk_extent encoder chunkIndex) encoder.dimension_count 0)
      buf (by omega) (by omega) (run_fold encoder chunkIndex encoder.dimension_count).1
      (by rw [hR]; omega) (by rw [hR]; omega)
    -- the coordinates after the copy
    have hsub : sub64 (run_fold encoder chunkIndex encoder.dimension_count).1 1
        = (run_fold encoder chunkIndex encoder.dimension_count).1 - 1 :=
      sub64_of_le _ _ (by rw [hR]; omega) (by rw [hR]; omega)
    have hread : wrap64 (linear_index (global_coordinate encoder chunkIndex l)
          encoder.dimensions encoder.dimension_count 0
          + sub64 (run_fold encoder chunkIndex encoder.dimension_count).1 1)
        = reset_position encoder chunkIndex
            (run_last encoder chunkIndex
              (run_axis encoder chunkIndex encoder.dimension_count) l)
            encoder.dimension_count := by
      rw [hsub, reset_position_all, wrap64_of_lt _ (by rw [hR]; omega), hR]
      omega
    have hwrite : wrap64 (wrap64 (linear_index l (chunk_extent encoder chunkIndex)
          encoder.dimension_count 0
          + sub64 (run_fold encoder chunkIndex encoder.dimension_count).1 1) + 1)
        = linear_index l (chunk_extent encoder chunkIndex) encoder.dimension_count 0
          + (run_fold encoder chunkIndex encoder.dimension_count).1 := by
      rw [hsub, wrap64_of_lt (linear_index l (chunk_extent encoder chunkIndex)
          encoder.dimension_count 0
          + ((run_fold encoder chunkIndex encoder.dimension_count).1 - 1))
        (by rw [hR]; omega), wrap64_of_lt _ (by rw [hR]; omega), hR]
      omega
    have hone : (1 : Nat) = stride_of encoder.dimensions encoder.dimension_count
        encoder.dimension_count := (stride_of_self _ _).symm
    have hrun0 : run_fold encoder chunkIndex
        (encoder.dimension_count - encoder.dimension_count) = (1, true) := by
      rw [Nat.sub_self]; rfl
    have hnext := next_run_full encoder chunkIndex h
      (run_last encoder chunkIndex (run_axis encoder chunkIndex encoder.dimension_count) l)
      hlastv encoder.dimension_count hD (le_refl _)
    rw [hrun0, ← hone] at hnext
    -- staging of the elements that precede or belong to this run
    have hstaged : ∀ c, (∀ j, j < encoder.dimension_count →
          c j < chunk_extent encoder chunkIndex j) →
        (precedes (run_axis encoder chunkIndex encoder.dimension_count) c l
          ∨ ∀ m, m < run_axis encoder chunkIndex encoder.dimension_count → c m = l m) →
        buf1 (linear_index c (chunk_extent encoder chunkIndex) encoder.dimension_count 0)
          = stage_element ops encoder
              (array (linear_index (global_coordinate encoder chunkIndex c)
                encoder.dimensions encoder.dimension_count 0)) := by
      intro c hc hcases
      rcases hcases with hp | ha
      · have hlt := linear_index_lt_of_precedes c l (chunk_extent encoder chunkIndex)
          encoder.dimension_count (run_axis encoder chunkIndex encoder.dimension_count)
          (by omega) hc hp
        rw [hbuf1, if_neg (by omega)]
        exact hfilled c hc hp
      · obtain ⟨m1, m2, m3⟩ := run_member encoder chunkIndex
          (run_axis encoder chunkIndex encoder.dimension_count) (by omega) hfull l c hzero hc ha
        rw [m2, m1, hbuf1, if_pos ⟨by omega, by rw [hR]; omega⟩, Nat.add_sub_cancel_left]
    have hbeyond1 : ∀ w,
        stride_of (chunk_extent encoder chunkIndex) encoder.dimension_count 0 ≤ w →
        buf1 w = buf0 w := by
      intro w hw
      rw [hbuf1, if_neg (by rw [hR]; omega)]
      exact hbeyond w hw
    rw [run_loop, hcopy]
    simp only [hread, hwrite]
    rw [hnext]
    cases hca : carry_axis encoder chunkIndex
        (run_last encoder chunkIndex (run_axis encoder chunkIndex encoder.dimension_count) l)
        encoder.dimension_count with
    | none =>
      have hnone := carry_axis_none encoder chunkIndex _ _ hca
      have hmaxall : ∀ m, m < encoder.dimension_count →
          run_last encoder chunkIndex (run_axis encoder chunkIndex encoder.dimension_count) l m
            + 1 = chunk_extent encoder chunkIndex m := by
        intro m hm
        have := hnone m hm
        have := hlastv m hm
        omega
      have hend := linear_index_max _ (chunk_extent encoder chunkIndex) encoder.dimension_count
        encoder.dimension_count 0 (by omega) (fun m _ hm => hmaxall m hm)
      refine ⟨_, rfl, ?_, rfl, rfl, ?_, hbeyond1⟩
      · show _ + _ = _
        rw [hR]; omega
      · intro c hc
        apply hstaged c hc
        apply precedes_or_agrees l c (chunk_extent encoder chunkIndex) _
          (run_axis encoder chunkIndex encoder.dimension_count) 0 (by omega)
        · intro m hm; omega
        · intro m _ hm
          have := hmaxall m (by omega)
          unfold run_last at this
          rw [if_neg (by omega)] at this
          exact this
        · intro m hm; exact hc m (by omega)
    | some j =>
      obtain ⟨hjD, hjc, hjmax⟩ := carry_axis_some encoder chunkIndex _ _ _ hca
      have hjp : j < run_axis encoder chunkIndex encoder.dimension_count := by
        by_contra hcon
        have := extent_pos encoder chunkIndex h j hjD
        unfold run_last at hjc
        rw [if_pos (by omega)] at hjc
        omega
      have hmaxlast : ∀ m, j < m → m < encoder.dimension_count →
          run_last encoder chunkIndex (run_axis encoder chunkIndex encoder.dimension_count) l m
            + 1 = chunk_extent encoder chunkIndex m := by
        intro m hm1 hm2
        have := hjmax m hm1 hm2
        have := hlastv m hm2
        omega
      obtain ⟨hadv1, hadv2⟩ := advance_index encoder chunkIndex _ j hjD hmaxlast
      have hbreak := run_fold_at_break encoder chunkIndex h j hjp
      simp only
      rw [← hadv2, hbreak]
      have hw2 : linear_index l (chunk_extent encoder chunkIndex) encoder.dimension_count 0
          + (run_fold encoder chunkIndex encoder.dimension_count).1
          = linear_index (advance j (run_last encoder chunkIndex
              (run_axis encoder chunkIndex encoder.dimension_count) l))
              (chunk_extent encoder chunkIndex) encoder.dimension_count 0 := by
        rw [hadv1, hR]; omega
      rw [hw2]
      apply ih
      · exact advance_valid encoder chunkIndex h _ j hlastv hjc
      · intro m hm1 hm2
        unfold advance
        rw [if_neg (by omega), if_neg (by omega)]
      · intro c hc hp
        apply hstaged c hc
        apply precedes_advance encoder chunkIndex _ l c j hjp _ (fun m hm => hc m (by omega)) hp
        intro m hm1 hm2
        have := hmaxlast m hm1 (by omega)
        unfold run_last at this
        rw [if_neg (by omega)] at this
        exact this
      · exact hbeyond1
      · rw [hadv1]
        omega

/-! ## Full-array calls of `om_encoder_writeSingleChunk` -/

theorem chunk_length_eq {F : Type} (encoder : om_encoder_t F) (chunkIndex : Nat) :
    chunk_length encoder chunkIndex
      = stride_of (chunk_extent encoder chunkIndex) encoder.dimension_count 0 := by
  unfold chunk_length stride_of
  rw [Finset.range_eq_Ico]

theorem local_index_eq {F : Type} (encoder : om_encoder_t F) (chunkIndex : Nat)
    (l : Nat → Nat) :
    local_index encoder chunkIndex l
      = linear_index l (chunk_extent encoder chunkIndex) encoder.dimension_count 0 := by
  unfold local_index linear_index stride_of
  rw [Finset.range_eq_Ico]

theorem global_index_eq {F : Type} (encoder : om_encoder_t F) (chunkIndex : Nat)
    (l : Nat → Nat) :
    global_index encoder chunkIndex l
      = linear_index (global_coordinate encoder chunkIndex l) encoder.dimensions
          encoder.dimension_count 0 := by
  unfold global_index linear_index stride_of global_coordinate chunk_origin
  rw [Finset.range_eq_Ico]

/-- A full-array call reaches the compression step with the whole chunk staged. -/
theorem stageChunk_full {F : Type} (ops : FloatOps F) (encoder : om_encoder_t F)
    (array : Nat → F) (chunkIndex : Nat) (chunkBuffer : Nat → Staged F) (fuel : Nat)
    (h : FullArrayCall encoder)
    (hfuel : stride_of (chunk_extent encoder chunkIndex) encoder.dimension_count 0 ≤ fuel) :
    ∃ st, om_encoder_stageChunk ops encoder array encoder.dimensions (fun _ => 0)
          encoder.dimensions chunkIndex chunkIndex chunkBuffer fuel = ChunkResult.ok st
      ∧ st.writeCoordinate
          = stride_of (chunk_extent encoder chunkIndex) encoder.dimension_count 0
      ∧ st.lengthInChunk
          = stride_of (chunk_extent encoder chunkIndex) encoder.dimension_count 0
      ∧ st.lengthLast = chunk_extent encoder chunkIndex (encoder.dimension_count - 1)
      ∧ (∀ c, (∀ j, j < encoder.dimension_count →
            c j < chunk_extent encoder chunkIndex j) →
          st.chunkBuffer
              (linear_index c (chunk_extent encoder chunkIndex) encoder.dimension_count 0)
            = stage_element ops encoder
                (array (linear_index (global_coordinate encoder chunkIndex c)
                  encoder.dimensions encoder.dimension_count 0)))
      ∧ (∀ w, stride_of (chunk_extent encoder chunkIndex) encoder.dimension_count 0 ≤ w →
          st.chunkBuffer w = chunkBuffer w) := by
  have hD := h.1
  have htotal : forUp encoder.dimension_count (fun i n => wrap64 (n * encoder.dimensions i)) 1
      = stride_of encoder.dimensions encoder.dimension_count 0 := by
    rw [forUp_mul_wrap64, total_eq, Nat.mod_eq_of_lt (by
      have := stride_dims_lt encoder h 0
      omega)]
  have hunpack := unpack_loop_full encoder chunkIndex h encoder.dimension_count (le_refl _)
  rw [unpacked_init] at hunpack
  have hzero_lin : linear_index (fun _ => 0) (chunk_extent encoder chunkIndex)
      encoder.dimension_count 0 = 0 :=
    linear_index_zero _ _ _ _ (fun _ _ _ => rfl)
  have hzero_pos : linear_index (global_coordinate encoder chunkIndex (fun _ => 0))
      encoder.dimensions encoder.dimension_count 0
      = linear_index (chunk_origin encoder chunkIndex) encoder.dimensions
          encoder.dimension_count 0 :=
    linear_index_congr _ _ _ _ _ (fun j _ _ => by unfold global_coordinate; rfl)
  obtain ⟨st, hst, hrest⟩ := run_loop_full ops encoder chunkIndex array chunkBuffer h
    (chunk_extent encoder chunkIndex (encoder.dimension_count - 1)) fuel (fun _ => 0)
    chunkBuffer
    (fun j hj => extent_pos encoder chunkIndex h j hj)
    (fun _ _ _ => rfl)
    (fun c _ hp => by
      obtain ⟨j, _, _, hlt⟩ := hp
      exact absurd hlt (Nat.not_lt_zero _))
    (fun _ _ => rfl)
    (by rw [hzero_lin]; omega)
  rw [hzero_lin, hzero_pos] at hst
  refine ⟨st, ?_, hrest⟩
  unfold om_encoder_stageChunk
  simp only [htotal, hunpack]
  have hpos : 0 < encoder.dimension_count := hD
  simp only [unpacked, Nat.sub_zero, if_pos hpos]
  exact hst

/-- Claim C1. For an encoder with at least one axis, `dimensions[i] >= 1`, `chunks[i] >= 1`
and a source array of 4-byte floats that fits a 64-bit address space, and for every chunk
index, a full-array call of `om_encoder_writeSingleChunk` (`arrayDimensions = arrayCount
= dimensions`, `arrayOffset = 0`, `chunkIndexOffsetInThisArray = chunkIndex`) reaches the
compression step, given at least `lengthInChunk` iterations of the `while` loop, with
`writeCoordinate = lengthInChunk = prod_i length_i`; every chunk-local coordinate `l` with
`l_i < length_i` has a row-major index below `lengthInChunk`, and the staged element at that
index is the per-codec transform (the identity for `FPXDEC32`) of the source element at the
global coordinate `(c_i * chunks[i] + l_i)_i`; nothing is written behind the chunk. -/
theorem writeSingleChunk_full_array {F : Type} (ops : FloatOps F) (encoder : om_encoder_t F)
    (array : Nat → F) (chunkIndex : Nat) (chunkBuffer : Nat → Staged F) (fuel : Nat)
    (hD : 1 ≤ encoder.dimension_count)
    (hdims : ∀ i, i < encoder.dimension_count → 1 ≤ encoder.dimensions i)
    (hchunks : ∀ i, i < encoder.dimension_count →
      1 ≤ encoder.chunks i ∧ encoder.chunks i < 18446744073709551616)
    (hfit : 4 * (∏ i in Finset.range encoder.dimension_count, encoder.dimensions i)
      < 18446744073709551616)
    (hfuel : chunk_length encoder chunkIndex ≤ fuel) :
    ∃ st, om_encoder_stageChunk ops encoder array encoder.dimensions (fun _ => 0)
          encoder.dimensions chunkIndex chunkIndex chunkBuffer fuel = ChunkResult.ok st
      ∧ st.writeCoordinate = chunk_length encoder chunkIndex
      ∧ st.lengthInChunk = chunk_length encoder chunkIndex
      ∧ (∀ l, (∀ i, i < encoder.dimension_count → l i < chunk_extent encoder chunkIndex i) →
          local_index encoder chunkIndex l < chunk_length encoder chunkIndex
          ∧ st.chunkBuffer (local_index encoder chunkIndex l)
            = stage_element ops encoder (array (global_index encoder chunkIndex l)))
      ∧ (∀ w, chunk_length encoder chunkIndex ≤ w → st.chunkBuffer w = chunkBuffer w)
      ∧ (encoder.compression = om_compression_t.COMPRESSION_FPXDEC32 →
          ∀ x, stage_element ops encoder x = Staged.float32 x) := by
  have h : FullArrayCall encoder := ⟨hD, hdims, hchunks, hfit⟩
  rw [chunk_length_eq] at hfuel
  obtain ⟨st, h1, h2, h3, -, h5, h6⟩ :=
    stageChunk_full ops encoder array chunkIndex chunkBuffer fuel h hfuel
  refine ⟨st, h1, ?_, ?_, ?_, ?_, ?_⟩
  · rw [chunk_length_eq]; exact h2
  · rw [chunk_length_eq]; exact h3
  · intro l hl
    rw [local_index_eq, global_index_eq, chunk_length_eq]
    exact ⟨linear_index_lt l _ _ encoder.dimension_count 0 (by omega) (fun j _ hj => hl j hj),
      h5 l hl⟩
  · intro w hw
    rw [chunk_length_eq] at hw
    exact h6 w hw
  · intro hc x
    unfold stage_element
    rw [hc]

theorem writeSingleChunk_full_array_witness :
    1 ≤ exEncoder.dimension_count
    ∧ (∀ i, i < exEncoder.dimension_count → 1 ≤ exEncoder.dimensions i)
    ∧ (∀ i, i < exEncoder.dimension_count →
        1 ≤ exEncoder.chunks i ∧ exEncoder.chunks i < 18446744073709551616)
    ∧ 4 * (∏ i in Finset.range exEncoder.dimension_count, exEncoder.dimensions i)
        < 18446744073709551616
    ∧ chunk_length exEncoder 8 ≤ 1
    ∧ ∃ st, om_encoder_stageChunk exOps exEncoder (fun x => x) exEncoder.dimensions
          (fun _ => 0) exEncoder.dimensions 8 8 exBuffer 1 = ChunkResult.ok st
        ∧ st.writeCoordinate = chunk_length exEncoder 8
        ∧ st.lengthInChunk = chunk_length exEncoder 8
        ∧ (∀ l, (∀ i, i < exEncoder.dimension_count → l i < chunk_extent exEncoder 8 i) →
            local_index exEncoder 8 l < chunk_length exEncoder 8
            ∧ st.chunkBuffer (local_index exEncoder 8 l)
              = stage_element exOps exEncoder (global_index exEncoder 8 l))
        ∧ (∀ w, chunk_length exEncoder 8 ≤ w → st.chunkBuffer w = exBuffer w)
        ∧ (exEncoder.compression = om_compression_t.COMPRESSION_FPXDEC32 →
            ∀ x, stage_element exOps exEncoder x = Staged.float32 x) :=
  ⟨by decide, by decide, by decide, by decide, by decide,
    writeSingleChunk_full_array exOps exEncoder (fun x => x) 8 exBuffer 1 (by decide)
      (by decide) (by decide) (by decide) (by decide)⟩

/-! ## The reader: scalar values, children and legacy headers -/

/-- Outside `INT8 .. DOUBLE` the `switch` on the data type takes its `default` branch. -/
theorem scalar_width_none (data_type : Nat)
    (h : ¬ (DATA_TYPE_INT8 ≤ data_type ∧ data_type ≤ DATA_TYPE_DOUBLE)) :
    scalar_width data_type = none := by
  simp only [DATA_TYPE_INT8, DATA_TYPE_DOUBLE] at h
  unfold scalar_width
  simp only [DATA_TYPE_INT8, DATA_TYPE_UINT8, DATA_TYPE_INT16, DATA_TYPE_UINT16,
    DATA_TYPE_INT32, DATA_TYPE_UINT32, DATA_TYPE_FLOAT, DATA_TYPE_INT64, DATA_TYPE_UINT64,
    DATA_TYPE_DOUBLE]
  rw [if_neg (by omega), if_neg (by omega), if_neg (by omega), if_neg (by omega)]
/-- C15. The function `om_variable_get_scalar` returns `ERROR_INVALID_DATA_TYPE` exactly when
the descriptor is not of scalar layout or its `data_type` is outside `INT8 .. DOUBLE`; in every
other case it returns `ERROR_OK`; and whenever it returns `ERROR_INVALID_DATA_TYPE` the
caller's buffer `value` is left as it was. -/
theorem get_scalar_error_iff (var value : Mem) :
    ((om_variable_get_scalar var value).1 = OmError_t.ERROR_INVALID_DATA_TYPE
        ↔ (_om_variable_memory_layout var ≠ OmMemoryLayout_t.OM_MEMORY_LAYOUT_SCALAR
            ∨ ¬ (DATA_TYPE_INT8 ≤ meta_data_type var ∧ meta_data_type var ≤ DATA_TYPE_DOUBLE)))
      ∧ ((om_variable_get_scalar var value).1 = OmError_t.ERROR_OK
        ↔ (_om_variable_memory_layout var = OmMemoryLayout_t.OM_MEMORY_LAYOUT_SCALAR
            ∧ DATA_TYPE_INT8 ≤ meta_data_type var ∧ meta_data_type var ≤ DATA_TYPE_DOUBLE))
      ∧ ((om_variable_get_scalar var value).1 = OmError_t.ERROR_INVALID_DATA_TYPE
        → (om_variable_get_scalar var value).2 = value) := by
  by_cases hlay : _om_variable_memory_layout var = OmMemoryLayout_t.OM_MEMORY_LAYOUT_SCALAR
  · by_cases hdt : DATA_TYPE_INT8 ≤ meta_data_type var ∧ meta_data_type var ≤ DATA_TYPE_DOUBLE
    · have hw := (scalar_width_numeric _ hdt).1
      have h1 : (om_variable_get_scalar var value).1 = OmError_t.ERROR_OK := by
        unfold om_variable_get_scalar
        rw [if_neg (not_not.mpr hlay)]
        simp only [hw]
      refine ⟨?_, ?_, ?_⟩
      · rw [h1]
        constructor
        · intro h; cases h
        · rintro (h | h)
          · exact absurd hlay h
          · exact absurd hdt h
      · rw [h1]
        exact ⟨fun _ => ⟨hlay, hdt⟩, fun _ => rfl⟩
      · rw [h1]
        intro h; cases h
    · have hw : scalar_width (meta_data_type var) = none := scalar_width_none _ hdt
      have h1 : om_variable_get_scalar var value
          = (OmError_t.ERROR_INVALID_DATA_TYPE, value) := by
        unfold om_variable_get_scalar
        rw [if_neg (not_not.mpr hlay)]
        simp only [hw]
      refine ⟨?_, ?_, ?_⟩
      · rw [h1]
        exact ⟨fun _ => Or.inr hdt, fun _ => rfl⟩
      · rw [h1]
        constructor
        · intro h; cases h
        · rintro ⟨_, h⟩
          exact absurd h hdt
      · intro _
        rw [h1]
  · have h1 : om_variable_get_scalar var value
        = (OmError_t.ERROR_INVALID_DATA_TYPE, value) := by
      unfold om_variable_get_scalar
      rw [if_pos hlay]
    refine ⟨?_, ?_, ?_⟩
    · rw [h1]
      exact ⟨fun _ => Or.inl hlay, fun _ => rfl⟩
    · rw [h1]
      constructor
      · intro h; cases h
      · rintro ⟨h, _⟩
        exact absurd h hlay
    · intro _
      rw [h1]

/-- What the reader returns for a legacy header, by fields. -/
theorem legacy_views (var : Mem)
    (hlay : _om_variable_memory_layout var = OmMemoryLayout_t.OM_MEMORY_LAYOUT_LEGACY) :
    om_variable_get_type var = DATA_TYPE_FLOAT_ARRAY
      ∧ om_variable_get_dimensions var = ⟨2, some 8⟩
      ∧ om_variable_get_chunks var = ⟨2, some 24⟩
      ∧ om_variable_get_number_of_children var = 0
      ∧ om_variable_get_name var = ⟨0, none⟩ := by
  unfold om_variable_get_type om_variable_get_dimensions om_variable_get_chunks
    om_variable_get_number_of_children om_variable_get_name
  rw [hlay]
  exact ⟨rfl, rfl, rfl, rfl, rfl⟩

/-- C17. A descriptor that starts with `'O'`, `'M'` and a version byte 1 or 2 is read as a
legacy header: the type is `FLOAT_ARRAY`; the compression is `PFOR_16BIT_DELTA2D` for version 1
and the header byte `compression_type` for version 2; the dimension view has two values,
`dim0` and `dim1`; the chunk view has two values, `chunk0` and `chunk1`; there are no children
and the name is empty, of size 0. -/
theorem legacy_reader (COMPRESSION_PFOR_16BIT_DELTA2D : Nat) (var : Mem)
    (hO : (var 0).val = 79) (hM : (var 1).val = 77)
    (hv : (var 2).val = 1 ∨ (var 2).val = 2) :
    om_variable_get_type var = DATA_TYPE_FLOAT_ARRAY
      ∧ ((var 2).val = 1 → om_variable_get_compression COMPRESSION_PFOR_16BIT_DELTA2D var
          = COMPRESSION_PFOR_16BIT_DELTA2D)
      ∧ ((var 2).val = 2 → om_variable_get_compression COMPRESSION_PFOR_16BIT_DELTA2D var
          = legacy_compression_type var)
      ∧ (om_variable_get_dimensions var).count = 2
      ∧ (om_variable_get_dimensions var).get var 0 = some (legacy_dim0 var)
      ∧ (om_variable_get_dimensions var).get var 1 = some (legacy_dim1 var)
      ∧ (om_variable_get_chunks var).count = 2
      ∧ (om_variable_get_chunks var).get var 0 = some (legacy_chunk0 var)
      ∧ (om_variable_get_chunks var).get var 1 = some (legacy_chunk1 var)
      ∧ om_variable_get_number_of_children var = 0
      ∧ (om_variable_get_name var).size = 0
      ∧ (om_variable_get_name var).value = none := by
  have hlay : _om_variable_memory_layout var = OmMemoryLayout_t.OM_MEMORY_LAYOUT_LEGACY := by
    rw [memory_layout_eq, if_pos ⟨hO, hM, hv⟩]
  obtain ⟨h1, h2, h3, h4, h5⟩ := legacy_views var hlay
  have hver : legacy_version var = (var 2).val := load_le_one var 2
  refine ⟨h1, ?_, ?_, ?_, ?_, ?_, ?_, ?_, ?_, h4, ?_, ?_⟩
  · intro h
    unfold om_variable_get_compression
    rw [hlay]
    simp only [hver, h, if_true]
  · intro h
    unfold om_variable_get_compression
    rw [hlay]
    have : ¬ legacy_version var = 1 := by rw [hver]; omega
    simp only [if_neg this]
  · rw [h2]
  · rw [h2]; rfl
  · rw [h2]; rfl
  · rw [h3]
  · rw [h3]; rfl
  · rw [h3]; rfl
  · rw [h5]
  · rw [h5]

/-- The legacy reader on the sample header: dimensions `[10, 20]`, chunks `[5, 10]`. -/
theorem legacy_reader_witness :
    (exLegacy 0).val = 79 ∧ (exLegacy 1).val = 77 ∧ (exLegacy 2).val = 1
      ∧ om_variable_get_type exLegacy = DATA_TYPE_FLOAT_ARRAY
      ∧ om_variable_get_compression 4 exLegacy = 4
      ∧ (om_variable_get_dimensions exLegacy).get exLegacy 0 = some 10
      ∧ (om_variable_get_dimensions exLegacy).get exLegacy 1 = some 20
      ∧ (om_variable_get_chunks exLegacy).get exLegacy 0 = some 5
      ∧ (om_variable_get_chunks exLegacy).get exLegacy 1 = some 10
      ∧ om_variable_get_number_of_children exLegacy = 0
      ∧ (om_variable_get_name exLegacy).size = 0 := by
  have h := legacy_reader 4 exLegacy (by decide) (by decide) (Or.inl (by decide))
  obtain ⟨h1, h2, _, _, h5, h6, _, h8, h9, h10, h11, _⟩ := h
  refine ⟨by decide, by decide, by decide, h1, h2 (by decide), ?_, ?_, ?_, ?_, h10, h11⟩
  · rw [h5]; decide
  · rw [h6]; decide
  · rw [h8]; decide
  · rw [h9]; decide

/-- For a legacy header `om_variable_get_child` returns the zero entry whatever the index. -/
theorem get_child_legacy (var : Mem) (nChild : Int)
    (hlay : _om_variable_memory_layout var = OmMemoryLayout_t.OM_MEMORY_LAYOUT_LEGACY) :
    om_variable_get_child var nChild = some ⟨0, 0⟩ := by
  unfold om_variable_get_child
  rw [hlay]

/-- An index whose conversion to `unsigned int` is not below `number_of_children` yields the
zero entry.  This covers every `int` index from `number_of_children` upwards, and every
negative `int` index as long as `number_of_children` is at most `2^31`. -/
theorem get_child_out_of_range (var : Mem) (nChild : Int)
    (hint : -2147483648 ≤ nChild ∧ nChild ≤ 2147483647)
    (h : ((meta_number_of_children var : Nat) : Int) ≤ nChild
      ∨ (nChild < 0 ∧ meta_number_of_children var ≤ 2147483648)) :
    om_variable_get_child var nChild = some ⟨0, 0⟩ := by
  have hcmp : ¬ int_to_u32 nChild < meta_number_of_children var := by
    unfold int_to_u32
    omega
  unfold om_variable_get_child
  cases hl : _om_variable_memory_layout var
  · rfl
  · simp only [if_neg hcmp]
  · simp only [if_neg hcmp]

/-- C16. The function `om_variable_get_child` does not return the zero entry for every
negative index: on the array header `exArrayHeader`, whose `number_of_children` field holds
`0xFFFFFFFF`, the index `-2` passes the comparison `nChild < meta->number_of_children` (it is
made in `unsigned int`, where `-2` is `0xFFFFFFFE`) and the call returns `chilrden[-2]`, the
16 bytes at offset `40 - 32 = 8` of the header itself, of which the second word is
`dimension_count = 2`. -/
theorem get_child_negative_index :
    _om_variable_memory_layout exArrayHeader = OmMemoryLayout_t.OM_MEMORY_LAYOUT_ARRAY
      ∧ om_variable_get_number_of_children exArrayHeader = 4294967295
      ∧ om_variable_get_child exArrayHeader (-2) = some ⟨0, 2⟩
      ∧ om_variable_get_child exArrayHeader (-2) ≠ some ⟨0, 0⟩ := by
  decide

/-- On the scalar header `exScalarHeader` the same index makes `om_variable_get_child` read
`chilrden[-2]` at offset `8 - 32`, in front of the descriptor. -/
theorem get_child_negative_index_scalar :
    _om_variable_memory_layout exScalarHeader = OmMemoryLayout_t.OM_MEMORY_LAYOUT_SCALAR
      ∧ om_variable_get_child exScalarHeader (-2) = none := by
  decide

/-! ## Output buffer capacity and the look-up table -/

/-- C11. The function `om_encoder_output_buffer_capacity` returns
`max(4096, max((8 * nChunks) mod 2^64, chunkBufferSize))` with
`nChunks = om_encoder_number_of_chunks(encoder)` and
`chunkBufferSize = om_encoder_chunk_buffer_size(encoder)`: the capacity is at least 4096 and at
least `chunkBufferSize`, and it is at least `8 * nChunks` whenever `8 * nChunks` fits
`uint64_t`. -/
theorem output_buffer_capacity_eq {F : Type} (encoder : om_encoder_t F) :
    om_encoder_output_buffer_capacity encoder
        = max 4096 (max ((8 * om_encoder_number_of_chunks encoder) % 18446744073709551616)
            (om_encoder_chunk_buffer_size encoder))
      ∧ 4096 ≤ om_encoder_output_buffer_capacity encoder
      ∧ om_encoder_chunk_buffer_size encoder ≤ om_encoder_output_buffer_capacity encoder
      ∧ (8 * om_encoder_number_of_chunks encoder < 18446744073709551616
          → 8 * om_encoder_number_of_chunks encoder
              ≤ om_encoder_output_buffer_capacity encoder) := by
  have h : om_encoder_output_buffer_capacity encoder
      = max 4096 (max ((8 * om_encoder_number_of_chunks encoder) % 18446744073709551616)
          (om_encoder_chunk_buffer_size encoder)) := by
    unfold om_encoder_output_buffer_capacity wrap64
    simp only []
    rw [Nat.mul_comm]
  rw [h]
  refine ⟨rfl, ?_, ?_, ?_⟩
  · omega
  · omega
  · intro hfit
    rw [Nat.mod_eq_of_lt hfit]
    omega

/-- The capacity of the sample encoder: 9 chunks, `8 * 9 = 72` bytes of look-up table, below
the floor of 4096. -/
theorem output_buffer_capacity_eq_witness :
    8 * om_encoder_number_of_chunks exEncoder < 18446744073709551616
      ∧ 8 * om_encoder_number_of_chunks exEncoder
          ≤ om_encoder_output_buffer_capacity exEncoder
      ∧ om_encoder_output_buffer_capacity exEncoder = 4096 :=
  ⟨by decide, (output_buffer_capacity_eq exEncoder).2.2.2 (by decide), by decide⟩

/-- C11, as stated, fails where `8 * nChunks` leaves `uint64_t`: an encoder with `2^61`
chunks of one element has `lutBufferSize = 2^64 mod 2^64 = 0`, and the capacity 4096 is
below `8 * nChunks`. -/
theorem output_buffer_capacity_counterexample :
    (∀ i, i < exEncoderLong.dimension_count → 1 ≤ exEncoderLong.chunks i)
      ∧ om_encoder_number_of_chunks exEncoderLong = 2305843009213693952
      ∧ om_encoder_chunk_buffer_size exEncoderLong = 133
      ∧ om_encoder_output_buffer_capacity exEncoderLong = 4096
      ∧ ¬ 8 * om_encoder_number_of_chunks exEncoderLong
          ≤ om_encoder_output_buffer_capacity exEncoderLong
      ∧ om_encoder_output_buffer_capacity exEncoderLong
          ≠ max 4096 (max (8 * om_encoder_number_of_chunks exEncoderLong)
              (om_encoder_chunk_buffer_size exEncoderLong)) := by
  refine ⟨fun i _ => Nat.le_refl 1, ?_, ?_, ?_, ?_, ?_⟩ <;> decide

theorem forUp_congr {σ : Type} (n : Nat) (body body' : Nat → σ → σ) (s : σ)
    (h : ∀ i, i < n → ∀ t, body i t = body' i t) : forUp n body s = forUp n body' s := by
  induction n with
  | zero => rfl
  | succ k ih =>
    rw [forUp_succ, forUp_succ, ih (fun i hi t => h i (by omega) t), h k (by omega)]

/-- The running maximum of the loop of `om_encoder_size_of_compressed_lut`. -/
theorem forUp_max (f : Nat → Nat) (n : Nat) :
    forUp n (fun i maxLength => if f i > maxLength then f i else maxLength) 0
      = (Finset.range n).sup f := by
  induction n with
  | zero => rfl
  | succ k ih =>
    rw [forUp_succ, ih, Finset.range_succ, Finset.sup_insert]
    show (if f k > (Finset.range k).sup f then f k else (Finset.range k).sup f)
      = max (f k) ((Finset.range k).sup f)
    split_ifs with h <;> omega

/-- Below the group count the start of a group lies inside the table. -/
theorem group_start_lt (N k i : Nat) (hk : 1 ≤ k) (hi : i < divide_rounded_up N k) :
    i * k < N := by
  unfold divide_rounded_up at hi
  have h1 : (i + 1) * k ≤ N + k - 1 := (Nat.le_div_iff_mul_le (by omega)).mp hi
  rw [Nat.add_mul, Nat.one_mul] at h1
  omega

/-- Without wrap-around the entries handed to `p4ndenc64` in pass `i` are group `i`. -/
theorem lut_range_eq {F : Type} (encoder : om_encoder_t F) (lookUpTable : Nat → Nat)
    (N i : Nat) (hk : 1 ≤ encoder.lut_chunk_element_count)
    (hN : N + encoder.lut_chunk_element_count ≤ 18446744073709551616)
    (hi : i < divide_rounded_up N encoder.lut_chunk_element_count) :
    lut_range encoder lookUpTable N i
      = lut_group encoder.lut_chunk_element_count lookUpTable N i := by
  have hs := group_start_lt N _ i hk hi
  have w1 : wrap64 (i * encoder.lut_chunk_element_count)
      = i * encoder.lut_chunk_element_count := wrap64_of_lt _ (by omega)
  have w2 : wrap64 (i * encoder.lut_chunk_element_count + encoder.lut_chunk_element_count)
      = (i + 1) * encoder.lut_chunk_element_count := by
    rw [wrap64_of_lt _ (by omega), Nat.add_mul, Nat.one_mul]
  unfold lut_range lut_group
  simp only [w1, w2]
  rw [sub64_of_le _ _ (by rw [Nat.add_mul, Nat.one_mul]; omega) (by omega)]

/-- While every group fits the local array the loop keeps the running maximum. -/
theorem forUp_lut_size_bounded (MAX_LUT_ELEMENTS : Nat) (f : Nat → Nat) (n : Nat)
    (h : ∀ i, i < n → f i ≤ MAX_LUT_ELEMENTS + 32) :
    forUp n (fun i state => lut_size_step MAX_LUT_ELEMENTS (f i) state) (some 0)
      = some ((Finset.range n).sup f) := by
  induction n with
  | zero => rfl
  | succ k ih =>
    rw [forUp_succ, ih (fun i hi => h i (by omega)), Finset.range_succ, Finset.sup_insert]
    have hk := h k (by omega)
    show lut_size_step MAX_LUT_ELEMENTS (f k) (some ((Finset.range k).sup f))
      = some (max (f k) ((Finset.range k).sup f))
    unfold lut_size_step
    simp only []
    rw [if_neg (by omega)]
    split_ifs with h1
    · congr 1
      omega
    · congr 1
      omega

/-- A group that does not fit the local array leaves the loop without a value. -/
theorem forUp_lut_size_overrun (MAX_LUT_ELEMENTS : Nat) (f : Nat → Nat) (i : Nat)
    (h : MAX_LUT_ELEMENTS + 32 < f i) : ∀ (n : Nat) (state : Option Nat), i < n →
    forUp n (fun i state => lut_size_step MAX_LUT_ELEMENTS (f i) state) state = none := by
  intro n
  induction n with
  | zero => intro _ hi; exact absurd hi (Nat.not_lt_zero i)
  | succ k ih =>
    intro state hi
    rw [forUp_succ]
    by_cases hik : i = k
    · subst hik
      cases forUp i (fun i state => lut_size_step MAX_LUT_ELEMENTS (f i) state) state with
      | none => rfl
      | some m =>
        show lut_size_step MAX_LUT_ELEMENTS (f i) (some m) = none
        unfold lut_size_step
        simp only []
        rw [if_pos h]
    · rw [ih state (by omega)]
      rfl

/-- A call in which some group does not fit the local array has no defined result. -/
theorem size_of_compressed_lut_overrun {F : Type} (MAX_LUT_ELEMENTS : Nat)
    (p4ndenc64 : List Nat → List Byte) (encoder : om_encoder_t F) (lookUpTable : Nat → Nat)
    (N i : Nat) (hi : i < divide_rounded_up N encoder.lut_chunk_element_count)
    (h : MAX_LUT_ELEMENTS + 32 < (p4ndenc64 (lut_range encoder lookUpTable N i)).length) :
    om_encoder_size_of_compressed_lut MAX_LUT_ELEMENTS p4ndenc64 encoder lookUpTable N
      = none := by
  unfold om_encoder_size_of_compressed_lut
  simp only []
  split_ifs
  · rfl
  · rw [forUp_lut_size_overrun MAX_LUT_ELEMENTS
      (fun i => (p4ndenc64 (lut_range encoder lookUpTable N i)).length) i h _ _ hi]

theorem size_of_compressed_lut_core {F : Type} (MAX_LUT_ELEMENTS : Nat)
    (p4ndenc64 : List Nat → List Byte)
    (encoder : om_encoder_t F) (lookUpTable : Nat → Nat) (N : Nat)
    (hk : 1 ≤ encoder.lut_chunk_element_count)
    (hN : N + encoder.lut_chunk_element_count ≤ 18446744073709551616)
    (hint : divide_rounded_up N encoder.lut_chunk_element_count ≤ INT_MAX)
    (hbuf : ∀ i, i < divide_rounded_up N encoder.lut_chunk_element_count →
      (p4ndenc64 (lut_group encoder.lut_chunk_element_count lookUpTable N i)).length
        ≤ MAX_LUT_ELEMENTS + 32) :
    om_encoder_size_of_compressed_lut MAX_LUT_ELEMENTS p4ndenc64 encoder lookUpTable N
      = some ((divide_rounded_up N encoder.lut_chunk_element_count
          * max_group_length p4ndenc64 encoder.lut_chunk_element_count lookUpTable N
              (divide_rounded_up N encoder.lut_chunk_element_count))
          % 18446744073709551616) := by
  unfold om_encoder_size_of_compressed_lut
  simp only []
  rw [if_neg (by omega)]
  rw [forUp_congr _ _
    (fun i state => lut_size_step MAX_LUT_ELEMENTS
      (p4ndenc64 (lut_group encoder.lut_chunk_element_count lookUpTable N i)).length state)
    (some 0)
    (fun i hi t => by rw [lut_range_eq encoder lookUpTable N i hk hN hi])]
  rw [forUp_lut_size_bounded MAX_LUT_ELEMENTS
    (fun i => (p4ndenc64 (lut_group encoder.lut_chunk_element_count lookUpTable N i)).length)
    _ hbuf]
  simp only []
  rw [Nat.mul_comm]
  rfl

/-- C13. For groups of `lut_chunk_element_count ≥ 1` entries and a table of `N` entries with
`N + lut_chunk_element_count ≤ 2^64`, at most `INT_MAX` groups, every group's compressed
length at most the `MAX_LUT_ELEMENTS + 32` bytes of the local array `buffer`, and
`nLutChunks * max_i len_i < 2^64`, the function `om_encoder_size_of_compressed_lut` returns
`nLutChunks * max_i len_i`, where `nLutChunks = ⌈N / lut_chunk_element_count⌉` and `len_i` is
the length `p4ndenc64` reports for group `i`, the entries `[i * k, min((i + 1) * k, N))`. -/
theorem size_of_compressed_lut_eq {F : Type} (MAX_LUT_ELEMENTS : Nat)
    (p4ndenc64 : List Nat → List Byte)
    (encoder : om_encoder_t F) (lookUpTable : Nat → Nat) (N : Nat)
    (h : LutCall p4ndenc64 encoder lookUpTable N)
    (hbuf : ∀ i, i < divide_rounded_up N encoder.lut_chunk_element_count →
      (p4ndenc64 (lut_group encoder.lut_chunk_element_count lookUpTable N i)).length
        ≤ MAX_LUT_ELEMENTS + 32) :
    om_encoder_size_of_compressed_lut MAX_LUT_ELEMENTS p4ndenc64 encoder lookUpTable N
      = some (divide_rounded_up N encoder.lut_chunk_element_count
          * max_group_length p4ndenc64 encoder.lut_chunk_element_count lookUpTable N
              (divide_rounded_up N encoder.lut_chunk_element_count)) := by
  obtain ⟨hk, hN, hint, hfit⟩ := h
  rw [size_of_compressed_lut_core MAX_LUT_ELEMENTS p4ndenc64 encoder lookUpTable N hk hN hint
    hbuf, Nat.mod_eq_of_lt hfit]

/-- A table of 10 entries in groups of 4, with a local array of `256 + 32` bytes: three
groups of 4, 4 and 2 entries, for which the sample codec reports 5, 5 and 3 bytes, and a size
of `3 * 5`. -/
theorem size_of_compressed_lut_eq_witness :
    LutCall exP4ndenc64 exEncoder exLookUpTable 10
      ∧ (∀ i, i < divide_rounded_up 10 exEncoder.lut_chunk_element_count →
          (exP4ndenc64 (lut_group exEncoder.lut_chunk_element_count exLookUpTable 10
            i)).length ≤ 256 + 32)
      ∧ divide_rounded_up 10 exEncoder.lut_chunk_element_count = 3
      ∧ (lut_group 4 exLookUpTable 10 0).length = 4
      ∧ (lut_group 4 exLookUpTable 10 1).length = 4
      ∧ (lut_group 4 exLookUpTable 10 2).length = 2
      ∧ max_group_length exP4ndenc64 4 exLookUpTable 10 3 = 5
      ∧ om_encoder_size_of_compressed_lut 256 exP4ndenc64 exEncoder exLookUpTable 10
          = some (3 * 5) :=
  ⟨⟨by decide, by decide, by decide, by decide⟩, by decide, by decide, by decide, by decide,
    by decide, by decide,
    size_of_compressed_lut_eq 256 exP4ndenc64 exEncoder exLookUpTable 10
      ⟨by decide, by decide, by decide, by decide⟩ (by decide)⟩

/-- C13, as stated, fails outside the range the local array and the loop counter serve.
With a local array of `256 + 32` bytes, one group of 300 entries, for which the sample codec
writes 301 bytes, overruns the array; and a table of `2^31` entries in groups of 1 has `2^31`
groups, more than the `int` loop counter can count, its increment from `INT_MAX`
overflowing.  In neither call does the function have a defined result. -/
theorem size_of_compressed_lut_counterexample :
    1 ≤ exEncoderLutWide.lut_chunk_element_count
      ∧ divide_rounded_up 300 exEncoderLutWide.lut_chunk_element_count = 1
      ∧ (exP4ndenc64 (lut_group exEncoderLutWide.lut_chunk_element_count exLookUpTable 300
          0)).length = 301
      ∧ om_encoder_size_of_compressed_lut 256 exP4ndenc64 exEncoderLutWide exLookUpTable 300
          = none
      ∧ om_encoder_size_of_compressed_lut 256 exP4ndenc64 exEncoderLutWide exLookUpTable 300
          ≠ some (1 * 301)
      ∧ 1 ≤ exEncoderLutOne.lut_chunk_element_count
      ∧ divide_rounded_up 2147483648 exEncoderLutOne.lut_chunk_element_count = 2147483648
      ∧ om_encoder_size_of_compressed_lut 256 exP4ndenc64 exEncoderLutOne exLookUpTable
          2147483648 = none := by
  have hrange : (exP4ndenc64 (lut_range exEncoderLutWide exLookUpTable 300 0)).length
      = 301 := by
    unfold exP4ndenc64 lut_range
    simp only [List.length_cons, List.length_map, List.length_range]
    decide
  have hgroup : (exP4ndenc64 (lut_group exEncoderLutWide.lut_chunk_element_count
      exLookUpTable 300 0)).length = 301 := by
    unfold exP4ndenc64 lut_group
    simp only [List.length_cons, List.length_map, List.length_range]
    decide
  have hwide : om_encoder_size_of_compressed_lut 256 exP4ndenc64 exEncoderLutWide
      exLookUpTable 300 = none :=
    size_of_compressed_lut_overrun 256 exP4ndenc64 exEncoderLutWide exLookUpTable 300 0
      (by decide) (by rw [hrange]; decide)
  refine ⟨by decide, by decide, hgroup, hwide, ?_, by decide, by decide, by decide⟩
  rw [hwide]
  exact fun h => Option.noConfusion h

/-- A loop that copies byte strings to ascending, non-overlapping places leaves every string
where it was put and touches nothing else. -/
theorem forUp_copy_apply (a : Nat → Nat) (bs : Nat → List Byte) (out : Mem) (n : Nat)
    (hdisj : ∀ i i', i < i' → i' < n → a i + (bs i).length ≤ a i') :
    (∀ i, i < n → ∀ j, j < (bs i).length →
        forUp n (fun i out => copy_bytes out (a i) (fun j => (bs i).getD j 0) (bs i).length)
          out (a i + j) = (bs i).getD j 0)
      ∧ (∀ x, (∀ i, i < n → ¬ (a i ≤ x ∧ x < a i + (bs i).length)) →
        forUp n (fun i out => copy_bytes out (a i) (fun j => (bs i).getD j 0) (bs i).length)
          out x = out x) := by
  induction n with
  | zero =>
    exact ⟨fun i hi => absurd hi (Nat.not_lt_zero i), fun x _ => rfl⟩
  | succ k ih =>
    obtain ⟨ih1, ih2⟩ := ih (fun i i' h1 h2 => hdisj i i' h1 (by omega))
    constructor
    · intro i hi j hj
      rw [forUp_succ, copy_bytes_apply]
      by_cases hik : i = k
      · subst hik
        rw [if_pos ⟨by omega, by omega⟩, Nat.add_sub_cancel_left]
      · have hlt : i < k := by omega
        have := hdisj i k hlt (by omega)
        rw [if_neg (by omega)]
        exact ih1 i hlt j hj
    · intro x hx
      rw [forUp_succ, copy_bytes_apply, if_neg (hx k (by omega))]
      exact ih2 x (fun i hi => hx i (by omega))

/-- C14. For a table of `N ≥ 1` entries, `om_encoder_compress_lut` called with the total size
that `om_encoder_size_of_compressed_lut` returned writes the bytes of group `i` from byte
offset `i * L` on, `L = total_size / nLutChunks`; the byte ranges `[i * L, i * L + len_i)` of
the groups lie inside `[0, total_size)` and are pairwise disjoint, and nothing is written from
`total_size` on. -/
theorem compress_lut_layout {F : Type} (MAX_LUT_ELEMENTS : Nat)
    (p4ndenc64 : List Nat → List Byte)
    (encoder : om_encoder_t F) (lookUpTable : Nat → Nat) (N : Nat) (out : Mem)
    (total_size : Nat) (h : LutCall p4ndenc64 encoder lookUpTable N) (hN : 1 ≤ N)
    (htotal : om_encoder_size_of_compressed_lut MAX_LUT_ELEMENTS p4ndenc64 encoder
      lookUpTable N = some total_size) :
    ∃ written, om_encoder_compress_lut p4ndenc64 encoder lookUpTable N out total_size
        = some written
      ∧ (∀ i, i < divide_rounded_up N encoder.lut_chunk_element_count →
          ∀ j, j < (p4ndenc64 (lut_group encoder.lut_chunk_element_count lookUpTable N
              i)).length →
            written (i * (total_size / divide_rounded_up N encoder.lut_chunk_element_count)
                + j)
              = (p4ndenc64 (lut_group encoder.lut_chunk_element_count lookUpTable N
                  i)).getD j 0)
      ∧ (∀ i, i < divide_rounded_up N encoder.lut_chunk_element_count →
          i * (total_size / divide_rounded_up N encoder.lut_chunk_element_count)
              + (p4ndenc64 (lut_group encoder.lut_chunk_element_count lookUpTable N
                  i)).length
            ≤ total_size)
      ∧ (∀ i i', i < i' → i' < divide_rounded_up N encoder.lut_chunk_element_count →
          i * (total_size / divide_rounded_up N encoder.lut_chunk_element_count)
              + (p4ndenc64 (lut_group encoder.lut_chunk_element_count lookUpTable N
                  i)).length
            ≤ i' * (total_size / divide_rounded_up N encoder.lut_chunk_element_count))
      ∧ (∀ x, total_size ≤ x → written x = out x) := by
  obtain ⟨hk, hNk, hint, hfit⟩ := h
  have hbuf : ∀ i, i < divide_rounded_up N encoder.lut_chunk_element_count →
      (p4ndenc64 (lut_group encoder.lut_chunk_element_count lookUpTable N i)).length
        ≤ MAX_LUT_ELEMENTS + 32 := by
    intro i hi
    by_contra hover
    have hnone := size_of_compressed_lut_overrun MAX_LUT_ELEMENTS p4ndenc64 encoder
      lookUpTable N i hi (by
        rw [lut_range_eq encoder lookUpTable N i hk hNk hi]
        omega)
    rw [hnone] at htotal
    cases htotal
  have hsize := size_of_compressed_lut_core MAX_LUT_ELEMENTS p4ndenc64 encoder lookUpTable N
    hk hNk hint hbuf
  rw [Nat.mod_eq_of_lt hfit, htotal] at hsize
  have htot := Option.some.inj hsize
  have hn : 1 ≤ divide_rounded_up N encoder.lut_chunk_element_count :=
    divide_rounded_up_pos N _ hN hk
  generalize hnd : divide_rounded_up N encoder.lut_chunk_element_count = n at *
  generalize hM : max_group_length p4ndenc64 encoder.lut_chunk_element_count lookUpTable N n
    = M at *
  have hL : total_size / n = M := by
    rw [htot]
    exact Nat.mul_div_cancel_left M (by omega)
  have hlen : ∀ i, i < n →
      (p4ndenc64 (lut_group encoder.lut_chunk_element_count lookUpTable N i)).length
        ≤ M := by
    intro i hi
    rw [← hM]
    exact Finset.le_sup
      (f := fun i => (p4ndenc64 (lut_group encoder.lut_chunk_element_count lookUpTable N
        i)).length) (Finset.mem_range.mpr hi)
  have hstep : ∀ i i', i < i' → i * M + M ≤ i' * M := by
    intro i i' hii
    have := Nat.mul_le_mul_right M (show i + 1 ≤ i' from hii)
    rw [Nat.add_mul, Nat.one_mul] at this
    exact this
  have hend : ∀ i, i < n → i * M + M ≤ total_size := by
    intro i hi
    have := Nat.mul_le_mul_right M (show i + 1 ≤ n from hi)
    rw [Nat.add_mul, Nat.one_mul] at this
    rw [htot]
    exact this
  have hdisj : ∀ i i', i < i' → i' < n →
      i * M + (p4ndenc64 (lut_group encoder.lut_chunk_element_count lookUpTable N
        i)).length ≤ i' * M := by
    intro i i' hii hi'
    have := hlen i (by omega)
    have := hstep i i' hii
    omega
  obtain ⟨hc1, hc2⟩ := forUp_copy_apply (fun i => i * M)
    (fun i => p4ndenc64 (lut_group encoder.lut_chunk_element_count lookUpTable N i)) out n
    hdisj
  have hrun : om_encoder_compress_lut p4ndenc64 encoder lookUpTable N out total_size
      = some (forUp n (fun i out => copy_bytes out (i * M)
          (fun j => (p4ndenc64 (lut_group encoder.lut_chunk_element_count lookUpTable N
            i)).getD j 0)
          (p4ndenc64 (lut_group encoder.lut_chunk_element_count lookUpTable N i)).length)
          out) := by
    unfold om_encoder_compress_lut
    simp only []
    rw [hnd, if_neg (by omega), hL]
    congr 1
    apply forUp_congr
    intro i hi t
    have hi' : i < divide_rounded_up N encoder.lut_chunk_element_count := by
      rw [hnd]; exact hi
    rw [lut_range_eq encoder lookUpTable N i hk hNk hi', wrap64_of_lt]
    have := hend i hi
    omega
  refine ⟨_, hrun, ?_, ?_, ?_, ?_⟩
  · intro i hi j hj
    rw [hL]
    exact hc1 i hi j hj
  · intro i hi
    rw [hL]
    have := hlen i hi
    have := hend i hi
    omega
  · intro i i' hii hi'
    rw [hL]
    exact hdisj i i' hii hi'
  · intro x hx
    apply hc2
    intro i hi
    have := hlen i hi
    have := hend i hi
    omega

/-- The table of 10 entries in groups of 4: the size is 15, the three groups are written at
byte offsets 0, 5 and 10. -/
theorem compress_lut_layout_witness :
    LutCall exP4ndenc64 exEncoder exLookUpTable 10
      ∧ om_encoder_size_of_compressed_lut 256 exP4ndenc64 exEncoder exLookUpTable 10
          = some 15
      ∧ ∃ written, om_encoder_compress_lut exP4ndenc64 exEncoder exLookUpTable 10 exMem 15
          = some written
        ∧ written (2 * (15 / 3) + 0) = 2
        ∧ written 15 = exMem 15 := by
  have hcall : LutCall exP4ndenc64 exEncoder exLookUpTable 10 :=
    ⟨by decide, by decide, by decide, by decide⟩
  have hsize : om_encoder_size_of_compressed_lut 256 exP4ndenc64 exEncoder exLookUpTable 10
      = some 15 := by decide
  obtain ⟨written, h1, h2, _, _, h5⟩ :=
    compress_lut_layout 256 exP4ndenc64 exEncoder exLookUpTable 10 exMem 15 hcall (by decide)
      hsize
  exact ⟨hcall, hsize, written, h1, h2 2 (by decide) 0 (by decide), h5 15 (Nat.le_refl _)⟩

/-! ## Regions: the assertions and the start of reading -/

/-- C12. A call that meets the stated contract and still fails an assertion: one axis, an
encoder of extent `[4]` in one chunk of `[4]`, a source array of 6 elements with the region
`arrayOffset = [2]`, `arrayCount = [4]`, chunk 0 at chunk offset 0.  The four elements are
staged; stepping past the end of the array then gives
`q0 = ((6 mod 6) - 2) mod 2^64 mod 4 = 2`, neither 0 nor `length0 = 4`, so the loop is not
left and the next pass fails `assert(readCoordinate + i < arrayTotalCount)`, whatever the
number of iterations allowed. -/
theorem partial_region_assertion_fails (fuel : Nat) :
    1 ≤ exEncoderQuad.dimension_count
      ∧ 1 ≤ exEncoderQuad.chunks 0
      ∧ 0 < om_encoder_number_of_chunks exEncoderQuad
      ∧ 2 + 4 ≤ 6
      ∧ chunk_coordinate exEncoderQuad 0 0 * exEncoderQuad.chunks 0
          + chunk_extent exEncoderQuad 0 0 ≤ 4
      ∧ (om_encoder_stageChunk exOps exEncoderQuad (fun x => x) (fun _ => 6) (fun _ => 2)
          (fun _ => 4) 0 0 exBuffer (fuel + 2)).isAssertionFailed = true := by
  refine ⟨by decide, by decide, by decide, by decide, by decide, ?_⟩
  rfl

theorem unpack_step_read {F : Type} (encoder : om_encoder_t F)
    (arrayDimensions arrayOffset arrayCount : Nat → Nat)
    (chunkIndex chunkIndexOffsetInThisArray i : Nat) (s s1 : UnpackState)
    (h : unpack_step encoder arrayDimensions arrayOffset arrayCount chunkIndex
      chunkIndexOffsetInThisArray i s = some s1) :
    s1.rollingMultiply = wrap64 (s.rollingMultiply * chunks_along encoder i)
      ∧ s1.rollingMultiplyTargetCube
          = wrap64 (s.rollingMultiplyTargetCube * arrayDimensions i)
      ∧ s1.readCoordinate
          = wrap64 (s.readCoordinate + wrap64 (s.rollingMultiplyTargetCube
              * wrap64 (wrap64 ((chunkIndexOffsetInThisArray / s.rollingMultiply)
                  % chunks_along encoder i * encoder.chunks i) + arrayOffset i))) := by
  unfold unpack_step at h
  simp only [] at h
  split_ifs at h <;> first
    | (cases h; done)
    | (cases h; exact ⟨rfl, rfl, rfl⟩)

theorem start_index_succ {F : Type} (encoder : om_encoder_t F)
    (arrayDimensions arrayOffset o : Nat → Nat) (i : Nat) (hi : i < encoder.dimension_count) :
    start_index encoder arrayDimensions arrayOffset o i
      = stride_of arrayDimensions encoder.dimension_count (i + 1)
          * (o i * encoder.chunks i + arrayOffset i)
        + start_index encoder arrayDimensions arrayOffset o (i + 1) := by
  unfold start_index
  exact Finset.sum_eq_sum_Ico_succ_bot hi _

/-- The first `for` loop accumulates in `readCoordinate` the start index for the chunk
offset unpacked with the chunk counts of the encoder, modulo `2^64`. -/
theorem unpack_loop_read {F : Type} (encoder : om_encoder_t F)
    (arrayDimensions arrayOffset arrayCount : Nat → Nat)
    (chunkIndex chunkIndexOffsetInThisArray : Nat)
    (hn : ∀ i, i < encoder.dimension_count → 1 ≤ chunks_along encoder i)
    (hfit : stride_of (chunks_along encoder) encoder.dimension_count 0
      < 18446744073709551616) :
    ∀ k, k ≤ encoder.dimension_count → ∀ s s1 : UnpackState,
      unpack_loop encoder arrayDimensions arrayOffset arrayCount chunkIndex
        chunkIndexOffsetInThisArray k s = some s1 →
      s.rollingMultiply = stride_of (chunks_along encoder) encoder.dimension_count k →
      s.rollingMultiplyTargetCube
        = stride_of arrayDimensions encoder.dimension_count k % 18446744073709551616 →
      s.readCoordinate
        = start_index encoder arrayDimensions arrayOffset
            (chunk_coordinate encoder chunkIndexOffsetInThisArray) k
          % 18446744073709551616 →
      s1.readCoordinate
        = start_index encoder arrayDimensions arrayOffset
            (chunk_coordinate encoder chunkIndexOffsetInThisArray) 0
          % 18446744073709551616 := by
  intro k
  induction k with
  | zero =>
    intro _ s s1 h _ _ hr
    rw [unpack_loop] at h
    cases h
    exact hr
  | succ i ih =>
    intro hk s s1 h hm ht hr
    rw [unpack_loop] at h
    cases hstep : unpack_step encoder arrayDimensions arrayOffset arrayCount chunkIndex
        chunkIndexOffsetInThisArray i s with
    | none => rw [hstep] at h; cases h
    | some s2 =>
      rw [hstep] at h
      obtain ⟨e1, e2, e3⟩ := unpack_step_read encoder arrayDimensions arrayOffset arrayCount
        chunkIndex chunkIndexOffsetInThisArray i s s2 hstep
      have hi : i < encoder.dimension_count := by omega
      have hle : stride_of (chunks_along encoder) encoder.dimension_count i
          ≤ stride_of (chunks_along encoder) encoder.dimension_count 0 :=
        Nat.le_of_dvd (stride_of_pos _ _ hn 0)
          (stride_of_dvd _ _ 0 i (Nat.zero_le _) (by omega))
      apply ih (by omega) s2 s1 h
      · rw [e1, hm, stride_of_succ _ _ i hi, Nat.mul_comm]
        exact wrap64_of_lt _ (by
          rw [stride_of_succ _ _ i hi] at hle
          omega)
      · rw [e2, ht, stride_of_succ _ _ i hi, Nat.mul_comm (arrayDimensions i)]
        unfold wrap64
        exact (Nat.mod_modEq _ _).mul_right _
      · rw [e3, hm, ht, hr, start_index_succ _ _ _ _ i hi, Nat.add_comm]
        unfold wrap64
        have q1 : (chunkIndexOffsetInThisArray
              / stride_of (chunks_along encoder) encoder.dimension_count (i + 1)
              % chunks_along encoder i * encoder.chunks i) % 18446744073709551616
              + arrayOffset i
            ≡ chunk_coordinate encoder chunkIndexOffsetInThisArray i * encoder.chunks i
              + arrayOffset i [MOD 18446744073709551616] :=
          (Nat.mod_modEq _ _).add_right _
        have q2 := (Nat.mod_modEq _ 18446744073709551616).trans q1
        have q3 := (Nat.mod_modEq (stride_of arrayDimensions encoder.dimension_count (i + 1))
          18446744073709551616).mul q2
        have q4 := (Nat.mod_modEq _ 18446744073709551616).trans q3
        exact q4.add (Nat.mod_modEq _ _)

/-- Where the region has as many chunks as the encoder along every axis, both ways of
unpacking a chunk offset agree. -/
theorem region_chunk_offset_eq {F : Type} (encoder : om_encoder_t F) (arrayCount : Nat → Nat)
    (k : Nat)
    (h : ∀ i, i < encoder.dimension_count →
      divide_rounded_up (arrayCount i) (encoder.chunks i) = chunks_along encoder i)
    (i : Nat) (hi : i < encoder.dimension_count) :
    region_chunk_offset encoder arrayCount k i = chunk_coordinate encoder k i := by
  unfold region_chunk_offset chunk_coordinate stride_of
  rw [h i hi]
  congr 2
  apply Finset.prod_congr rfl
  intro j hj
  rw [Finset.mem_Ico] at hj
  exact h j hj.2

/-- The start of reading as the code computes it: `om_encoder_writeSingleChunk` unpacks
`chunkIndexOffsetInThisArray` with the chunk counts of the encoder,
`ceil(dimensions[i] / chunks[i])`, so that, whenever the entry assertions pass, reading starts
at `sum_i stride_i * (o_i * chunks[i] + arrayOffset[i])` modulo `2^64` with
`o_i = (chunkIndexOffsetInThisArray / prod_{j>i} ceil(dimensions[j] / chunks[j])) mod
ceil(dimensions[i] / chunks[i])`.  This is the index for the offset unpacked with the chunk
counts of the region only where the region has as many chunks as the encoder along every
axis. -/
theorem read_start_global {F : Type} (encoder : om_encoder_t F)
    (arrayDimensions arrayOffset arrayCount : Nat → Nat)
    (chunkIndex chunkIndexOffsetInThisArray r : Nat)
    (hdims : ∀ i, i < encoder.dimension_count → 1 ≤ encoder.dimensions i)
    (hchunks : ∀ i, i < encoder.dimension_count → 1 ≤ encoder.chunks i)
    (hfit : stride_of (chunks_along encoder) encoder.dimension_count 0
      < 18446744073709551616)
    (hrun : om_encoder_read_start encoder arrayDimensions arrayOffset arrayCount chunkIndex
      chunkIndexOffsetInThisArray = some r) :
    r = start_index encoder arrayDimensions arrayOffset
          (chunk_coordinate encoder chunkIndexOffsetInThisArray) 0 % 18446744073709551616
      ∧ ((∀ i, i < encoder.dimension_count →
            divide_rounded_up (arrayCount i) (encoder.chunks i) = chunks_along encoder i) →
          r = start_index encoder arrayDimensions arrayOffset
            (region_chunk_offset encoder arrayCount chunkIndexOffsetInThisArray) 0
              % 18446744073709551616) := by
  have hn : ∀ i, i < encoder.dimension_count → 1 ≤ chunks_along encoder i :=
    fun i hi => divide_rounded_up_pos _ _ (hdims i hi) (hchunks i hi)
  have hr : r = start_index encoder arrayDimensions arrayOffset
      (chunk_coordinate encoder chunkIndexOffsetInThisArray) 0 % 18446744073709551616 := by
    unfold om_encoder_read_start at hrun
    cases hloop : unpack_loop encoder arrayDimensions arrayOffset arrayCount chunkIndex
        chunkIndexOffsetInThisArray encoder.dimension_count
        { rollingMultiply := 1
          rollingMultiplyChunkLength := 1
          rollingMultiplyTargetCube := 1
          readCoordinate := 0
          linearReadCount := 1
          linearRead := true
          lengthLast := 0 } with
    | none => rw [hloop] at hrun; cases hrun
    | some s1 =>
      rw [hloop] at hrun
      have hs : s1.readCoordinate = r := Option.some.inj hrun
      rw [← hs]
      apply unpack_loop_read encoder arrayDimensions arrayOffset arrayCount chunkIndex
        chunkIndexOffsetInThisArray hn hfit encoder.dimension_count (Nat.le_refl _) _ s1 hloop
      · exact (stride_of_self _ _).symm
      · rw [stride_of_self]
      · unfold start_index
        rw [Finset.Ico_self, Finset.sum_empty]
        rfl
  refine ⟨hr, fun hsame => ?_⟩
  rw [hr]
  congr 1
  unfold start_index
  apply Finset.sum_congr rfl
  intro i hi
  rw [Finset.mem_Ico] at hi
  rw [region_chunk_offset_eq encoder arrayCount _ hsame i hi.2]

/-- C18. A call on which `chunkIndexOffsetInThisArray` is not unpacked with the chunk counts
of the region: the region is the left half (`4 x 2`) of a `4 x 4` array in chunks of `2 x 2`,
which holds the two chunks 0 and 2, and the call is for its second chunk, `chunkIndex = 2` at
chunk offset 1.  Unpacked with the chunk counts `(2, 1)` of the region the offset is `(1, 0)`
and reading starts at index 4, the chunk being the elements 4, 5, 6, 7 of the region.
The code unpacks the offset with the chunk counts `(2, 2)` of the encoder to `(0, 1)`, starts
reading at index 2, copies the elements 2 and 3 and reaches the compression step after this
one pass, with `writeCoordinate = 2` of `lengthInChunk = 4` and the rest of the staging
buffer untouched, for every number of iterations allowed from 2 on; the first chunk of the
region, at chunk offset 0, is staged as the elements 0, 1, 2, 3. -/
theorem region_chunk_offset_misread (fuel : Nat) :
    om_encoder_number_of_chunks exEncoderGrid = 4
      ∧ om_encoder_number_of_chunks_in_array exEncoderGrid exRegionShape = 2
      ∧ region_chunk_offset exEncoderGrid exRegionShape 1 0 = 1
      ∧ region_chunk_offset exEncoderGrid exRegionShape 1 1 = 0
      ∧ start_index exEncoderGrid exRegionShape (fun _ => 0)
          (region_chunk_offset exEncoderGrid exRegionShape 1) 0 = 4
      ∧ om_encoder_read_start exEncoderGrid exRegionShape (fun _ => 0) exRegionShape 2 1
          = some 2
      ∧ om_encoder_lengthInChunk exEncoderGrid 2 = 4
      ∧ om_encoder_stageChunk_passes exOps exEncoderGrid (fun x => x) exRegionShape
            (fun _ => 0) exRegionShape 2 1 exBuffer (fuel + 2)
          = [⟨2, 2, true⟩]
      ∧ (om_encoder_stageChunk exOps exEncoderGrid (fun x => x) exRegionShape (fun _ => 0)
            exRegionShape 2 1 exBuffer (fuel + 2)).stagedFloats
          = some [2, 3, 0, 0]
      ∧ (om_encoder_stageChunk exOps exEncoderGrid (fun x => x) exRegionShape (fun _ => 0)
            exRegionShape 0 0 exBuffer (fuel + 2)).stagedFloats
          = some [0, 1, 2, 3] := by
  refine ⟨by decide, by decide, by decide, by decide, by decide, by decide, by decide,
    ?_, ?_, ?_⟩
  · rfl
  · rfl
  · rfl

/-! ## The NaN sentinel of the integer codecs -/

/-- The conversion of the copy loops is the clamp of the rounded value. -/
theorem to_int16_clamp (r : Rounded) :
    to_int16 (fmaxf (Rounded.int INT16_MIN) (fminf (Rounded.int INT16_MAX) r)) = clamp_int16 r
      ∧ INT16_MIN ≤ clamp_int16 r ∧ clamp_int16 r ≤ INT16_MAX
      ∧ (clamp_int16 r = INT16_MAX
          ↔ r = Rounded.nan ∨ r = Rounded.pos_inf ∨ ∃ z, r = Rounded.int z ∧ INT16_MAX ≤ z) := by
  cases r with
  | nan =>
    refine ⟨rfl, by decide, by decide, ?_⟩
    exact ⟨fun _ => Or.inl rfl, fun _ => rfl⟩
  | neg_inf =>
    refine ⟨rfl, by decide, by decide, ?_⟩
    constructor
    · intro h
      exact absurd h (by decide)
    · rintro (h | h | ⟨z, h, -⟩) <;> cases h
  | pos_inf =>
    refine ⟨rfl, by decide, by decide, ?_⟩
    exact ⟨fun _ => Or.inr (Or.inl rfl), fun _ => rfl⟩
  | int z =>
    have e : to_int16 (fmaxf (Rounded.int INT16_MIN) (fminf (Rounded.int INT16_MAX)
        (Rounded.int z))) = max INT16_MIN (min INT16_MAX z) := rfl
    have hc : clamp_int16 (Rounded.int z) = max INT16_MIN (min INT16_MAX z) := rfl
    refine ⟨e.trans hc.symm, ?_, ?_, ?_⟩
    · rw [hc]
      simp only [INT16_MIN, INT16_MAX]
      omega
    · rw [hc]
      simp only [INT16_MIN, INT16_MAX]
      omega
    · rw [hc]
      simp only [INT16_MIN, INT16_MAX]
      constructor
      · intro h
        exact Or.inr (Or.inr ⟨z, rfl, by omega⟩)
      · rintro (h | h | ⟨y, h, hy⟩)
        · cases h
        · cases h
        · cases h
          omega

/-- C20. Under `P4NZDEC256` the staged value of a source element `val` is `INT16_MAX` when
`val` is a NaN and `(int16_t)fmaxf(INT16_MIN, fminf(INT16_MAX, roundf(val * scalefactor)))`
otherwise, which is the rounded product clamped to `[INT16_MIN, INT16_MAX]` (`INT16_MAX` when
the product is a NaN or `+infinity`, `INT16_MIN` when it is `-infinity`).  The staged value
always lies in `[INT16_MIN, INT16_MAX]`, and it is `INT16_MAX` exactly when `val` is a NaN, or
the product is a NaN or `+infinity`, or the rounded product is at least `INT16_MAX`. -/
theorem stage_element_p4nzdec256 {F : Type} (ops : FloatOps F) (encoder : om_encoder_t F)
    (val : F) (hc : encoder.compression = om_compression_t.COMPRESSION_P4NZDEC256) :
    stage_element ops encoder val
        = (if ops.isnan val then Staged.int16 INT16_MAX
            else Staged.int16 (to_int16 (fmaxf (Rounded.int INT16_MIN)
              (fminf (Rounded.int INT16_MAX)
                (ops.roundf (ops.mul val encoder.scalefactor))))))
      ∧ stage_element ops encoder val
        = (if ops.isnan val then Staged.int16 INT16_MAX
            else Staged.int16 (clamp_int16 (ops.roundf (ops.mul val encoder.scalefactor))))
      ∧ (∃ v, stage_element ops encoder val = Staged.int16 v
          ∧ INT16_MIN ≤ v ∧ v ≤ INT16_MAX)
      ∧ (stage_element ops encoder val = Staged.int16 INT16_MAX
          ↔ ops.isnan val = true
            ∨ ops.roundf (ops.mul val encoder.scalefactor) = Rounded.nan
            ∨ ops.roundf (ops.mul val encoder.scalefactor) = Rounded.pos_inf
            ∨ ∃ z, ops.roundf (ops.mul val encoder.scalefactor) = Rounded.int z
                ∧ INT16_MAX ≤ z) := by
  obtain ⟨e1, e2, e3, e4⟩ := to_int16_clamp (ops.roundf (ops.mul val encoder.scalefactor))
  have h : stage_element ops encoder val
      = (if ops.isnan val then Staged.int16 INT16_MAX
          else Staged.int16 (to_int16 (fmaxf (Rounded.int INT16_MIN)
            (fminf (Rounded.int INT16_MAX)
              (ops.roundf (ops.mul val encoder.scalefactor)))))) := by
    unfold stage_element
    rw [hc]
  have h2 : stage_element ops encoder val
      = (if ops.isnan val then Staged.int16 INT16_MAX
          else Staged.int16 (clamp_int16 (ops.roundf (ops.mul val encoder.scalefactor)))) := by
    rw [h, e1]
  refine ⟨h, h2, ?_, ?_⟩
  · cases hn : ops.isnan val
    · refine ⟨_, ?_, e2, e3⟩
      rw [h2, hn, if_neg (by decide)]
    · refine ⟨INT16_MAX, ?_, by decide, by decide⟩
      rw [h2, hn, if_pos rfl]
  · cases hn : ops.isnan val
    · rw [h2, hn, if_neg (by decide)]
      constructor
      · intro he
        injection he with he
        exact Or.inr (e4.mp he)
      · rintro (hf | hr)
        · cases hf
        · rw [e4.mpr hr]
    · rw [h2, hn, if_pos rfl]
      exact ⟨fun _ => Or.inl rfl, fun _ => rfl⟩

/-- The element `3.0f` at scale 1 is staged as 3, a NaN as `INT16_MAX`, and `40000.0f`, whose
rounded product is above `INT16_MAX`, as `INT16_MAX`. -/
theorem stage_element_p4nzdec256_witness :
    exEncoderInt16.compression = om_compression_t.COMPRESSION_P4NZDEC256
      ∧ stage_element exFloatOps exEncoderInt16 (some 3) = Staged.int16 3
      ∧ stage_element exFloatOps exEncoderInt16 none = Staged.int16 INT16_MAX
      ∧ stage_element exFloatOps exEncoderInt16 (some 40000) = Staged.int16 INT16_MAX :=
  ⟨rfl, (stage_element_p4nzdec256 exFloatOps exEncoderInt16 (some 3) rfl).1,
    (stage_element_p4nzdec256 exFloatOps exEncoderInt16 none rfl).2.2.2.mpr (Or.inl rfl),
    (stage_element_p4nzdec256 exFloatOps exEncoderInt16 (some 40000) rfl).2.2.2.mpr
      (Or.inr (Or.inr (Or.inr ⟨40000, rfl, by decide⟩)))⟩

/-- C20, as stated, fails for an element that saturates: `40000.0f` at scale 1 is not a NaN,
`fminf(INT16_MAX, roundf(40000.0f))` is `INT16_MAX`, and the staged value is `INT16_MAX`. -/
theorem stage_element_saturates :
    exEncoderInt16.compression = om_compression_t.COMPRESSION_P4NZDEC256
      ∧ exFloatOps.isnan (some 40000) = false
      ∧ stage_element exFloatOps exEncoderInt16 (some 40000) = Staged.int16 INT16_MAX
      ∧ ¬ (stage_element exFloatOps exEncoderInt16 (some 40000) = Staged.int16 INT16_MAX
          ↔ exFloatOps.isnan (some 40000) = true) := by
  refine ⟨rfl, rfl, rfl, ?_⟩
  intro h
  exact absurd (h.mp rfl) (by decide)

/-! ## Termination of the run loop -/

/-- The passes of the `while` loop of a full-array call, entered at the first element `l` of
a run: with enough iterations allowed the record is not empty, has at most as many passes as
elements are left, every pass copies at least one element, a pass returns exactly when its
write position is the chunk length, and one pass returns. -/
theorem run_loop_passes_full {F : Type} (ops : FloatOps F) (encoder : om_encoder_t F)
    (chunkIndex : Nat) (array : Nat → F) (h : FullArrayCall encoder) :
    ∀ (fuel : Nat) (l : Nat → Nat) (buf : Nat → Staged F),
    (∀ j, j < encoder.dimension_count → l j < chunk_extent encoder chunkIndex j) →
    (∀ j, run_axis encoder chunkIndex encoder.dimension_count ≤ j →
      j < encoder.dimension_count → l j = 0) →
    stride_of (chunk_extent encoder chunkIndex) encoder.dimension_count 0
      ≤ linear_index l (chunk_extent encoder chunkIndex) encoder.dimension_count 0 + fuel →
    ∃ ps, run_loop_passes ops encoder array encoder.dimensions (fun _ => 0) encoder.dimensions
          (stride_of encoder.dimensions encoder.dimension_count 0)
          (stride_of (chunk_extent encoder chunkIndex) encoder.dimension_count 0)
          fuel
          (linear_index (global_coordinate encoder chunkIndex l) encoder.dimensions
            encoder.dimension_count 0)
          (linear_index l (chunk_extent encoder chunkIndex) encoder.dimension_count 0)
          (run_fold encoder chunkIndex encoder.dimension_count).1 buf
        = ps
      ∧ ps.length + linear_index l (chunk_extent encoder chunkIndex) encoder.dimension_count 0
          ≤ stride_of (chunk_extent encoder chunkIndex) encoder.dimension_count 0
      ∧ (∀ p, p ∈ ps → 1 ≤ p.copied
          ∧ (p.returned = true ↔ p.writeCoordinate
              = stride_of (chunk_extent encoder chunkIndex) encoder.dimension_count 0))
      ∧ (∃ p, p ∈ ps ∧ p.returned = true) := by
  have hD := h.1
  obtain ⟨-, hpD, hR, hfull, -⟩ :=
    run_fold_spec encoder chunkIndex h encoder.dimension_count hD (le_refl _)
  have hS0 := stride_dims_lt encoder h 0
  have hL0 := stride_extent_le encoder chunkIndex h 0
  have hRpos := stride_of_pos (chunk_extent encoder chunkIndex) encoder.dimension_count
    (extent_pos encoder chunkIndex h) (run_axis encoder chunkIndex encoder.dimension_count)
  intro fuel
  induction fuel with
  | zero =>
    intro l buf hl _ hfuel
    have := linear_index_lt l (chunk_extent encoder chunkIndex) encoder.dimension_count
      encoder.dimension_count 0 (by omega) (fun j _ hj => hl j hj)
    omega
  | succ f ih =>
    intro l buf hl hzero hfuel
    have hllt := linear_index_lt l (chunk_extent encoder chunkIndex) encoder.dimension_count
      encoder.dimension_count 0 (by omega) (fun j _ hj => hl j hj)
    have hlastv := run_last_valid encoder chunkIndex h
      (run_axis encoder chunkIndex encoder.dimension_count) l hl
    obtain ⟨hlast1, hlast2⟩ := run_last_index encoder chunkIndex h
      (run_axis encoder chunkIndex encoder.dimension_count) (by omega) hfull l hl hzero
    have hlastlt := linear_index_lt
      (run_last encoder chunkIndex (run_axis encoder chunkIndex encoder.dimension_count) l)
      (chunk_extent encoder chunkIndex) encoder.dimension_count
      encoder.dimension_count 0 (by omega) (fun j _ hj => hlastv j hj)
    have hlastlt2 := linear_index_lt
      (global_coordinate encoder chunkIndex
        (run_last encoder chunkIndex (run_axis encoder chunkIndex encoder.dimension_count) l))
      encoder.dimensions encoder.dimension_count
      encoder.dimension_count 0 (by omega)
      (fun j _ hj => global_coordinate_lt encoder chunkIndex h _ hlastv j hj)
    obtain ⟨buf1, hcopy, -⟩ := copy_run_ok ops encoder array
      (stride_of encoder.dimensions encoder.dimension_count 0)
      (stride_of (chunk_extent encoder chunkIndex) encoder.dimension_count 0)
      (linear_index (global_coordinate encoder chunkIndex l) encoder.dimensions
        encoder.dimension_count 0)
      (linear_index l (chunk_extent encoder chunkIndex) encoder.dimension_count 0)
      buf (by omega) (by omega) (run_fold encoder chunkIndex encoder.dimension_count).1
      (by rw [hR]; omega) (by rw [hR]; omega)
    have hsub : sub64 (run_fold encoder chunkIndex encoder.dimension_count).1 1
        = (run_fold encoder chunkIndex encoder.dimension_count).1 - 1 :=
      sub64_of_le _ _ (by rw [hR]; omega) (by rw [hR]; omega)
    have hread : wrap64 (linear_index (global_coordinate encoder chunkIndex l)
          encoder.dimensions encoder.dimension_count 0
          + sub64 (run_fold encoder chunkIndex encoder.dimension_count).1 1)
        = reset_position encoder chunkIndex
            (run_last encoder chunkIndex
              (run_axis encoder chunkIndex encoder.dimension_count) l)
            encoder.dimension_count := by
      rw [hsub, reset_position_all, wrap64_of_lt _ (by rw [hR]; omega), hR]
      omega
    have hwrite : wrap64 (wrap64 (linear_index l (chunk_extent encoder chunkIndex)
          encoder.dimension_count 0
          + sub64 (run_fold encoder chunkIndex encoder.dimension_count).1 1) + 1)
        = linear_index l (chunk_extent encoder chunkIndex) encoder.dimension_count 0
          + (run_fold encoder chunkIndex encoder.dimension_count).1 := by
      rw [hsub, wrap64_of_lt (linear_index l (chunk_extent encoder chunkIndex)
          encoder.dimension_count 0
          + ((run_fold encoder chunkIndex encoder.dimension_count).1 - 1))
        (by rw [hR]; omega), wrap64_of_lt _ (by rw [hR]; omega), hR]
      omega
    have hone : (1 : Nat) = stride_of encoder.dimensions encoder.dimension_count
        encoder.dimension_count := (stride_of_self _ _).symm
    have hrun0 : run_fold encoder chunkIndex
        (encoder.dimension_count - encoder.dimension_count) = (1, true) := by
      rw [Nat.sub_self]; rfl
    have hnext := next_run_full encoder chunkIndex h
      (run_last encoder chunkIndex (run_axis encoder chunkIndex encoder.dimension_count) l)
      hlastv encoder.dimension_count hD (le_refl _)
    rw [hrun0, ← hone] at hnext
    rw [run_loop_passes, hcopy]
    simp only [hread, hwrite]
    rw [hnext]
    cases hca : carry_axis encoder chunkIndex
        (run_last encoder chunkIndex (run_axis encoder chunkIndex encoder.dimension_count) l)
        encoder.dimension_count with
    | none =>
      have hnone := carry_axis_none encoder chunkIndex _ _ hca
      have hmaxall : ∀ m, m < encoder.dimension_count →
          run_last encoder chunkIndex (run_axis encoder chunkIndex encoder.dimension_count) l m
            + 1 = chunk_extent encoder chunkIndex m := by
        intro m hm
        have := hnone m hm
        have := hlastv m hm
        omega
      have hend := linear_index_max _ (chunk_extent encoder chunkIndex) encoder.dimension_count
        encoder.dimension_count 0 (by omega) (fun m _ hm => hmaxall m hm)
      have hw : linear_index l (chunk_extent encoder chunkIndex) encoder.dimension_count 0
          + (run_fold encoder chunkIndex encoder.dimension_count).1
          = stride_of (chunk_extent encoder chunkIndex) encoder.dimension_count 0 := by
        rw [hR]; omega
      refine ⟨_, rfl, ?_, ?_, ⟨_, List.mem_singleton.mpr rfl, rfl⟩⟩
      · show 1 + _ ≤ _
        omega
      · intro p hp
        rw [List.mem_singleton] at hp
        subst hp
        refine ⟨?_, ?_⟩
        · show 1 ≤ (run_fold encoder chunkIndex encoder.dimension_count).1
          rw [hR]; omega
        · exact ⟨fun _ => hw, fun _ => rfl⟩
    | some j =>
      obtain ⟨hjD, hjc, hjmax⟩ := carry_axis_some encoder chunkIndex _ _ _ hca
      have hjp : j < run_axis encoder chunkIndex encoder.dimension_count := by
        by_contra hcon
        have := extent_pos encoder chunkIndex h j hjD
        unfold run_last at hjc
        rw [if_pos (by omega)] at hjc
        omega
      have hmaxlast : ∀ m, j < m → m < encoder.dimension_count →
          run_last encoder chunkIndex (run_axis encoder chunkIndex encoder.dimension_count) l m
            + 1 = chunk_extent encoder chunkIndex m := by
        intro m hm1 hm2
        have := hjmax m hm1 hm2
        have := hlastv m hm2
        omega
      obtain ⟨hadv1, hadv2⟩ := advance_index encoder chunkIndex _ j hjD hmaxlast
      have hbreak := run_fold_at_break encoder chunkIndex h j hjp
      have hadvv := advance_valid encoder chunkIndex h _ j hlastv hjc
      have hadvlt := linear_index_lt
        (advance j (run_last encoder chunkIndex
          (run_axis encoder chunkIndex encoder.dimension_count) l))
        (chunk_extent encoder chunkIndex) encoder.dimension_count
        encoder.dimension_count 0 (by omega) (fun m _ hm => hadvv m hm)
      have hw2 : linear_index l (chunk_extent encoder chunkIndex) encoder.dimension_count 0
          + (run_fold encoder chunkIndex encoder.dimension_count).1
          = linear_index (advance j (run_last encoder chunkIndex
              (run_axis encoder chunkIndex encoder.dimension_count) l))
              (chunk_extent encoder chunkIndex) encoder.dimension_count 0 := by
        rw [hadv1, hR]; omega
      obtain ⟨ps, hps, hlen, hall, hex⟩ := ih
        (advance j (run_last encoder chunkIndex
          (run_axis encoder chunkIndex encoder.dimension_count) l)) buf1 hadvv
        (by
          intro m hm1 hm2
          unfold advance
          rw [if_neg (by omega), if_neg (by omega)])
        (by rw [hadv1]; omega)
      simp only
      rw [← hadv2, hbreak, hw2, hps]
      refine ⟨_, rfl, ?_, ?_, ?_⟩
      · rw [List.length_cons]
        omega
      · intro p hp
        rw [List.mem_cons] at hp
        rcases hp with hp | hp
        · subst hp
          refine ⟨?_, ?_⟩
          · show 1 ≤ (run_fold encoder chunkIndex encoder.dimension_count).1
            rw [hR]; omega
          · constructor
            · intro hc; cases hc
            · intro hc
              have hc' : linear_index (advance j (run_last encoder chunkIndex
                  (run_axis encoder chunkIndex encoder.dimension_count) l))
                  (chunk_extent encoder chunkIndex) encoder.dimension_count 0
                  = stride_of (chunk_extent encoder chunkIndex) encoder.dimension_count 0 :=
                hc
              omega
        · exact hall p hp
      · obtain ⟨p, hp, hret⟩ := hex
        exact ⟨p, List.mem_cons_of_mem _ hp, hret⟩

/-- C19. The `while` loop of a full-array call of `om_encoder_writeSingleChunk` is left, by
the `return` at axis 0, after at most `lengthInChunk` passes: given at least `lengthInChunk`
iterations, the record of passes has between 1 and `lengthInChunk` entries, every pass copies
at least one element, a pass ends at the `return` (the compression step) exactly when its
`writeCoordinate` equals `lengthInChunk`, one pass does so, and the call reaches the
compression step. -/
theorem run_loop_terminates {F : Type} (ops : FloatOps F) (encoder : om_encoder_t F)
    (array : Nat → F) (chunkIndex : Nat) (chunkBuffer : Nat → Staged F) (fuel : Nat)
    (hD : 1 ≤ encoder.dimension_count)
    (hdims : ∀ i, i < encoder.dimension_count → 1 ≤ encoder.dimensions i)
    (hchunks : ∀ i, i < encoder.dimension_count →
      1 ≤ encoder.chunks i ∧ encoder.chunks i < 18446744073709551616)
    (hfit : 4 * (∏ i in Finset.range encoder.dimension_count, encoder.dimensions i)
      < 18446744073709551616)
    (hfuel : chunk_length encoder chunkIndex ≤ fuel) :
    1 ≤ (om_encoder_stageChunk_passes ops encoder array encoder.dimensions (fun _ => 0)
          encoder.dimensions chunkIndex chunkIndex chunkBuffer fuel).length
      ∧ (om_encoder_stageChunk_passes ops encoder array encoder.dimensions (fun _ => 0)
          encoder.dimensions chunkIndex chunkIndex chunkBuffer fuel).length
        ≤ chunk_length encoder chunkIndex
      ∧ (∀ p, p ∈ om_encoder_stageChunk_passes ops encoder array encoder.dimensions
            (fun _ => 0) encoder.dimensions chunkIndex chunkIndex chunkBuffer fuel →
          1 ≤ p.copied
            ∧ (p.returned = true ↔ p.writeCoordinate = chunk_length encoder chunkIndex))
      ∧ (∃ p, p ∈ om_encoder_stageChunk_passes ops encoder array encoder.dimensions
            (fun _ => 0) encoder.dimensions chunkIndex chunkIndex chunkBuffer fuel
          ∧ p.returned = true)
      ∧ (∃ st, om_encoder_stageChunk ops encoder array encoder.dimensions (fun _ => 0)
            encoder.dimensions chunkIndex chunkIndex chunkBuffer fuel = ChunkResult.ok st
          ∧ st.writeCoordinate = chunk_length encoder chunkIndex) := by
  have h : FullArrayCall encoder := ⟨hD, hdims, hchunks, hfit⟩
  rw [chunk_length_eq] at hfuel ⊢
  have htotal : forUp encoder.dimension_count (fun i n => wrap64 (n * encoder.dimensions i)) 1
      = stride_of encoder.dimensions encoder.dimension_count 0 := by
    rw [forUp_mul_wrap64, total_eq, Nat.mod_eq_of_lt (by
      have := stride_dims_lt encoder h 0
      omega)]
  have hunpack := unpack_loop_full encoder chunkIndex h encoder.dimension_count (le_refl _)
  rw [unpacked_init] at hunpack
  have hzero_lin : linear_index (fun _ => 0) (chunk_extent encoder chunkIndex)
      encoder.dimension_count 0 = 0 :=
    linear_index_zero _ _ _ _ (fun _ _ _ => rfl)
  have hzero_pos : linear_index (global_coordinate encoder chunkIndex (fun _ => 0))
      encoder.dimensions encoder.dimension_count 0
      = linear_index (chunk_origin encoder chunkIndex) encoder.dimensions
          encoder.dimension_count 0 :=
    linear_index_congr _ _ _ _ _ (fun j _ _ => by unfold global_coordinate; rfl)
  obtain ⟨ps, hps, hlen, hall, hex⟩ := run_loop_passes_full ops encoder chunkIndex array h
    fuel (fun _ => 0) chunkBuffer
    (fun j hj => extent_pos encoder chunkIndex h j hj)
    (fun _ _ _ => rfl)
    (by rw [hzero_lin]; omega)
  rw [hzero_lin, hzero_pos] at hps
  rw [hzero_lin] at hlen
  have hpasses : om_encoder_stageChunk_passes ops encoder array encoder.dimensions
      (fun _ => 0) encoder.dimensions chunkIndex chunkIndex chunkBuffer fuel = ps := by
    unfold om_encoder_stageChunk_passes
    simp only [htotal, hunpack]
    simp only [unpacked, Nat.sub_zero]
    exact hps
  obtain ⟨st, hst, hw, -⟩ :=
    stageChunk_full ops encoder array chunkIndex chunkBuffer fuel h hfuel
  rw [hpasses]
  refine ⟨?_, by omega, hall, hex, st, hst, hw⟩
  obtain ⟨p, hp, -⟩ := hex
  exact List.length_pos_of_mem hp

/-- The first chunk of the sample encoder, `2 x 2` elements of a `5 x 5` array: two passes
of two elements each, the second of which returns. -/
theorem run_loop_terminates_witness :
    chunk_length exEncoder 0 = 4
      ∧ om_encoder_stageChunk_passes exOps exEncoder (fun x => x) exEncoder.dimensions
          (fun _ => 0) exEncoder.dimensions 0 0 exBuffer 4
        = [⟨2, 2, false⟩, ⟨2, 4, true⟩]
      ∧ (om_encoder_stageChunk_passes exOps exEncoder (fun x => x) exEncoder.dimensions
          (fun _ => 0) exEncoder.dimensions 0 0 exBuffer 4).length
        ≤ chunk_length exEncoder 0 :=
  ⟨by decide, by decide,
    (run_loop_terminates exOps exEncoder (fun x => x) 0 exBuffer 4 (by decide) (by decide)
      (by decide) (by decide) (by decide)).2.1⟩

/-! ## The shape of a chunk -/

/-- Where `(c + 1) * ch` stays within `uint64_t` the subtraction does not wrap and the extent
is the exact one. -/
theorem length0_exact (d ch c : Nat) (hd64 : d < 18446744073709551616)
    (hch : 1 ≤ ch) (hc : c < divide_rounded_up d ch)
    (hfit : (c + 1) * ch < 18446744073709551616) :
    wrap64 (wrap64 (c + 1) * ch) = (c + 1) * ch
      ∧ wrap64 (c * ch) = c * ch
      ∧ c * ch < min ((c + 1) * ch) d
      ∧ sub64 (min (wrap64 (wrap64 (c + 1) * ch)) d) (wrap64 (c * ch))
          = min ((c + 1) * ch) d - c * ch := by
  obtain ⟨h1, h2, h3, -, -, -⟩ := axis_facts d ch c hch hc
  have hc1 : wrap64 (c + 1) = c + 1 := by
    apply wrap64_of_lt
    have : c ≤ c * ch := Nat.le_mul_of_pos_right c hch
    omega
  rw [hc1, wrap64_of_lt _ hfit, wrap64_of_lt (c * ch) (by omega)]
  refine ⟨rfl, rfl, by omega, ?_⟩
  rw [sub64_of_le _ _ (by omega) (by omega)]

/-- The first `for` loop leaves the shape variables in their closed form, all products
reduced to 64 bits. -/
theorem shape_loop_eq {F : Type} (encoder : om_encoder_t F) (chunkIndex : Nat) :
    ∀ k, k ≤ encoder.dimension_count →
      shape_loop encoder chunkIndex k (shape_at encoder chunkIndex k)
        = shape_at encoder chunkIndex 0 := by
  intro k
  induction k with
  | zero => intro _; rfl
  | succ i ih =>
    intro hk
    have hi : i < encoder.dimension_count := by omega
    rw [shape_loop]
    have hstep : shape_step encoder chunkIndex i (shape_at encoder chunkIndex (i + 1))
        = shape_at encoder chunkIndex i := by
      unfold shape_step shape_at
      simp only []
      have e1 : wrap64 (stride_of (chunks_along encoder) encoder.dimension_count (i + 1)
            % 18446744073709551616
            * divide_rounded_up (encoder.dimensions i) (encoder.chunks i))
          = stride_of (chunks_along encoder) encoder.dimension_count i
            % 18446744073709551616 := by
        rw [stride_of_succ _ _ i hi, Nat.mul_comm (chunks_along encoder i)]
        unfold wrap64
        exact (Nat.mod_modEq _ _).mul_right _
      have e2 : wrap64 (stride_of (axis_length encoder chunkIndex) encoder.dimension_count
            (i + 1) % 18446744073709551616
            * om_encoder_length0 encoder chunkIndex
                (stride_of (chunks_along encoder) encoder.dimension_count (i + 1)
                  % 18446744073709551616) i)
          = stride_of (axis_length encoder chunkIndex) encoder.dimension_count i
            % 18446744073709551616 := by
        rw [stride_of_succ (axis_length encoder chunkIndex) _ i hi,
          Nat.mul_comm (axis_length encoder chunkIndex i)]
        unfold wrap64
        exact (Nat.mod_modEq _ _).mul_right _
      rw [e1, e2]
      congr 1
      by_cases hlast : i + 1 = encoder.dimension_count
      · rw [if_pos hlast, if_pos hi]
        have : encoder.dimension_count - 1 = i := by omega
        rw [this]
        rfl
      · rw [if_neg hlast, if_pos hi, if_pos (by omega)]
    rw [hstep]
    exact ih (by omega)

theorem chunk_shape_eq {F : Type} (encoder : om_encoder_t F) (chunkIndex : Nat) :
    om_encoder_chunk_shape encoder chunkIndex = shape_at encoder chunkIndex 0 := by
  have h := shape_loop_eq encoder chunkIndex encoder.dimension_count (Nat.le_refl _)
  have hinit : shape_at encoder chunkIndex encoder.dimension_count
      = { rollingMultiply := 1, rollingMultiplyChunkLength := 1, lengthLast := 0 } := by
    unfold shape_at
    rw [stride_of_self, stride_of_self, if_neg (Nat.lt_irrefl _)]
  rw [hinit] at h
  exact h

theorem sum_range_mul (g : Nat → Nat) (S : Nat) : ∀ m,
    ∑ x in Finset.range (m * S), g x
      = ∑ q in Finset.range m, ∑ r in Finset.range S, g (q * S + r) := by
  intro m
  induction m with
  | zero => simp
  | succ k ih =>
    rw [Nat.succ_mul, Finset.sum_range_add, ih, Finset.sum_range_succ]

/-- The extents of the chunks along one axis add up to the extent of the axis. -/
theorem axis_extent_sum (d ch : Nat) (hch : 1 ≤ ch) :
    ∑ c in Finset.range (divide_rounded_up d ch), (min ((c + 1) * ch) d - c * ch) = d := by
  have hpart : ∀ m, ∑ c in Finset.range m, (min ((c + 1) * ch) d - c * ch)
      = min (m * ch) d := by
    intro m
    induction m with
    | zero => simp
    | succ k ih =>
      rw [Finset.sum_range_succ, ih, Nat.add_mul, Nat.one_mul]
      omega
  rw [hpart]
  have h1 := Nat.div_add_mod (d + ch - 1) ch
  have h2 := Nat.mod_lt (d + ch - 1) (show 0 < ch from hch)
  unfold divide_rounded_up
  rw [Nat.mul_comm]
  generalize ch * ((d + ch - 1) / ch) = X at *
  omega

/-- The digits of `q * S + r` behind a leading digit `q` are those of `r`. -/
theorem digit_behind (n : Nat → Nat) (D k i q r : Nat)
    (hn : ∀ j, j < D → 1 ≤ n j) (hk : k ≤ i) (hi : i < D) :
    ((q * stride_of n D k + r) / stride_of n D (i + 1)) % n i
      = (r / stride_of n D (i + 1)) % n i := by
  obtain ⟨M, hM⟩ := stride_of_dvd n D k i hk (Nat.le_of_lt hi)
  have hpos := stride_of_pos n D hn (i + 1)
  rw [hM, stride_of_succ n D i hi]
  have e : q * (n i * stride_of n D (i + 1) * M) + r
      = r + (q * M * n i) * stride_of n D (i + 1) := by ring
  rw [e, Nat.add_mul_div_right _ _ hpos, Nat.add_mul_mod_self_right]

/-- The leading digit of `q * S + r`, for `r < S` and `q` below the radix, is `q`. -/
theorem digit_leading (n : Nat → Nat) (D k q r : Nat)
    (hr : r < stride_of n D (k + 1)) (hq : q < n k) :
    ((q * stride_of n D (k + 1) + r) / stride_of n D (k + 1)) % n k = q := by
  rw [mul_add_div_of_lt q _ r hr, Nat.mod_eq_of_lt hq]

/-- Summing a product of per-axis terms over all linear indices of a mixed-radix grid gives
the product of the per-axis sums. -/
theorem mixed_radix_sum (n : Nat → Nat) (f : Nat → Nat → Nat) (D : Nat)
    (hn : ∀ j, j < D → 1 ≤ n j) : ∀ j, j ≤ D →
    ∑ x in Finset.range (stride_of n D (D - j)),
        ∏ i in Finset.Ico (D - j) D, f i ((x / stride_of n D (i + 1)) % n i)
      = ∏ i in Finset.Ico (D - j) D, ∑ c in Finset.range (n i), f i c := by
  intro j
  induction j with
  | zero =>
    intro _
    simp [stride_of_self]
  | succ m ih =>
    intro hm
    have hk : D - (m + 1) < D := by omega
    have hk1 : D - m = D - (m + 1) + 1 := by omega
    have ih1 := ih (by omega)
    rw [hk1] at ih1
    generalize D - (m + 1) = k at *
    rw [stride_of_succ n D k hk, sum_range_mul, Finset.prod_eq_prod_Ico_succ_bot hk,
      Finset.sum_mul]
    apply Finset.sum_congr rfl
    intro q hq
    rw [Finset.mem_range] at hq
    rw [← ih1, Finset.mul_sum]
    apply Finset.sum_congr rfl
    intro r hr
    rw [Finset.mem_range] at hr
    rw [Finset.prod_eq_prod_Ico_succ_bot hk, digit_leading n D k q r hr hq]
    congr 1
    apply Finset.prod_congr rfl
    intro i hi
    rw [Finset.mem_Ico] at hi
    rw [digit_behind n D (k + 1) i q r hn hi.1 hi.2]

/-- The digits of a linear index, weighted by their strides, give the index back. -/
theorem digits_index (n : Nat → Nat) (D x : Nat) : ∀ j, j ≤ D →
    linear_index (fun i => (x / stride_of n D (i + 1)) % n i) n D (D - j)
      = x % stride_of n D (D - j) := by
  intro j
  induction j with
  | zero =>
    intro _
    rw [Nat.sub_zero, linear_index_self, stride_of_self, Nat.mod_one]
  | succ m ih =>
    intro hm
    have hk : D - (m + 1) < D := by omega
    have hk1 : D - m = D - (m + 1) + 1 := by omega
    have ih1 := ih (by omega)
    rw [hk1] at ih1
    generalize D - (m + 1) = k at *
    rw [linear_index_succ _ _ _ _ hk, ih1, stride_of_succ n D k hk,
      Nat.mul_comm (n k), Nat.mod_mul, Nat.mul_comm (stride_of n D (k + 1)), Nat.add_comm]

/-- Two linear indices of the grid with the same digits are equal. -/
theorem digits_injective (n : Nat → Nat) (D a b : Nat)
    (ha : a < stride_of n D 0) (hb : b < stride_of n D 0)
    (h : ∀ i, i < D → (a / stride_of n D (i + 1)) % n i = (b / stride_of n D (i + 1)) % n i) :
    a = b := by
  have e1 := digits_index n D a D (Nat.le_refl _)
  have e2 := digits_index n D b D (Nat.le_refl _)
  rw [Nat.sub_self, Nat.mod_eq_of_lt ha] at e1
  rw [Nat.sub_self, Nat.mod_eq_of_lt hb] at e2
  rw [← e1, ← e2]
  exact linear_index_congr _ _ _ _ _ (fun i _ hi => h i hi)

/-- Where the array and its per-axis padding to whole chunks stay within `uint64_t`, the
products of chunk counts do not wrap. -/
theorem grid_stride_lt {F : Type} (encoder : om_encoder_t F)
    (hdims : ∀ i, i < encoder.dimension_count → 1 ≤ encoder.dimensions i)
    (hchunks : ∀ i, i < encoder.dimension_count → 1 ≤ encoder.chunks i)
    (hfit : (∏ i in Finset.range encoder.dimension_count, encoder.dimensions i)
      < 18446744073709551616) (k : Nat) (hk : k ≤ encoder.dimension_count) :
    stride_of (chunks_along encoder) encoder.dimension_count k < 18446744073709551616 := by
  have h1 : stride_of (chunks_along encoder) encoder.dimension_count k
      ≤ stride_of (chunks_along encoder) encoder.dimension_count 0 :=
    stride_of_le_of_le _ _
      (fun j hj => divide_rounded_up_pos _ _ (hdims j hj) (hchunks j hj)) 0 k (Nat.zero_le _) hk
  have h2 : stride_of (chunks_along encoder) encoder.dimension_count 0
      ≤ stride_of encoder.dimensions encoder.dimension_count 0 :=
    stride_of_mono _ _ _ _
      (fun j _ hj => divide_rounded_up_le _ _ (hdims j hj) (hchunks j hj))
  rw [total_eq] at hfit
  omega

theorem axis_coordinate_eq {F : Type} (encoder : om_encoder_t F) (chunkIndex : Nat)
    (hdims : ∀ i, i < encoder.dimension_count → 1 ≤ encoder.dimensions i)
    (hchunks : ∀ i, i < encoder.dimension_count → 1 ≤ encoder.chunks i)
    (hfit : (∏ i in Finset.range encoder.dimension_count, encoder.dimensions i)
      < 18446744073709551616) (i : Nat) (hi : i < encoder.dimension_count) :
    axis_coordinate encoder chunkIndex i = chunk_coordinate encoder chunkIndex i := by
  unfold axis_coordinate om_encoder_c0 chunk_coordinate
  rw [Nat.mod_eq_of_lt (grid_stride_lt encoder hdims hchunks hfit (i + 1) hi)]
  rfl

theorem axis_length_eq {F : Type} (encoder : om_encoder_t F) (chunkIndex : Nat)
    (hdims : ∀ i, i < encoder.dimension_count → 1 ≤ encoder.dimensions i)
    (hchunks : ∀ i, i < encoder.dimension_count → 1 ≤ encoder.chunks i)
    (hpad : ∀ i, i < encoder.dimension_count →
      chunks_along encoder i * encoder.chunks i < 18446744073709551616)
    (hfit : (∏ i in Finset.range encoder.dimension_count, encoder.dimensions i)
      < 18446744073709551616) (i : Nat) (hi : i < encoder.dimension_count) :
    axis_length encoder chunkIndex i = chunk_extent encoder chunkIndex i
      ∧ chunk_extent encoder chunkIndex i ≤ encoder.dimensions i := by
  have hn := divide_rounded_up_pos _ _ (hdims i hi) (hchunks i hi)
  have hc : chunk_coordinate encoder chunkIndex i
      < divide_rounded_up (encoder.dimensions i) (encoder.chunks i) := Nat.mod_lt _ hn
  have hmul : (chunk_coordinate encoder chunkIndex i + 1) * encoder.chunks i
      ≤ chunks_along encoder i * encoder.chunks i := Nat.mul_le_mul_right _ hc
  obtain ⟨a1, -, -, -, a5, -⟩ := axis_facts (encoder.dimensions i) (encoder.chunks i)
    (chunk_coordinate encoder chunkIndex i) (hchunks i hi) hc
  have hd64 : encoder.dimensions i < 18446744073709551616 := by
    have := hpad i hi
    have := Nat.mul_le_mul_right (encoder.chunks i) (Nat.succ_le_of_lt hc)
    have e : (chunk_coordinate encoder chunkIndex i).succ * encoder.chunks i
        = chunk_coordinate encoder chunkIndex i * encoder.chunks i + encoder.chunks i :=
      Nat.succ_mul _ _
    have h5 := Nat.div_add_mod (encoder.dimensions i + encoder.chunks i - 1) (encoder.chunks i)
    have h6 := Nat.mod_lt (encoder.dimensions i + encoder.chunks i - 1)
      (show 0 < encoder.chunks i from hchunks i hi)
    have h7 : chunks_along encoder i * encoder.chunks i
        = encoder.chunks i
          * ((encoder.dimensions i + encoder.chunks i - 1) / encoder.chunks i) :=
      Nat.mul_comm _ _
    omega
  obtain ⟨-, -, -, e2⟩ := length0_exact (encoder.dimensions i) (encoder.chunks i)
    (chunk_coordinate encoder chunkIndex i) hd64 (hchunks i hi) hc
    (by have := hpad i hi; omega)
  constructor
  · unfold axis_length om_encoder_length0
    rw [Nat.mod_eq_of_lt (grid_stride_lt encoder hdims hchunks hfit (i + 1) hi)]
    exact e2
  · show min _ _ - _ ≤ _
    omega

/-- C22. For an encoder with `dimensions[i] >= 1` and `chunks[i] >= 1` whose array and whose
per-axis padding to whole chunks stay within `uint64_t` (`prod_i dimensions[i] < 2^64` and
`ceil(dimensions[i] / chunks[i]) * chunks[i] < 2^64` on every axis):
`om_encoder_number_of_chunks` is the product of the per-axis chunk counts, the sum over all
chunk indices below it of the `lengthInChunk` that `om_encoder_writeSingleChunk` computes is
`prod_i dimensions[i]`, and two chunk indices below it that unpack to the same chunk
coordinates `(c_0, ..., c_{D-1})` are equal. -/
theorem chunks_partition {F : Type} (encoder : om_encoder_t F)
    (hdims : ∀ i, i < encoder.dimension_count → 1 ≤ encoder.dimensions i)
    (hchunks : ∀ i, i < encoder.dimension_count → 1 ≤ encoder.chunks i)
    (hpad : ∀ i, i < encoder.dimension_count →
      chunks_along encoder i * encoder.chunks i < 18446744073709551616)
    (hfit : (∏ i in Finset.range encoder.dimension_count, encoder.dimensions i)
      < 18446744073709551616) :
    om_encoder_number_of_chunks encoder
        = ∏ i in Finset.range encoder.dimension_count, chunks_along encoder i
      ∧ ∑ chunkIndex in Finset.range (om_encoder_number_of_chunks encoder),
          om_encoder_lengthInChunk encoder chunkIndex
        = ∏ i in Finset.range encoder.dimension_count, encoder.dimensions i
      ∧ (∀ a b, a < om_encoder_number_of_chunks encoder →
          b < om_encoder_number_of_chunks encoder →
          (∀ i, i < encoder.dimension_count →
            axis_coordinate encoder a i = axis_coordinate encoder b i) →
          a = b) := by
  have hn : ∀ j, j < encoder.dimension_count → 1 ≤ chunks_along encoder j :=
    fun j hj => divide_rounded_up_pos _ _ (hdims j hj) (hchunks j hj)
  have hcount : om_encoder_number_of_chunks encoder
      = stride_of (chunks_along encoder) encoder.dimension_count 0 := by
    unfold om_encoder_number_of_chunks
    rw [forUp_mul_wrap64]
    have e : (∏ i in Finset.range encoder.dimension_count,
          divide_rounded_up (encoder.dimensions i) (encoder.chunks i))
        = stride_of (chunks_along encoder) encoder.dimension_count 0 := by
      unfold stride_of
      rw [Finset.range_eq_Ico]
      rfl
    rw [e]
    exact Nat.mod_eq_of_lt
      (grid_stride_lt encoder hdims hchunks hfit 0 (Nat.zero_le _))
  have hlen : ∀ x, om_encoder_lengthInChunk encoder x
      = ∏ i in Finset.Ico (encoder.dimension_count - encoder.dimension_count)
          encoder.dimension_count,
          (fun i c => min ((c + 1) * encoder.chunks i) (encoder.dimensions i)
              - c * encoder.chunks i) i
            ((x / stride_of (chunks_along encoder) encoder.dimension_count (i + 1))
              % chunks_along encoder i) := by
    intro x
    have h1 : om_encoder_lengthInChunk encoder x
        = stride_of (axis_length encoder x) encoder.dimension_count 0
          % 18446744073709551616 := by
      unfold om_encoder_lengthInChunk
      rw [chunk_shape_eq]
      rfl
    have h2 : stride_of (axis_length encoder x) encoder.dimension_count 0
        = stride_of (chunk_extent encoder x) encoder.dimension_count 0 :=
      stride_of_congr _ _ _ _
        (fun j _ hj => (axis_length_eq encoder x hdims hchunks hpad hfit j hj).1)
    have h3 : stride_of (chunk_extent encoder x) encoder.dimension_count 0
        ≤ stride_of encoder.dimensions encoder.dimension_count 0 :=
      stride_of_mono _ _ _ _
        (fun j _ hj => (axis_length_eq encoder x hdims hchunks hpad hfit j hj).2)
    have h4 := hfit
    rw [total_eq] at h4
    rw [h1, h2, Nat.mod_eq_of_lt (by omega), Nat.sub_self]
    rfl
  refine ⟨?_, ?_, ?_⟩
  · rw [hcount]
    unfold stride_of
    rw [Finset.range_eq_Ico]
  · rw [hcount]
    have hsum := mixed_radix_sum (chunks_along encoder)
      (fun i c => min ((c + 1) * encoder.chunks i) (encoder.dimensions i)
        - c * encoder.chunks i)
      encoder.dimension_count hn encoder.dimension_count (Nat.le_refl _)
    rw [Finset.sum_congr rfl (fun x _ => hlen x)]
    rw [Nat.sub_self] at hsum ⊢
    rw [hsum, total_eq]
    unfold stride_of
    apply Finset.prod_congr rfl
    intro i hi
    rw [Finset.mem_Ico] at hi
    exact axis_extent_sum _ _ (hchunks i hi.2)
  · intro a b ha hb h
    rw [hcount] at ha hb
    apply digits_injective (chunks_along encoder) encoder.dimension_count a b ha hb
    intro i hi
    have := h i hi
    rw [axis_coordinate_eq encoder a hdims hchunks hfit i hi,
      axis_coordinate_eq encoder b hdims hchunks hfit i hi] at this
    exact this

/-- The sample encoder, a `5 x 5` array in chunks of `2 x 2`: nine chunks, whose lengths
4, 4, 2, 4, 4, 2, 2, 2, 1 add up to 25. -/
theorem chunks_partition_witness :
    (∏ i in Finset.range exEncoder.dimension_count, exEncoder.dimensions i)
        < 18446744073709551616
      ∧ om_encoder_number_of_chunks exEncoder = 9
      ∧ (List.range 9).map (om_encoder_lengthInChunk exEncoder) = [4, 4, 2, 4, 4, 2, 2, 2, 1]
      ∧ ∑ chunkIndex in Finset.range (om_encoder_number_of_chunks exEncoder),
          om_encoder_lengthInChunk exEncoder chunkIndex
        = ∏ i in Finset.range exEncoder.dimension_count, exEncoder.dimensions i :=
  ⟨by decide, by decide, by decide,
    (chunks_partition exEncoder (by decide) (by decide) (by decide) (by decide)).2.1⟩

/-- C22, as stated, fails where the number of chunks leaves `uint64_t`: for the extents
`[2^32, 2^32]` in chunks of `[1, 1]` the function `om_encoder_number_of_chunks` returns
`2^64 mod 2^64 = 0`, so the sum over the chunk indices below it is empty, while the array has
`2^64` elements. -/
theorem chunks_partition_counterexample :
    1 ≤ exEncoderHuge.dimension_count
      ∧ (∀ i, i < exEncoderHuge.dimension_count → 1 ≤ exEncoderHuge.dimensions i)
      ∧ (∀ i, i < exEncoderHuge.dimension_count → 1 ≤ exEncoderHuge.chunks i)
      ∧ ∑ chunkIndex in Finset.range (om_encoder_number_of_chunks exEncoderHuge),
          om_encoder_lengthInChunk exEncoderHuge chunkIndex = 0
      ∧ (∏ i in Finset.range exEncoderHuge.dimension_count, exEncoderHuge.dimensions i)
          = 18446744073709551616
      ∧ ∑ chunkIndex in Finset.range (om_encoder_number_of_chunks exEncoderHuge),
          om_encoder_lengthInChunk exEncoderHuge chunkIndex
        ≠ ∏ i in Finset.range exEncoderHuge.dimension_count, exEncoderHuge.dimensions i := by
  refine ⟨by decide, by decide, by decide, by decide, by decide, by decide⟩

/-- An extent that wraps: for an array of `2^64 - 1` elements in chunks of `2^63` the second
chunk has `2^63 - 1` elements, but `(c0 + 1) * chunks[0] = 2^64` wraps to 0 and `length0`
comes out as `2^63`; the two chunk lengths add up to `2^64`, one more than the array has. -/
theorem edge_extent_wraps :
    om_encoder_number_of_chunks exEncoderEdge = 2
      ∧ om_encoder_lengthInChunk exEncoderEdge 0 = 9223372036854775808
      ∧ om_encoder_lengthInChunk exEncoderEdge 1 = 9223372036854775808
      ∧ chunk_extent exEncoderEdge 1 0 = 9223372036854775807 := by
  refine ⟨by decide, by decide, by decide, by decide⟩

end OmFile
